import Mathlib

/-! Instruction selection of `CodeGen_ARM.cpp`.

A shallow embedding of the ARM/NEON instruction selector of the pipeline
compiler (`src/cpp/src/CodeGen_ARM.cpp`): the handlers for `Cast`, `Mul`, `Div`,
`Min`, `Max`, `LT`, `LE`, `Select`, `Store` and `Load` nodes, the helper
`is_const_power_of_two`, and the lane-level meaning of the nodes and of the
machine operations they emit, the interleaving loads and stores included; and
of two loops of `simple_autoschedule` (`src/src/SimpleAutoSchedule.cpp`), the
inlining filter and the search for the reduction dimensions to tile.

Lane values are bit patterns: a lane of width `w` is a natural number below
`2 ^ w`; `toSigned` gives its two's-complement reading.
-/

namespace Halide

/-! ## Lane arithmetic -/

/-- The bit pattern of width `w` of the integer `i` (truncation to `w` bits). -/
def ofInt (w : Nat) (i : Int) : Nat := (i % (2 : Int) ^ w).toNat

/-- The two's-complement reading of the `w`-bit pattern `x`. -/
def toSigned (w : Nat) (x : Nat) : Int :=
  if x < 2 ^ (w - 1) then (x : Int) else (x : Int) - (2 : Int) ^ w

/-- Lane meaning of `builder->CreateAdd` at width `w`. -/
def CreateAdd (w x y : Nat) : Nat := (x + y) % 2 ^ w

/-- Lane meaning of `builder->CreateSub` at width `w`. -/
def CreateSub (w x y : Nat) : Nat := ofInt w ((x : Int) - (y : Int))

/-- Lane meaning of `builder->CreateLShr` at width `w`: a shift by `w` or more
has no defined result. -/
def CreateLShr (w x k : Nat) : Option Nat :=
  if k < w then some (x >>> k) else none

/-- Lane meaning of `builder->CreateAShr` at width `w`: a shift by `w` or more
has no defined result. -/
def CreateAShr (w x k : Nat) : Option Nat :=
  if k < w then some (ofInt w (toSigned w x >>> k)) else none

/-- Lane meaning of `builder->CreateSDiv` at width `w`, the signed division of
the generic lowering: the quotient truncated toward zero; division by zero and
the overflowing quotient have no defined result. -/
def CreateSDiv (w x y : Nat) : Option Nat :=
  if toSigned w y = 0 then none
  else if toSigned w x = -(2 : Int) ^ (w - 1) ∧ toSigned w y = -1 then none
  else some (ofInt w (Int.tdiv (toSigned w x) (toSigned w y)))

/-- Lane meaning of `builder->CreateUDiv` at width `w`. -/
def CreateUDiv (_w x y : Nat) : Option Nat :=
  if y = 0 then none else some (x / y)

/-- Lane meaning of the NEON signed widening multiply `vmulls`: the product of
two signed `w`-bit lanes as a `2 * w`-bit pattern. -/
def vmulls (w x y : Nat) : Nat := ofInt (2 * w) (toSigned w x * toSigned w y)

/-- Lane meaning of the NEON unsigned widening multiply `vmullu`. -/
def vmullu (w x y : Nat) : Nat := (x * y) % 2 ^ (2 * w)

/-- Lane meaning of the NEON narrowing shift `vshiftn` with the shift operand
`-k`: bits `k .. k + w - 1` of the wide lane. -/
def vshiftn (w p k : Nat) : Nat := (p / 2 ^ k) % 2 ^ w

/-! ## Division tables -/

namespace IntegerDivision

/-- Modelled from the spec: `integer_division_table.h` is not among the
sources.  Rows are `(method, multiplier, shift)` for the divisors `2 .. 63`,
derived by the classic strength-reduction construction for signed 16-bit
division: `multiplier = floor(2 ^ (16 + shift) / d) + 1` for the least adequate
`shift`, `method = 1` when the multiplier does not fit in 15 bits, and
`(0, 0, log2 d)` for a power of two. -/
def table_s16 : List (Int × Int × Int) :=
  [(0, 0, 1), (0, 21846, 0), (0, 0, 2), (0, 26215, 1), (0, 10923, 0), (0, 18725, 1),
   (0, 0, 3), (0, 7282, 0), (0, 26215, 2), (0, 5958, 0), (0, 10923, 1), (0, 20165, 2),
   (0, 18725, 2), (1, 34953, 3), (0, 0, 4), (0, 30841, 3), (0, 3641, 0), (1, 55189, 4),
   (0, 26215, 3), (1, 49933, 4), (0, 2979, 0), (1, 45591, 4), (0, 10923, 2), (0, 5243, 1),
   (0, 20165, 3), (1, 38837, 4), (0, 18725, 3), (0, 18079, 3), (1, 34953, 4), (0, 16913, 3),
   (0, 0, 5), (0, 1986, 0), (0, 30841, 4), (0, 3745, 1), (0, 3641, 1), (0, 7085, 2),
   (1, 55189, 5), (0, 26887, 4), (0, 26215, 4), (1, 51151, 5), (1, 49933, 5), (0, 12193, 3),
   (0, 2979, 1), (0, 11651, 3), (1, 45591, 5), (1, 44621, 5), (0, 10923, 3), (0, 2675, 1),
   (0, 5243, 2), (1, 41121, 5), (0, 20165, 4), (0, 19785, 4), (1, 38837, 5), (1, 38131, 5),
   (0, 18725, 4), (1, 36793, 5), (0, 18079, 4), (0, 17773, 4), (1, 34953, 5), (0, 8595, 3),
   (0, 16913, 4), (1, 33289, 5)]

/-- Modelled from the spec: `integer_division_table.h` is not among the
sources.  Rows are `(method, multiplier, shift)` for the divisors `2 .. 63`,
derived by the classic strength-reduction construction for unsigned 16-bit
division: `method = 0` is a pure shift (powers of two), `method = 1` uses
`multiplier = ceil(2 ^ (16 + shift) / d)`, and `method = 2` uses the 17-bit
multiplier `2 ^ 16 + multiplier = ceil(2 ^ (17 + shift) / d)`. -/
def table_u16 : List (Int × Int × Int) :=
  [(0, 0, 1), (1, 43691, 1), (0, 0, 2), (1, 52429, 2), (1, 43691, 2), (2, 9363, 2),
   (0, 0, 3), (1, 58255, 3), (1, 52429, 3), (1, 47663, 3), (1, 43691, 3), (1, 20165, 2),
   (2, 9363, 3), (1, 34953, 3), (0, 0, 4), (1, 61681, 4), (1, 58255, 4), (1, 55189, 4),
   (1, 52429, 4), (2, 34329, 4), (1, 47663, 4), (2, 25645, 4), (1, 43691, 4), (2, 18351, 4),
   (1, 20165, 3), (2, 12137, 4), (2, 9363, 4), (1, 18079, 3), (1, 34953, 4), (2, 2115, 4),
   (0, 0, 5), (1, 63551, 5), (1, 61681, 5), (1, 59919, 5), (1, 58255, 5), (1, 7085, 2),
   (1, 55189, 5), (2, 42011, 5), (1, 52429, 5), (2, 36765, 5), (2, 34329, 5), (1, 48771, 5),
   (1, 47663, 5), (1, 11651, 3), (2, 25645, 5), (2, 23705, 5), (1, 43691, 5), (2, 20063, 5),
   (2, 18351, 5), (1, 41121, 5), (1, 20165, 4), (1, 39569, 5), (2, 12137, 5), (2, 10725, 5),
   (2, 9363, 5), (2, 8049, 5), (1, 18079, 4), (1, 35545, 5), (1, 34953, 5), (1, 8595, 3),
   (2, 2115, 5), (2, 1041, 5)]

end IntegerDivision

/-- A read of row `i` of a division table; `none` is a read outside the
table. -/
def table_read (table : List (Int × Int × Int)) (i : Int) : Option (Int × Int × Int) :=
  if 0 ≤ i then table.get? i.toNat else none

/-! ## The magic-number paths of `CodeGen_ARM::visit(const Div *)`, per lane -/

/-- One lane of the `Int(16, 4)` path (lines 528-561) for the table row
`(method, multiplier, shift)` and the numerator lane `val`. -/
def magic_s16_lane (method multiplier shift : Int) (val : Nat) : Option Nat :=
  let mult : Nat :=
    if multiplier ≠ 0 then
      let m := ofInt 16 multiplier
      let high := vshiftn 16 (vmulls 16 val m) 16
      if method = 1 then CreateAdd 16 high val else high
    else val
  let shifted : Option Nat :=
    if shift ≠ 0 then CreateAShr 16 mult (ofInt 16 shift) else some mult
  match shifted, CreateLShr 16 val (ofInt 16 (16 - 1)) with
  | some m, some sign_bit => some (CreateAdd 16 m sign_bit)
  | _, _ => none

/-- One lane of the `UInt(16, 8)` path (lines 562-588) for the table row
`(method, multiplier, shift)` and the numerator lane `val`. -/
def magic_u16_lane (method multiplier shift : Int) (val : Nat) : Option Nat :=
  let mult : Option Nat :=
    if method > 0 then
      let m := ofInt 16 multiplier
      let high := vshiftn 16 (vmullu 16 val m) 16
      if method = 2 then
        match CreateLShr 16 (CreateSub 16 val high) 1 with
        | some correction => some (CreateAdd 16 high correction)
        | none => none
      else some high
    else some val
  match mult with
  | some m => CreateLShr 16 m (ofInt 16 shift)
  | none => none


/-! ## Integer readings of the magic-number paths -/

/-- A signed 16-bit value after an overflowing operation. -/
def wrap16 (x : Int) : Int := (x + 32768) % 65536 - 32768

/-- The `Int(16, 4)` path on the signed reading `s` of the numerator lane, in
integer arithmetic. -/
def magic_s16_int (method multiplier shift : Int) (s : Int) : Int :=
  let mult : Int :=
    if multiplier ≠ 0 then
      let high := wrap16 (s * wrap16 multiplier / 65536)
      if method = 1 then wrap16 (high + s) else high
    else s
  let shifted : Int := if shift ≠ 0 then mult / 2 ^ shift.toNat else mult
  shifted + (if s < 0 then 1 else 0)

/-- The `UInt(16, 8)` path on the numerator lane, in natural-number arithmetic
without wrapping. -/
def magic_u16_nat (method multiplier shift : Int) (val : Nat) : Nat :=
  let mult : Nat :=
    if method > 0 then
      let high := val * multiplier.toNat / 65536
      if method = 2 then high + (val - high) / 2 else high
    else val
  mult / 2 ^ shift.toNat


/-! ## Types and IR nodes -/

/-- The base kind of a lane type (`Type::t`). -/
inductive TypeCode
  | Int
  | UInt
  | Float
deriving DecidableEq, Repr

/-- The `Type` of the IR: base kind, bits per lane, number of lanes. -/
structure HalideType where
  t : TypeCode
  bits : Nat
  width : Nat
deriving DecidableEq, Repr

/-- The type constructor `Int(bits, width)`. -/
def Int_ (bits : Nat) (width : Nat) : HalideType := ⟨TypeCode.Int, bits, width⟩

/-- The type constructor `UInt(bits, width)`. -/
def UInt_ (bits : Nat) (width : Nat) : HalideType := ⟨TypeCode.UInt, bits, width⟩

/-- The type constructor `Float(bits, width)`. -/
def Float_ (bits : Nat) (width : Nat) : HalideType := ⟨TypeCode.Float, bits, width⟩

/-- The type constructor `Bool(width)`, an unsigned one-bit lane. -/
def Bool_ (width : Nat) : HalideType := ⟨TypeCode.UInt, 1, width⟩

def HalideType.is_int (ty : HalideType) : Bool := ty.t = TypeCode.Int

def HalideType.is_uint (ty : HalideType) : Bool := ty.t = TypeCode.UInt

def HalideType.is_float (ty : HalideType) : Bool := ty.t = TypeCode.Float

def HalideType.is_vector (ty : HalideType) : Bool := decide (ty.width > 1)

def HalideType.is_scalar (ty : HalideType) : Bool := decide (ty.width = 1)

def HalideType.element_of (ty : HalideType) : HalideType := ⟨ty.t, ty.bits, 1⟩

def HalideType.vector_of (ty : HalideType) (w : Nat) : HalideType := ⟨ty.t, ty.bits, w⟩

/-- Modelled from the spec: `IR.h` is not among the sources.  The expression
nodes the selector inspects.  An `IntImm` holds a C `int`; a `FloatImm` is kept
as the bit pattern of its single-precision value. -/
inductive Expr
  | IntImm (value : Int)
  | FloatImm (value : Nat)
  | Cast (type : HalideType) (value : Expr)
  | Variable (type : HalideType) (name : String)
  | Add (a b : Expr)
  | Sub (a b : Expr)
  | Mul (a b : Expr)
  | Div (a b : Expr)
  | Min (a b : Expr)
  | Max (a b : Expr)
  | LT (a b : Expr)
  | LE (a b : Expr)
  | Select (condition true_value false_value : Expr)
  | Load (type : HalideType) (name : String) (index : Expr)
  | Ramp (base stride : Expr) (width : Nat)
  | Broadcast (value : Expr) (width : Nat)
  | Call (type : HalideType) (name : String) (args : List Expr)
deriving Repr

/-- The type every node carries (`Expr::type()`): stored on leaves, casts,
loads and calls, inherited from the first operand by the binary operators. -/
def Expr.type : Expr → HalideType
  | .IntImm _ => Int_ 32 1
  | .FloatImm _ => Float_ 32 1
  | .Cast t _ => t
  | .Variable t _ => t
  | .Add a _ => a.type
  | .Sub a _ => a.type
  | .Mul a _ => a.type
  | .Div a _ => a.type
  | .Min a _ => a.type
  | .Max a _ => a.type
  | .LT a _ => Bool_ a.type.width
  | .LE a _ => Bool_ a.type.width
  | .Select _ tv _ => tv.type
  | .Load t _ _ => t
  | .Ramp base _ w => base.type.vector_of w
  | .Broadcast v w => v.type.vector_of w
  | .Call t _ _ => t

/-- The test `e.as<Add>()`. -/
def Expr.is_Add : Expr → Bool
  | .Add _ _ => true
  | _ => false

/-- The test `e.as<Sub>()`. -/
def Expr.is_Sub : Expr → Bool
  | .Sub _ _ => true
  | _ => false

/-- Modelled from the spec: `IROperator.h` is not among the sources.  `is_one`
holds of the constant one under any nesting of casts and broadcasts. -/
def is_one : Expr → Bool
  | .IntImm v => decide (v = 1)
  | .FloatImm v => decide (v = 0x3f800000)
  | .Cast _ v => is_one v
  | .Broadcast v _ => is_one v
  | _ => false

/-- Modelled from the spec: `IROperator.h` is not among the sources.  `is_two`
holds of the constant two under any nesting of casts and broadcasts. -/
def is_two : Expr → Bool
  | .IntImm v => decide (v = 2)
  | .FloatImm v => decide (v = 0x40000000)
  | .Cast _ v => is_two v
  | .Broadcast v _ => is_two v
  | _ => false

/-! ## `is_const_power_of_two` (lines 51-71) -/

/-- A C `int` after an overflowing operation, read as wrapping modulo `2 ^ 32`. -/
def wrap32 (x : Int) : Int := (x + 2147483648) % 4294967296 - 2147483648

/-- The loop `for (tmp = 1; tmp < value; tmp *= 2) bit_count++` started from
`(tmp, bit_count)`; `fuel` bounds the number of tests of the loop condition and
`none` means the bound was reached.  The result is the final
`(tmp, bit_count)`. -/
def power_of_two_loop : Nat → Int → Int → Int → Option (Int × Int)
  | 0, _, _, _ => none
  | fuel + 1, value, tmp, bit_count =>
    if tmp < value then power_of_two_loop fuel value (wrap32 (tmp * 2)) (wrap32 (bit_count + 1))
    else some (tmp, bit_count)

/-- The helper `is_const_power_of_two(e, &bits)`: `some (some k)` is the answer
`true` with `*bits = k`, `some none` is the answer `false`, and `none` means the
loop did not finish within `fuel` tests. -/
def is_const_power_of_two (fuel : Nat) : Expr → Option (Option Int)
  | .Broadcast value _ => is_const_power_of_two fuel value
  | .Cast _ value => is_const_power_of_two fuel value
  | .IntImm value =>
    match power_of_two_loop fuel value 1 0 with
    | none => none
    | some (tmp, bit_count) => if tmp = value then some (some bit_count) else some none
  | _ => some none

/-! ## Pattern matching -/

/-- Modelled from the spec: `IRMatch.h` is not among the sources.  Matching is
purely structural: the node kinds must agree, constants must be identical, and
a wildcard (a variable named `*`, constrained to its type) accepts any subtree
of that type.  The matched subtrees are collected in left-to-right order, one
per wildcard position, which is how the handlers read them (`matches[0]` is the
operand and `matches[1]` the divisor of `wild_i16x8/wild_i16x8`): the wildcards
of the rule tables all carry the name `*` and each position binds on its own.
The contract for wildcards with names of their own is `match_bindings`. -/
def expr_match_acc : Expr → Expr → List Expr → Option (List Expr)
  | .Variable t name, e, ms =>
    if name = "*" then
      if t = e.type then some (ms ++ [e]) else none
    else
      match e with
      | .Variable t2 name2 => if t = t2 ∧ name = name2 then some ms else none
      | _ => none
  | .IntImm v, e, ms =>
    match e with
    | .IntImm v2 => if v = v2 then some ms else none
    | _ => none
  | .FloatImm v, e, ms =>
    match e with
    | .FloatImm v2 => if v = v2 then some ms else none
    | _ => none
  | .Cast t p, e, ms =>
    match e with
    | .Cast t2 x => if t = t2 then expr_match_acc p x ms else none
    | _ => none
  | .Add pa pb, e, ms =>
    match e with
    | .Add a b => (expr_match_acc pa a ms).bind (expr_match_acc pb b)
    | _ => none
  | .Sub pa pb, e, ms =>
    match e with
    | .Sub a b => (expr_match_acc pa a ms).bind (expr_match_acc pb b)
    | _ => none
  | .Mul pa pb, e, ms =>
    match e with
    | .Mul a b => (expr_match_acc pa a ms).bind (expr_match_acc pb b)
    | _ => none
  | .Div pa pb, e, ms =>
    match e with
    | .Div a b => (expr_match_acc pa a ms).bind (expr_match_acc pb b)
    | _ => none
  | .Min pa pb, e, ms =>
    match e with
    | .Min a b => (expr_match_acc pa a ms).bind (expr_match_acc pb b)
    | _ => none
  | .Max pa pb, e, ms =>
    match e with
    | .Max a b => (expr_match_acc pa a ms).bind (expr_match_acc pb b)
    | _ => none
  | .LT pa pb, e, ms =>
    match e with
    | .LT a b => (expr_match_acc pa a ms).bind (expr_match_acc pb b)
    | _ => none
  | .LE pa pb, e, ms =>
    match e with
    | .LE a b => (expr_match_acc pa a ms).bind (expr_match_acc pb b)
    | _ => none
  | .Select pc pt pf, e, ms =>
    match e with
    | .Select c tv fv =>
      ((expr_match_acc pc c ms).bind (expr_match_acc pt tv)).bind (expr_match_acc pf fv)
    | _ => none
  | .Load t name pi, e, ms =>
    match e with
    | .Load t2 name2 i => if t = t2 ∧ name = name2 then expr_match_acc pi i ms else none
    | _ => none
  | .Ramp pb ps w, e, ms =>
    match e with
    | .Ramp b s w2 => if w = w2 then (expr_match_acc pb b ms).bind (expr_match_acc ps s) else none
    | _ => none
  | .Broadcast p w, e, ms =>
    match e with
    | .Broadcast x w2 => if w = w2 then expr_match_acc p x ms else none
    | _ => none
  | .Call t name pargs, e, ms =>
    match e with
    | .Call t2 name2 args => if t = t2 ∧ name = name2 then match_args pargs args ms else none
    | _ => none
where
  /-- Argument lists match position by position and must have equal length. -/
  match_args : List Expr → List Expr → List Expr → Option (List Expr)
    | [], [], ms => some ms
    | p :: ps, e :: es, ms => (expr_match_acc p e ms).bind (match_args ps es)
    | _, _, _ => none

/-- The entry point `expr_match(pattern, expr, matches)`: `some matches` on
success, `none` on failure. -/
def expr_match (pattern e : Expr) : Option (List Expr) := expr_match_acc pattern e []

/-! ## Expression builders used by the pattern tables -/

/-- Modelled from the spec: `IROperator.h` is not among the sources.  A cast to
a scalar type; a cast to the type the operand already has is the operand. -/
def cast_scalar (t : HalideType) (a : Expr) : Expr :=
  if a.type = t then a else .Cast t a

/-- Modelled from the spec: `IROperator.h` is not among the sources.  The
builder `cast(t, a)`: the operand itself when it already has type `t`, a
broadcast of the cast scalar when a scalar or a broadcast goes to a vector type,
and a `Cast` node otherwise. -/
def cast (t : HalideType) (a : Expr) : Expr :=
  if a.type = t then a
  else if t.is_vector then
    if a.type.is_scalar then .Broadcast (cast_scalar t.element_of a) t.width
    else
      match a with
      | .Broadcast v _ => .Broadcast (cast_scalar t.element_of v) t.width
      | _ => .Cast t a
  else .Cast t a

/-- Modelled from the spec: `IROperator.h` is not among the sources.  The sum
`a + k` of an expression and an `int` literal: the literal takes the type of
`a`. -/
def add_int (a : Expr) (k : Int) : Expr := .Add a (cast a.type (.IntImm k))

/-- Modelled from the spec: `IROperator.h` is not among the sources.  The
quotient `a / k` of an expression and an `int` literal. -/
def div_int (a : Expr) (k : Int) : Expr := .Div a (cast a.type (.IntImm k))

/-- Modelled from the spec: `IROperator.h` is not among the sources.  The
builder `min(a, k)` with an `int` literal. -/
def min_int (a : Expr) (k : Int) : Expr := .Min a (cast a.type (.IntImm k))

/-- Modelled from the spec: `IROperator.h` is not among the sources.  The
builder `clamp(a, min_val, max_val)` with `int` bounds. -/
def clamp (a : Expr) (min_val max_val : Int) : Expr :=
  .Max (.Min a (cast a.type (.IntImm max_val))) (cast a.type (.IntImm min_val))

def wild_i8x8 : Expr := .Variable (Int_ 8 8) "*"

def wild_i8x16 : Expr := .Variable (Int_ 8 16) "*"

def wild_i16x4 : Expr := .Variable (Int_ 16 4) "*"

def wild_i16x8 : Expr := .Variable (Int_ 16 8) "*"

def wild_i32x2 : Expr := .Variable (Int_ 32 2) "*"

def wild_i32x4 : Expr := .Variable (Int_ 32 4) "*"

def wild_i64x2 : Expr := .Variable (Int_ 64 2) "*"

def wild_u8x8 : Expr := .Variable (UInt_ 8 8) "*"

def wild_u8x16 : Expr := .Variable (UInt_ 8 16) "*"

def wild_u16x4 : Expr := .Variable (UInt_ 16 4) "*"

def wild_u16x8 : Expr := .Variable (UInt_ 16 8) "*"

def wild_u32x2 : Expr := .Variable (UInt_ 32 2) "*"

def wild_u32x4 : Expr := .Variable (UInt_ 32 4) "*"

def wild_u64x2 : Expr := .Variable (UInt_ 64 2) "*"

def wild_f32x2 : Expr := .Variable (Float_ 32 2) "*"

def wild_f32x4 : Expr := .Variable (Float_ 32 4) "*"

/-! The cast operators of lines 111-149. -/

def _i64 (e : Expr) : Expr := cast (Int_ 64 e.type.width) e

def _i32 (e : Expr) : Expr := cast (Int_ 32 e.type.width) e

def _i16 (e : Expr) : Expr := cast (Int_ 16 e.type.width) e

def _i8 (e : Expr) : Expr := cast (Int_ 8 e.type.width) e

def _u64 (e : Expr) : Expr := cast (UInt_ 64 e.type.width) e

def _u32 (e : Expr) : Expr := cast (UInt_ 32 e.type.width) e

def _u16 (e : Expr) : Expr := cast (UInt_ 16 e.type.width) e

def _u8 (e : Expr) : Expr := cast (UInt_ 8 e.type.width) e

def _f32 (e : Expr) : Expr := cast (Float_ 32 e.type.width) e

def _f64 (e : Expr) : Expr := cast (Float_ 64 e.type.width) e

/-! The saturating cast operators of lines 151-174. -/

def _i8q (e : Expr) : Expr := cast (Int_ 8 e.type.width) (clamp e (-128) 127)

def _u8q (e : Expr) : Expr :=
  if e.type.is_uint then cast (UInt_ 8 e.type.width) (min_int e 255)
  else cast (UInt_ 8 e.type.width) (clamp e 0 255)

def _i16q (e : Expr) : Expr := cast (Int_ 16 e.type.width) (clamp e (-32768) 32767)

def _u16q (e : Expr) : Expr :=
  if e.type.is_uint then cast (UInt_ 16 e.type.width) (min_int e 65535)
  else cast (UInt_ 16 e.type.width) (clamp e 0 65535)

/-! ## `CodeGen_ARM::visit(const Cast *)` (lines 239-363) -/

/-- A row of the rule table of the `Cast` handler. -/
structure visit_Cast_Pattern where
  intrin : String
  pattern : Expr
  shift : Bool

/-- The rule table `patterns[]` of lines 249-338, in source order; the last row
is the sentinel. -/
def visit_Cast_patterns : List visit_Cast_Pattern :=
  [
   visit_Cast_Pattern.mk "vaddhn.v8i8" (_i8 (div_int (.Add wild_i16x8 wild_i16x8) 256)) false,
   visit_Cast_Pattern.mk "vaddhn.v4i16" (_i16 (div_int (.Add wild_i32x4 wild_i32x4) 65536)) false,
   visit_Cast_Pattern.mk "vaddhn.v8i8" (_u8 (div_int (.Add wild_u16x8 wild_u16x8) 256)) false,
   visit_Cast_Pattern.mk "vaddhn.v4i16" (_u16 (div_int (.Add wild_u32x4 wild_u32x4) 65536)) false,
   visit_Cast_Pattern.mk "vsubhn.v8i8" (_i8 (div_int (.Sub wild_i16x8 wild_i16x8) 256)) false,
   visit_Cast_Pattern.mk "vsubhn.v4i16" (_i16 (div_int (.Sub wild_i32x4 wild_i32x4) 65536)) false,
   visit_Cast_Pattern.mk "vsubhn.v8i8" (_u8 (div_int (.Sub wild_u16x8 wild_u16x8) 256)) false,
   visit_Cast_Pattern.mk "vsubhn.v4i16" (_u16 (div_int (.Sub wild_u32x4 wild_u32x4) 65536)) false,
   visit_Cast_Pattern.mk "vrhadds.v8i8" (_i8 (div_int (add_int (.Add (_i16 wild_i8x8) (_i16 wild_i8x8)) 1) 2)) false,
   visit_Cast_Pattern.mk "vrhaddu.v8i8" (_u8 (div_int (add_int (.Add (_u16 wild_u8x8) (_u16 wild_u8x8)) 1) 2)) false,
   visit_Cast_Pattern.mk "vrhadds.v4i16" (_i16 (div_int (add_int (.Add (_i32 wild_i16x4) (_i32 wild_i16x4)) 1) 2)) false,
   visit_Cast_Pattern.mk "vrhaddu.v4i16" (_u16 (div_int (add_int (.Add (_u32 wild_u16x4) (_u32 wild_u16x4)) 1) 2)) false,
   visit_Cast_Pattern.mk "vrhadds.v2i32" (_i32 (div_int (add_int (.Add (_i64 wild_i32x2) (_i64 wild_i32x2)) 1) 2)) false,
   visit_Cast_Pattern.mk "vrhaddu.v2i32" (_u32 (div_int (add_int (.Add (_u64 wild_u32x2) (_u64 wild_u32x2)) 1) 2)) false,
   visit_Cast_Pattern.mk "vrhadds.v16i8" (_i8 (div_int (add_int (.Add (_i16 wild_i8x16) (_i16 wild_i8x16)) 1) 2)) false,
   visit_Cast_Pattern.mk "vrhaddu.v16i8" (_u8 (div_int (add_int (.Add (_u16 wild_u8x16) (_u16 wild_u8x16)) 1) 2)) false,
   visit_Cast_Pattern.mk "vrhadds.v8i16" (_i16 (div_int (add_int (.Add (_i32 wild_i16x8) (_i32 wild_i16x8)) 1) 2)) false,
   visit_Cast_Pattern.mk "vrhaddu.v8i16" (_u16 (div_int (add_int (.Add (_u32 wild_u16x8) (_u32 wild_u16x8)) 1) 2)) false,
   visit_Cast_Pattern.mk "vrhadds.v4i32" (_i32 (div_int (add_int (.Add (_i64 wild_i32x4) (_i64 wild_i32x4)) 1) 2)) false,
   visit_Cast_Pattern.mk "vrhaddu.v4i32" (_u32 (div_int (add_int (.Add (_u64 wild_u32x4) (_u64 wild_u32x4)) 1) 2)) false,
   visit_Cast_Pattern.mk "vhadds.v8i8" (_i8 (div_int (.Add (_i16 wild_i8x8) (_i16 wild_i8x8)) 2)) false,
   visit_Cast_Pattern.mk "vhaddu.v8i8" (_u8 (div_int (.Add (_u16 wild_u8x8) (_u16 wild_u8x8)) 2)) false,
   visit_Cast_Pattern.mk "vhadds.v4i16" (_i16 (div_int (.Add (_i32 wild_i16x4) (_i32 wild_i16x4)) 2)) false,
   visit_Cast_Pattern.mk "vhaddu.v4i16" (_u16 (div_int (.Add (_u32 wild_u16x4) (_u32 wild_u16x4)) 2)) false,
   visit_Cast_Pattern.mk "vhadds.v2i32" (_i32 (div_int (.Add (_i64 wild_i32x2) (_i64 wild_i32x2)) 2)) false,
   visit_Cast_Pattern.mk "vhaddu.v2i32" (_u32 (div_int (.Add (_u64 wild_u32x2) (_u64 wild_u32x2)) 2)) false,
   visit_Cast_Pattern.mk "vhadds.v16i8" (_i8 (div_int (.Add (_i16 wild_i8x16) (_i16 wild_i8x16)) 2)) false,
   visit_Cast_Pattern.mk "vhaddu.v16i8" (_u8 (div_int (.Add (_u16 wild_u8x16) (_u16 wild_u8x16)) 2)) false,
   visit_Cast_Pattern.mk "vhadds.v8i16" (_i16 (div_int (.Add (_i32 wild_i16x8) (_i32 wild_i16x8)) 2)) false,
   visit_Cast_Pattern.mk "vhaddu.v8i16" (_u16 (div_int (.Add (_u32 wild_u16x8) (_u32 wild_u16x8)) 2)) false,
   visit_Cast_Pattern.mk "vhadds.v4i32" (_i32 (div_int (.Add (_i64 wild_i32x4) (_i64 wild_i32x4)) 2)) false,
   visit_Cast_Pattern.mk "vhaddu.v4i32" (_u32 (div_int (.Add (_u64 wild_u32x4) (_u64 wild_u32x4)) 2)) false,
   visit_Cast_Pattern.mk "vhsubs.v8i8" (_i8 (div_int (.Sub (_i16 wild_i8x8) (_i16 wild_i8x8)) 2)) false,
   visit_Cast_Pattern.mk "vhsubu.v8i8" (_u8 (div_int (.Sub (_u16 wild_u8x8) (_u16 wild_u8x8)) 2)) false,
   visit_Cast_Pattern.mk "vhsubs.v4i16" (_i16 (div_int (.Sub (_i32 wild_i16x4) (_i32 wild_i16x4)) 2)) false,
   visit_Cast_Pattern.mk "vhsubu.v4i16" (_u16 (div_int (.Sub (_u32 wild_u16x4) (_u32 wild_u16x4)) 2)) false,
   visit_Cast_Pattern.mk "vhsubs.v2i32" (_i32 (div_int (.Sub (_i64 wild_i32x2) (_i64 wild_i32x2)) 2)) false,
   visit_Cast_Pattern.mk "vhsubu.v2i32" (_u32 (div_int (.Sub (_u64 wild_u32x2) (_u64 wild_u32x2)) 2)) false,
   visit_Cast_Pattern.mk "vhsubs.v16i8" (_i8 (div_int (.Sub (_i16 wild_i8x16) (_i16 wild_i8x16)) 2)) false,
   visit_Cast_Pattern.mk "vhsubu.v16i8" (_u8 (div_int (.Sub (_u16 wild_u8x16) (_u16 wild_u8x16)) 2)) false,
   visit_Cast_Pattern.mk "vhsubs.v8i16" (_i16 (div_int (.Sub (_i32 wild_i16x8) (_i32 wild_i16x8)) 2)) false,
   visit_Cast_Pattern.mk "vhsubu.v8i16" (_u16 (div_int (.Sub (_u32 wild_u16x8) (_u32 wild_u16x8)) 2)) false,
   visit_Cast_Pattern.mk "vhsubs.v4i32" (_i32 (div_int (.Sub (_i64 wild_i32x4) (_i64 wild_i32x4)) 2)) false,
   visit_Cast_Pattern.mk "vhsubu.v4i32" (_u32 (div_int (.Sub (_u64 wild_u32x4) (_u64 wild_u32x4)) 2)) false,
   visit_Cast_Pattern.mk "vqadds.v8i8" (_i8q (.Add (_i16 wild_i8x8) (_i16 wild_i8x8))) false,
   visit_Cast_Pattern.mk "vqaddu.v8i8" (_u8q (.Add (_u16 wild_u8x8) (_u16 wild_u8x8))) false,
   visit_Cast_Pattern.mk "vqadds.v4i16" (_i16q (.Add (_i32 wild_i16x4) (_i32 wild_i16x4))) false,
   visit_Cast_Pattern.mk "vqaddu.v4i16" (_u16q (.Add (_u32 wild_u16x4) (_u32 wild_u16x4))) false,
   visit_Cast_Pattern.mk "vqadds.v16i8" (_i8q (.Add (_i16 wild_i8x16) (_i16 wild_i8x16))) false,
   visit_Cast_Pattern.mk "vqaddu.v16i8" (_u8q (.Add (_u16 wild_u8x16) (_u16 wild_u8x16))) false,
   visit_Cast_Pattern.mk "vqadds.v8i16" (_i16q (.Add (_i32 wild_i16x8) (_i32 wild_i16x8))) false,
   visit_Cast_Pattern.mk "vqaddu.v8i16" (_u16q (.Add (_u32 wild_u16x8) (_u32 wild_u16x8))) false,
   visit_Cast_Pattern.mk "vqsubs.v8i8" (_i8q (.Sub (_i16 wild_i8x8) (_i16 wild_i8x8))) false,
   visit_Cast_Pattern.mk "vqsubu.v8i8" (_u8q (.Sub (_i16 wild_u8x8) (_i16 wild_u8x8))) false,
   visit_Cast_Pattern.mk "vqsubs.v4i16" (_i16q (.Sub (_i32 wild_i16x4) (_i32 wild_i16x4))) false,
   visit_Cast_Pattern.mk "vqsubu.v4i16" (_u16q (.Sub (_i32 wild_u16x4) (_i32 wild_u16x4))) false,
   visit_Cast_Pattern.mk "vqsubs.v16i8" (_i8q (.Sub (_i16 wild_i8x16) (_i16 wild_i8x16))) false,
   visit_Cast_Pattern.mk "vqsubu.v16i8" (_u8q (.Sub (_i16 wild_u8x16) (_i16 wild_u8x16))) false,
   visit_Cast_Pattern.mk "vqsubs.v8i16" (_i16q (.Sub (_i32 wild_i16x8) (_i32 wild_i16x8))) false,
   visit_Cast_Pattern.mk "vqsubu.v8i16" (_u16q (.Sub (_i32 wild_u16x8) (_i32 wild_u16x8))) false,
   visit_Cast_Pattern.mk "vqmovns.v8i8" (_i8q wild_i16x8) false,
   visit_Cast_Pattern.mk "vqmovns.v4i16" (_i16q wild_i32x4) false,
   visit_Cast_Pattern.mk "vqmovnu.v8i8" (_u8q wild_u16x8) false,
   visit_Cast_Pattern.mk "vqmovnu.v4i16" (_u16q wild_u32x4) false,
   visit_Cast_Pattern.mk "vqmovnsu.v8i8" (_u8q wild_i16x8) false,
   visit_Cast_Pattern.mk "vqmovnsu.v4i16" (_u16q wild_i32x4) false,
   visit_Cast_Pattern.mk "vshiftn.v8i8" (_i8 (.Div wild_i16x8 wild_i16x8)) true,
   visit_Cast_Pattern.mk "vshiftn.v4i16" (_i16 (.Div wild_i32x4 wild_i32x4)) true,
   visit_Cast_Pattern.mk "vshiftn.v2i32" (_i32 (.Div wild_i64x2 wild_i64x2)) true,
   visit_Cast_Pattern.mk "vshiftn.v8i8" (_u8 (.Div wild_u16x8 wild_u16x8)) true,
   visit_Cast_Pattern.mk "vshiftn.v4i16" (_u16 (.Div wild_u32x4 wild_u32x4)) true,
   visit_Cast_Pattern.mk "vshiftn.v2i32" (_u32 (.Div wild_u64x2 wild_u64x2)) true,
   visit_Cast_Pattern.mk "vqshiftns.v8i8" (_i8q (.Div wild_i16x8 wild_i16x8)) true,
   visit_Cast_Pattern.mk "vqshiftns.v4i16" (_i16q (.Div wild_i32x4 wild_i32x4)) true,
   visit_Cast_Pattern.mk "vqshiftnu.v8i8" (_u8q (.Div wild_u16x8 wild_u16x8)) true,
   visit_Cast_Pattern.mk "vqshiftnu.v4i16" (_u16q (.Div wild_u32x4 wild_u32x4)) true,
   visit_Cast_Pattern.mk "vqshiftnsu.v8i8" (_u8q (.Div wild_i16x8 wild_i16x8)) true,
   visit_Cast_Pattern.mk "vqshiftnsu.v4i16" (_u16q (.Div wild_i32x4 wild_i32x4)) true,
   visit_Cast_Pattern.mk "sentinel" (.IntImm 0) false]

/-- What the `Cast` handler leaves in `value`. -/
inductive CastLowering
  /-- The call `call_intrin(pattern.pattern.type(), pattern.intrin, matched)` of
  row `rule`. -/
  | call_intrin (rule : Nat) (result_type : HalideType) (intrin : String) (args : List Expr)
  /-- The call of a shift rule: the operand `matches[0]` and the constant
  `shift`, which is `-shift_amount`. -/
  | call_shift (rule : Nat) (result_type : HalideType) (intrin : String) (operand : Expr)
      (shift : Int)
  /-- The delegation `CodeGen::visit(op)`. -/
  | generic
  /-- A read of `matches[1]` or `matches[0]` past the end of `matches`. -/
  | bad_read
deriving Repr

/-- The loop of lines 340-359 over the rows from index `i` on; `none` means
that a call of `is_const_power_of_two` did not return within `fuel`. -/
def visit_Cast_loop (fuel : Nat) (op : Expr) : List visit_Cast_Pattern → Nat → Option CastLowering
  | [], _ => some .generic
  | pat :: rest, i =>
    match expr_match pat.pattern op with
    | some matched =>
      if pat.shift then
        match matched with
        | m0 :: divisor :: _ =>
          match is_const_power_of_two fuel divisor with
          | none => none
          | some (some shift_amount) =>
            if shift_amount < m0.type.bits then
              some (.call_shift i pat.pattern.type pat.intrin m0 (-shift_amount))
            else visit_Cast_loop fuel op rest (i + 1)
          | some none => visit_Cast_loop fuel op rest (i + 1)
        | _ => some .bad_read
      else some (.call_intrin i pat.pattern.type pat.intrin matched)
    | none => visit_Cast_loop fuel op rest (i + 1)

/-- The handler `CodeGen_ARM::visit(const Cast *op)` on the node
`Cast(type, value)`. -/
def visit_Cast (fuel : Nat) (type : HalideType) (value : Expr) : Option CastLowering :=
  visit_Cast_loop fuel (.Cast type value) visit_Cast_patterns 0

/-! ## `CodeGen_ARM::visit(const Div *)` (lines 451-593) -/

/-- A row of the averaging table of the `Div` handler. -/
structure visit_Div_Pattern where
  op : String
  pattern : Expr

/-- The table `averagings[]` of lines 458-482, in source order. -/
def visit_Div_averagings : List visit_Div_Pattern :=
  [
   visit_Div_Pattern.mk "vhadds.v8i8" (div_int (.Add wild_i8x8 wild_i8x8) 2),
   visit_Div_Pattern.mk "vhaddu.v8i8" (div_int (.Add wild_u8x8 wild_u8x8) 2),
   visit_Div_Pattern.mk "vhadds.v4i16" (div_int (.Add wild_i16x4 wild_i16x4) 2),
   visit_Div_Pattern.mk "vhaddu.v4i16" (div_int (.Add wild_u16x4 wild_u16x4) 2),
   visit_Div_Pattern.mk "vhadds.v2i32" (div_int (.Add wild_i32x2 wild_i32x2) 2),
   visit_Div_Pattern.mk "vhaddu.v2i32" (div_int (.Add wild_u32x2 wild_u32x2) 2),
   visit_Div_Pattern.mk "vhadds.v16i8" (div_int (.Add wild_i8x16 wild_i8x16) 2),
   visit_Div_Pattern.mk "vhaddu.v16i8" (div_int (.Add wild_u8x16 wild_u8x16) 2),
   visit_Div_Pattern.mk "vhadds.v8i16" (div_int (.Add wild_i16x8 wild_i16x8) 2),
   visit_Div_Pattern.mk "vhaddu.v8i16" (div_int (.Add wild_u16x8 wild_u16x8) 2),
   visit_Div_Pattern.mk "vhadds.v4i32" (div_int (.Add wild_i32x4 wild_i32x4) 2),
   visit_Div_Pattern.mk "vhaddu.v4i32" (div_int (.Add wild_u32x4 wild_u32x4) 2),
   visit_Div_Pattern.mk "vhsubs.v8i8" (div_int (.Sub wild_i8x8 wild_i8x8) 2),
   visit_Div_Pattern.mk "vhsubu.v8i8" (div_int (.Sub wild_u8x8 wild_u8x8) 2),
   visit_Div_Pattern.mk "vhsubs.v4i16" (div_int (.Sub wild_i16x4 wild_i16x4) 2),
   visit_Div_Pattern.mk "vhsubu.v4i16" (div_int (.Sub wild_u16x4 wild_u16x4) 2),
   visit_Div_Pattern.mk "vhsubs.v2i32" (div_int (.Sub wild_i32x2 wild_i32x2) 2),
   visit_Div_Pattern.mk "vhsubu.v2i32" (div_int (.Sub wild_u32x2 wild_u32x2) 2),
   visit_Div_Pattern.mk "vhsubs.v16i8" (div_int (.Sub wild_i8x16 wild_i8x16) 2),
   visit_Div_Pattern.mk "vhsubu.v16i8" (div_int (.Sub wild_u8x16 wild_u8x16) 2),
   visit_Div_Pattern.mk "vhsubs.v8i16" (div_int (.Sub wild_i16x8 wild_i16x8) 2),
   visit_Div_Pattern.mk "vhsubu.v8i16" (div_int (.Sub wild_u16x8 wild_u16x8) 2),
   visit_Div_Pattern.mk "vhsubs.v4i32" (div_int (.Sub wild_i32x4 wild_i32x4) 2),
   visit_Div_Pattern.mk "vhsubu.v4i32" (div_int (.Sub wild_u32x4 wild_u32x4) 2)]

/-- What the `Div` handler leaves in `value`. -/
inductive DivLowering
  /-- The call `call_intrin(matches[0].type(), averagings[rule].op, matches)`. -/
  | averaging (rule : Nat) (result_type : HalideType) (op : String) (args : List Expr)
  /-- The reciprocal square root estimate on the matched argument. -/
  | vrsqrte (result_type : HalideType) (intrin : String) (args : List Expr)
  /-- The reciprocal estimate on the divisor. -/
  | vrecpe (result_type : HalideType) (intrin : String) (arg : Expr)
  /-- The instruction `CreateAShr(numerator, shift_amount)`. -/
  | ashr (numerator : Expr) (shift_amount : Int)
  /-- The instruction `CreateLShr(numerator, shift_amount)`. -/
  | lshr (numerator : Expr) (shift_amount : Int)
  /-- The `Int(16, 4)` magic-number sequence built from row `index` of
  `table_s16`; `row` is what that read returns. -/
  | magic_s16 (index : Int) (row : Option (Int × Int × Int)) (val : Expr)
  /-- The `UInt(16, 8)` magic-number sequence built from row `index` of
  `table_u16`; `row` is what that read returns. -/
  | magic_u16 (index : Int) (row : Option (Int × Int × Int)) (val : Expr)
  /-- The delegation `CodeGen::visit(op)`. -/
  | generic
  /-- A read of `matches[0]` past the end of `matches`. -/
  | bad_read
deriving Repr

/-- The loop of lines 486-491 over the averaging rows from index `i` on:
the first row whose pattern matches, if any. -/
def averaging_loop (op : Expr) : List visit_Div_Pattern → Nat → Option DivLowering
  | [], _ => none
  | row :: rest, i =>
    match expr_match row.pattern op with
    | some matched =>
      match matched with
      | m0 :: _ => some (.averaging i m0.type row.op matched)
      | [] => some .bad_read
    | none => averaging_loop op rest (i + 1)

/-- The constant `const_divisor` of lines 495-499: the immediate under a
broadcast, or under a broadcast of a cast, and zero otherwise. -/
def const_divisor (b : Expr) : Int :=
  match b with
  | .Broadcast (.Cast _ (.IntImm value)) _ => value
  | .Broadcast (.IntImm value) _ => value
  | _ => 0

/-- The handler `CodeGen_ARM::visit(const Div *op)` on the node `Div(a, b)`;
`none` means that `is_const_power_of_two` did not return within `fuel`.
`power_of_two` holds the answer of that call: `some shift_amount` for `true`
(the variable `shift_amount` is read only in that case), `none` for `false`. -/
def visit_Div (fuel : Nat) (a b : Expr) : Option DivLowering :=
  let op := Expr.Div a b
  let averaged : Option DivLowering :=
    if is_two b && (a.is_Add || a.is_Sub) then averaging_loop op visit_Div_averagings 0
    else none
  match averaged with
  | some r => some r
  | none =>
    match is_const_power_of_two fuel b with
    | none => none
    | some power_of_two =>
      if op.type = Float_ 32 4 ∧ is_one a = true then
        match expr_match (.Call (Float_ 32 4) "sqrt_f32" [wild_f32x4]) b with
        | some matched => some (.vrsqrte (Float_ 32 4) "vrsqrte.v4f32" matched)
        | none => some (.vrecpe (Float_ 32 4) "vrecpe.v4f32" b)
      else if op.type = Float_ 32 2 ∧ is_one a = true then
        match expr_match (.Call (Float_ 32 2) "sqrt_f32" [wild_f32x2]) b with
        | some matched => some (.vrsqrte (Float_ 32 2) "vrsqrte.v2f32" matched)
        | none => some (.vrecpe (Float_ 32 2) "vrecpe.v2f32" b)
      else if power_of_two.isSome ∧ op.type.is_int = true then
        some (.ashr a (power_of_two.getD 0))
      else if power_of_two.isSome ∧ op.type.is_uint = true then
        some (.lshr a (power_of_two.getD 0))
      else if op.type = Int_ 16 4 ∧ const_divisor b > 1 ∧ const_divisor b < 64 then
        some (.magic_s16 (const_divisor b - 2)
          (table_read IntegerDivision.table_s16 (const_divisor b - 2)) a)
      else if op.type = UInt_ 16 8 ∧ const_divisor b > 1 ∧ const_divisor b < 64 then
        some (.magic_u16 (const_divisor b - 2)
          (table_read IntegerDivision.table_u16 (const_divisor b - 2)) a)
      else some .generic

/-! ## Auxiliary notions used in the statements -/

/-- The node left after removing every enclosing `Broadcast` and `Cast`. -/
def innermost : Expr → Expr
  | .Broadcast value _ => innermost value
  | .Cast _ value => innermost value
  | e => e

/-- The table row a lowering of the `Cast` handler was selected by, if any. -/
def CastLowering.rule : CastLowering → Option Nat
  | .call_intrin i _ _ _ => some i
  | .call_shift i _ _ _ _ => some i
  | .generic => none
  | .bad_read => none

/-- The side condition of a row of the `Cast` table on the matched subtrees:
none for an unconditional row; for a shift row, the divisor `matches[1]` strips
to an immediate `2 ^ k` with `k` below the bit width of the operand
`matches[0]`. -/
def side_condition_holds (pat : visit_Cast_Pattern) (matched : List Expr) : Prop :=
  pat.shift = false ∨
    ∃ (m0 divisor : Expr) (rest : List Expr) (k : Nat),
      matched = m0 :: divisor :: rest ∧ innermost divisor = .IntImm (2 ^ k) ∧ k < m0.type.bits

/-- A row qualifies for a node when its pattern matches and its side condition
holds. -/
def qualifies (pat : visit_Cast_Pattern) (op : Expr) : Prop :=
  ∃ matched, expr_match pat.pattern op = some matched ∧ side_condition_holds pat matched

/-! ## Structural equality of trees -/

/-- Modelled from the spec: `IREquality.h` is not among the sources.  The test
`equal(a, b)`: the two trees have the same shape, node by node, with identical
types, names and constants. -/
def equal : Expr → Expr → Bool
  | .IntImm v, e =>
    match e with
    | .IntImm v2 => decide (v = v2)
    | _ => false
  | .FloatImm v, e =>
    match e with
    | .FloatImm v2 => decide (v = v2)
    | _ => false
  | .Cast t p, e =>
    match e with
    | .Cast t2 x => decide (t = t2) && equal p x
    | _ => false
  | .Variable t name, e =>
    match e with
    | .Variable t2 name2 => decide (t = t2) && decide (name = name2)
    | _ => false
  | .Add pa pb, e =>
    match e with
    | .Add a b => equal pa a && equal pb b
    | _ => false
  | .Sub pa pb, e =>
    match e with
    | .Sub a b => equal pa a && equal pb b
    | _ => false
  | .Mul pa pb, e =>
    match e with
    | .Mul a b => equal pa a && equal pb b
    | _ => false
  | .Div pa pb, e =>
    match e with
    | .Div a b => equal pa a && equal pb b
    | _ => false
  | .Min pa pb, e =>
    match e with
    | .Min a b => equal pa a && equal pb b
    | _ => false
  | .Max pa pb, e =>
    match e with
    | .Max a b => equal pa a && equal pb b
    | _ => false
  | .LT pa pb, e =>
    match e with
    | .LT a b => equal pa a && equal pb b
    | _ => false
  | .LE pa pb, e =>
    match e with
    | .LE a b => equal pa a && equal pb b
    | _ => false
  | .Select pc pt pf, e =>
    match e with
    | .Select c tv fv => equal pc c && equal pt tv && equal pf fv
    | _ => false
  | .Load t name pi, e =>
    match e with
    | .Load t2 name2 i => decide (t = t2) && decide (name = name2) && equal pi i
    | _ => false
  | .Ramp pb ps w, e =>
    match e with
    | .Ramp b s w2 => equal pb b && equal ps s && decide (w = w2)
    | _ => false
  | .Broadcast p w, e =>
    match e with
    | .Broadcast x w2 => equal p x && decide (w = w2)
    | _ => false
  | .Call t name pargs, e =>
    match e with
    | .Call t2 name2 args => decide (t = t2) && decide (name = name2) && equal_args pargs args
    | _ => false
where
  /-- Two argument lists are equal when they have the same length and equal
  entries. -/
  equal_args : List Expr → List Expr → Bool
    | [], [] => true
    | p :: ps, e :: es => equal p e && equal_args ps es
    | _, _ => false

/-! ## `CodeGen_ARM::visit(const Select *)` (lines 716-760) -/

/-- What the `Select` handler leaves in `value`. -/
inductive SelectLowering
  /-- The call `call_intrin(ca->value.type(), name, vec(ca->value, cb->value))`
  followed by `CreateIntCast(value, llvm_type_of(t), false)`, a zero extension
  to `result_type`. -/
  | vabd_widened (narrow_type : HalideType) (intrin : String) (args : List Expr)
      (result_type : HalideType)
  /-- The call `call_intrin(t, name, vec(cmp->a, cmp->b))`. -/
  | vabd (result_type : HalideType) (intrin : String) (args : List Expr)
  /-- The delegation `CodeGen::visit(op)`. -/
  | generic
deriving Repr

/-- The intrinsic name the stream `ss` of lines 748 and 752 holds:
`"vabd" << (t.is_int() ? "s" : "u") << ".v" << t.width << "i" << bits`. -/
def vabd_name (t : HalideType) (bits : Nat) : String :=
  "vabd" ++ (if t.is_int then "s" else "u") ++ ".v" ++ toString t.width ++ "i" ++ toString bits

/-- The test `op->a.as<Cast>()`: the cast type and the operand of a cast. -/
def Expr.as_Cast : Expr → Option (HalideType × Expr)
  | .Cast t v => some (t, v)
  | _ => none

/-- Lines 736-754: the call emitted once the tree is recognised, on the
operands `cmp->a` and `cmp->b` of the comparison. -/
def visit_Select_call (t : HalideType) (vec_bits : Int) (cmp_a cmp_b : Expr) : SelectLowering :=
  match cmp_a.as_Cast, cmp_b.as_Cast with
  | some (_, ca_value), some (_, cb_value) =>
    if vec_bits = 128 ∧ ca_value.type.bits * 2 = t.bits ∧ cb_value.type.bits * 2 = t.bits ∧
        ca_value.type.t = t.t ∧ cb_value.type.t = t.t then
      .vabd_widened ca_value.type (vabd_name t (t.bits / 2)) [ca_value, cb_value] t
    else .vabd t (vabd_name t t.bits) [cmp_a, cmp_b]
  | _, _ => .vabd t (vabd_name t t.bits) [cmp_a, cmp_b]

/-- The handler `CodeGen_ARM::visit(const Select *op)` on the node
`Select(condition, true_value, false_value)`.  The product `vec_bits` is an
`int`. -/
def visit_Select (condition true_value false_value : Expr) : SelectLowering :=
  let t := (Expr.Select condition true_value false_value).type
  let vec_bits : Int := wrap32 ((t.bits : Int) * (t.width : Int))
  match condition, true_value, false_value with
  | .LT cmp_a cmp_b, .Sub a_a a_b, .Sub b_a b_b =>
    if equal a_a b_b = true ∧ equal a_b b_a = true ∧ equal cmp_a a_b = true ∧
        equal cmp_b a_a = true ∧ t.is_float = false ∧
        (t.bits = 8 ∨ t.bits = 16 ∨ t.bits = 32 ∨ t.bits = 64) ∧
        (vec_bits = 64 ∨ vec_bits = 128) then
      visit_Select_call t vec_bits cmp_a cmp_b
    else .generic
  | _, _, _ => .generic

/-! ## `CodeGen_ARM::visit(const LT *)` and `visit(const LE *)` (lines 668-714) -/

/-- What the comparison handlers leave in `value`. -/
inductive CompareLowering
  /-- The call `call_intrin(result_type, intrin, vec(first, second))` followed
  by `CreateICmpNE(value, zero)`, `zero` a splat of `zero_width` lanes. -/
  | vacg_ne_zero (result_type : HalideType) (intrin : String) (first second : Expr)
      (zero_width : Nat)
  /-- The delegation `CodeGen::visit(op)`. -/
  | generic
  /-- A read of `args[0]` of a call without arguments. -/
  | bad_read
deriving Repr

/-- The body shared by the two comparison handlers; `q` and `d` are the
intrinsic names for four and two lanes, `width` is `op->type.width`. -/
def visit_compare (q d : String) (width : Nat) (a b : Expr) : CompareLowering :=
  match a, b with
  | .Call a_type a_name a_args, .Call _ b_name b_args =>
    if a_type = Float_ 32 4 ∧ a_name = "abs_f32" ∧ b_name = "abs_f32" then
      match b_args, a_args with
      | b0 :: _, a0 :: _ => .vacg_ne_zero (Int_ 32 4) q b0 a0 width
      | _, _ => .bad_read
    else if a_type = Float_ 32 2 ∧ a_name = "abs_f32" ∧ b_name = "abs_f32" then
      match b_args, a_args with
      | b0 :: _, a0 :: _ => .vacg_ne_zero (Int_ 32 2) d b0 a0 width
      | _, _ => .bad_read
    else .generic
  | _, _ => .generic

/-- The handler `CodeGen_ARM::visit(const LT *op)` on the node `LT(a, b)`. -/
def visit_LT (a b : Expr) : CompareLowering :=
  visit_compare "vacgtq" "vacgtd" (Expr.LT a b).type.width a b

/-- The handler `CodeGen_ARM::visit(const LE *op)` on the node `LE(a, b)`. -/
def visit_LE (a b : Expr) : CompareLowering :=
  visit_compare "vacgeq" "vacged" (Expr.LE a b).type.width a b

/-! ## `CodeGen_ARM::visit(const Mul *)` (lines 365-449) -/

/-- A vector type of the target IR: an integer lane width and a lane count,
without signedness. -/
structure LLVMType where
  bits : Nat
  width : Nat
deriving DecidableEq, Repr

/-- The translation `llvm_type_of` on the types of the IR. -/
def llvm_type_of (t : HalideType) : LLVMType := ⟨t.bits, t.width⟩

def i8x8 : LLVMType := ⟨8, 8⟩

def i8x16 : LLVMType := ⟨8, 16⟩

def i16x4 : LLVMType := ⟨16, 4⟩

def i16x8 : LLVMType := ⟨16, 8⟩

def i32x2 : LLVMType := ⟨32, 2⟩

def i32x4 : LLVMType := ⟨32, 4⟩

def i64x2 : LLVMType := ⟨64, 2⟩

/-- What the `Mul` handler leaves in `value`. -/
inductive MulLowering
  /-- The call `call_intrin(result_type, intrin, vec(lhs, shift))` where
  `shift` is the constant `shift_amount` of type `shift_type`. -/
  | call_intrin (result_type : LLVMType) (intrin : String) (lhs : Expr)
      (shift_type : LLVMType) (shift_amount : Int)
  /-- The delegation `CodeGen::visit(op)`. -/
  | generic
deriving Repr

/-- The chain of lines 403-445, the shifts at the width of the left operand;
`shift_type` and `shift_amount` describe the constant `shift`. -/
def visit_Mul_same_width (power_of_two : Bool) (a : Expr) (shift_type : LLVMType)
    (shift_amount : Int) : MulLowering :=
  if power_of_two = true ∧ a.type = Int_ 8 8 then
    .call_intrin i8x8 "vshifts.v8i8" a shift_type shift_amount
  else if power_of_two = true ∧ a.type = Int_ 16 4 then
    .call_intrin i16x4 "vshifts.v4i16" a shift_type shift_amount
  else if power_of_two = true ∧ a.type = Int_ 32 2 then
    .call_intrin i32x2 "vshifts.v2i32" a shift_type shift_amount
  else if power_of_two = true ∧ a.type = Int_ 8 16 then
    .call_intrin i8x16 "vshifts.v16i8" a shift_type shift_amount
  else if power_of_two = true ∧ a.type = Int_ 16 8 then
    .call_intrin i16x8 "vshifts.v8i16" a shift_type shift_amount
  else if power_of_two = true ∧ a.type = Int_ 32 4 then
    .call_intrin i32x4 "vshifts.v4i32" a shift_type shift_amount
  else if power_of_two = true ∧ a.type = Int_ 64 2 then
    .call_intrin i64x2 "vshifts.v2i64" a shift_type shift_amount
  else if power_of_two = true ∧ a.type = UInt_ 8 8 then
    .call_intrin i8x8 "vshiftu.v8i8" a shift_type shift_amount
  else if power_of_two = true ∧ a.type = UInt_ 16 4 then
    .call_intrin i16x4 "vshiftu.v4i16" a shift_type shift_amount
  else if power_of_two = true ∧ a.type = UInt_ 32 2 then
    .call_intrin i32x2 "vshiftu.v2i32" a shift_type shift_amount
  else if power_of_two = true ∧ a.type = UInt_ 8 16 then
    .call_intrin i8x16 "vshiftu.v16i8" a shift_type shift_amount
  else if power_of_two = true ∧ a.type = UInt_ 16 8 then
    .call_intrin i16x8 "vshiftu.v8i16" a shift_type shift_amount
  else if power_of_two = true ∧ a.type = UInt_ 32 4 then
    .call_intrin i32x4 "vshiftu.v4i32" a shift_type shift_amount
  else if power_of_two = true ∧ a.type = UInt_ 64 2 then
    .call_intrin i64x2 "vshiftu.v2i64" a shift_type shift_amount
  else .generic

/-- The handler `CodeGen_ARM::visit(const Mul *op)` on the node `Mul(a, b)`;
`none` means that `is_const_power_of_two` did not return within `fuel`.  The
variable `shift_amount` starts at zero and is written only by an answer
`true`. -/
def visit_Mul (fuel : Nat) (a b : Expr) : Option MulLowering :=
  match is_const_power_of_two fuel b with
  | none => none
  | some answer =>
    let power_of_two : Bool := answer.isSome
    let shift_amount : Int := answer.getD 0
    match a.as_Cast with
    | some (cast_type, cast_value) =>
      let shift_type := llvm_type_of cast_value.type
      if power_of_two = true ∧ cast_type = Int_ 16 8 ∧ cast_value.type = Int_ 8 8 then
        some (.call_intrin i16x8 "vshiftls.v8i16" cast_value shift_type shift_amount)
      else if power_of_two = true ∧ cast_type = Int_ 32 4 ∧ cast_value.type = Int_ 16 4 then
        some (.call_intrin i32x4 "vshiftls.v4i32" cast_value shift_type shift_amount)
      else if power_of_two = true ∧ cast_type = Int_ 64 2 ∧ cast_value.type = Int_ 32 2 then
        some (.call_intrin i64x2 "vshiftls.v2i64" cast_value shift_type shift_amount)
      else if power_of_two = true ∧ cast_type = UInt_ 16 8 ∧ cast_value.type = UInt_ 8 8 then
        some (.call_intrin i16x8 "vshiftlu.v8i16" cast_value shift_type shift_amount)
      else if power_of_two = true ∧ cast_type = UInt_ 32 4 ∧ cast_value.type = UInt_ 16 4 then
        some (.call_intrin i32x4 "vshiftlu.v4i32" cast_value shift_type shift_amount)
      else if power_of_two = true ∧ cast_type = UInt_ 64 2 ∧ cast_value.type = UInt_ 32 2 then
        some (.call_intrin i64x2 "vshiftlu.v2i64" cast_value shift_type shift_amount)
      else some (visit_Mul_same_width power_of_two a shift_type shift_amount)
    | none =>
      some (visit_Mul_same_width power_of_two a (llvm_type_of (Expr.Mul a b).type) shift_amount)

/-! ## Lane meaning of the nodes of the IR -/

/-- Lane meaning of `builder->CreateIntCast(v, type, is_signed)` from lanes of
`from_bits` bits to lanes of `to_bits` bits: truncation when the lane does not
grow, and otherwise sign extension for `is_signed` and zero extension. -/
def CreateIntCast (from_bits to_bits : Nat) (is_signed : Bool) (x : Nat) : Nat :=
  if to_bits ≤ from_bits then x % 2 ^ to_bits
  else if is_signed then ofInt to_bits (toSigned from_bits x)
  else x

/-- Lane meaning of `builder->CreateMul` at width `w`. -/
def CreateMul (w x y : Nat) : Nat := (x * y) % 2 ^ w

/-- Lane meaning of `builder->CreateICmpULT`: the one-bit lane of the
comparison. -/
def CreateICmpULT (x y : Nat) : Nat := if x < y then 1 else 0

/-- Lane meaning of `builder->CreateICmpSLT` at width `w`. -/
def CreateICmpSLT (w x y : Nat) : Nat := if toSigned w x < toSigned w y then 1 else 0

/-- Lane meaning of `builder->CreateICmpULE`. -/
def CreateICmpULE (x y : Nat) : Nat := if x ≤ y then 1 else 0

/-- Lane meaning of `builder->CreateICmpSLE` at width `w`. -/
def CreateICmpSLE (w x y : Nat) : Nat := if toSigned w x ≤ toSigned w y then 1 else 0

/-- Lane meaning of `builder->CreateSelect` on a one-bit condition lane. -/
def CreateSelect (c x y : Nat) : Nat := if c = 0 then y else x

/-- The comparison `a < b` on lanes of type `t`. -/
def lane_lt (t : HalideType) (x y : Nat) : Nat :=
  if t.is_int then CreateICmpSLT t.bits x y else CreateICmpULT x y

/-- The comparison `a <= b` on lanes of type `t`. -/
def lane_le (t : HalideType) (x y : Nat) : Nat :=
  if t.is_int then CreateICmpSLE t.bits x y else CreateICmpULE x y

/-- Modelled from the spec: `CodeGen.cpp`, the generic lowering every handler
falls back to, is not among the sources.  The value of one lane of an integer
expression, as a bit pattern of the width of its type, when every variable
`name` holds `env name` in that lane: casts between integer types extend by the
signedness of the source, `+`, `-` and `*` wrap, `/` is the signed division for
a signed and the unsigned division for an unsigned type, `min` and `max` are a
comparison and a select, a broadcast repeats its scalar in every lane.  Nodes
of floating-point type, loads, ramps and calls have no value here. -/
def lane_value (env : String → Nat) : Expr → Option Nat
  | .IntImm v => some (ofInt 32 v)
  | .FloatImm _ => none
  | .Cast t v =>
    if t.is_float ∨ v.type.is_float then none
    else (lane_value env v).map (CreateIntCast v.type.bits t.bits v.type.is_int)
  | .Variable t name => if t.is_float then none else some (env name % 2 ^ t.bits)
  | .Add a b =>
    if a.type.is_float then none
    else (lane_value env a).bind fun x => (lane_value env b).map fun y =>
      CreateAdd a.type.bits x y
  | .Sub a b =>
    if a.type.is_float then none
    else (lane_value env a).bind fun x => (lane_value env b).map fun y =>
      CreateSub a.type.bits x y
  | .Mul a b =>
    if a.type.is_float then none
    else (lane_value env a).bind fun x => (lane_value env b).map fun y =>
      CreateMul a.type.bits x y
  | .Div a b =>
    if a.type.is_float then none
    else (lane_value env a).bind fun x => (lane_value env b).bind fun y =>
      if a.type.is_int then CreateSDiv a.type.bits x y else CreateUDiv a.type.bits x y
  | .Min a b =>
    if a.type.is_float then none
    else (lane_value env a).bind fun x => (lane_value env b).map fun y =>
      CreateSelect (lane_lt a.type x y) x y
  | .Max a b =>
    if a.type.is_float then none
    else (lane_value env a).bind fun x => (lane_value env b).map fun y =>
      CreateSelect (lane_lt a.type y x) x y
  | .LT a b =>
    if a.type.is_float then none
    else (lane_value env a).bind fun x => (lane_value env b).map fun y => lane_lt a.type x y
  | .LE a b =>
    if a.type.is_float then none
    else (lane_value env a).bind fun x => (lane_value env b).map fun y => lane_le a.type x y
  | .Select c tv fv =>
    (lane_value env c).bind fun cv => (lane_value env tv).bind fun x =>
      (lane_value env fv).map fun y => CreateSelect cv x y
  | .Load _ _ _ => none
  | .Ramp _ _ _ => none
  | .Broadcast v _ => lane_value env v
  | .Call _ _ _ => none

/-! ## Lane meaning of the NEON instructions of the idiom rules -/

/-- Lane meaning of the unsigned absolute difference `vabdu`. -/
def vabdu (x y : Nat) : Nat := if x < y then y - x else x - y

/-- Lane meaning of the signed absolute difference `vabds` at width `w`: the
`w`-bit pattern of the distance of the two signed lanes. -/
def vabds (w x y : Nat) : Nat :=
  if toSigned w x < toSigned w y then ofInt w (toSigned w y - toSigned w x)
  else ofInt w (toSigned w x - toSigned w y)

/-- Lane meaning of the absolute difference on lanes of type `t`: `vabds` for a
signed and `vabdu` for an unsigned type. -/
def vabd (t : HalideType) (x y : Nat) : Nat :=
  if t.is_int then vabds t.bits x y else vabdu x y

/-- The integer a lane of type `t` with the bit pattern `x` stands for. -/
def lane_int (t : HalideType) (x : Nat) : Int :=
  if t.is_int then toSigned t.bits x else (x : Int)

/-- Lane meaning of the unsigned saturating add `vqaddu` at width `w`. -/
def vqaddu (w x y : Nat) : Nat := if x + y < 2 ^ w then x + y else 2 ^ w - 1

/-- Lane meaning of the unsigned saturating subtract `vqsubu`. -/
def vqsubu (x y : Nat) : Nat := if x < y then 0 else x - y

/-- Lane meaning of the narrowing add `vaddhn` from lanes of `2 * w` bits: the
high half of the wrapped sum. -/
def vaddhn (w x y : Nat) : Nat := CreateAdd (2 * w) x y / 2 ^ w

/-- Lane meaning of the narrowing subtract `vsubhn` from lanes of `2 * w` bits:
the high half of the wrapped difference. -/
def vsubhn (w x y : Nat) : Nat := CreateSub (2 * w) x y / 2 ^ w

/-! ## The idiom trees of the claims -/

/-- The tree `select(a < b, b - a, a - b)`. -/
def abs_diff_tree (a b : Expr) : Expr := .Select (.LT a b) (.Sub b a) (.Sub a b)

/-- The tree `(cast<W>(a) + cast<W>(b) + 1) / 2`, the operand of the cast of
the rounding average. -/
def rounding_average (W : HalideType) (a b : Expr) : Expr :=
  div_int (add_int (.Add (.Cast W a) (.Cast W b)) 1) 2

/-- The tree `(cast<W>(a) + cast<W>(b)) / 2`, the operand of the cast of the
truncating average. -/
def truncating_average (W : HalideType) (a b : Expr) : Expr :=
  div_int (.Add (.Cast W a) (.Cast W b)) 2

/-- The tree `min(u16(a) + u16(b), 255)`, the operand of the cast of the
saturating add of `UInt(8, 8)` operands. -/
def saturating_add_u8 (a b : Expr) : Expr :=
  min_int (.Add (.Cast (UInt_ 16 8) a) (.Cast (UInt_ 16 8) b)) 255

/-- The tree `clamp(i16(a) - i16(b), 0, 255)`, the operand of the cast of the
saturating subtract of `UInt(8, 8)` operands. -/
def saturating_sub_u8 (a b : Expr) : Expr :=
  clamp (.Sub (.Cast (Int_ 16 8) a) (.Cast (Int_ 16 8) b)) 0 255

/-- The tree `(a + b) / k`, the operand of the cast of the narrowing add. -/
def narrowing_add (a b : Expr) (k : Int) : Expr := div_int (.Add a b) k

/-- The tree `(a - b) / k`, the operand of the cast of the narrowing
subtract. -/
def narrowing_sub (a b : Expr) (k : Int) : Expr := div_int (.Sub a b) k

/-- The halving-add rows of lines 258-282: the narrow type, the wide type, and
the names of the rounding and of the truncating intrinsic, in the order of the
table. -/
def halving_add_rows : List (HalideType × HalideType × String × String) :=
  [(Int_ 8 8, Int_ 16 8, "vrhadds.v8i8", "vhadds.v8i8"),
   (UInt_ 8 8, UInt_ 16 8, "vrhaddu.v8i8", "vhaddu.v8i8"),
   (Int_ 16 4, Int_ 32 4, "vrhadds.v4i16", "vhadds.v4i16"),
   (UInt_ 16 4, UInt_ 32 4, "vrhaddu.v4i16", "vhaddu.v4i16"),
   (Int_ 32 2, Int_ 64 2, "vrhadds.v2i32", "vhadds.v2i32"),
   (UInt_ 32 2, UInt_ 64 2, "vrhaddu.v2i32", "vhaddu.v2i32"),
   (Int_ 8 16, Int_ 16 16, "vrhadds.v16i8", "vhadds.v16i8"),
   (UInt_ 8 16, UInt_ 16 16, "vrhaddu.v16i8", "vhaddu.v16i8"),
   (Int_ 16 8, Int_ 32 8, "vrhadds.v8i16", "vhadds.v8i16"),
   (UInt_ 16 8, UInt_ 32 8, "vrhaddu.v8i16", "vhaddu.v8i16"),
   (Int_ 32 4, Int_ 64 4, "vrhadds.v4i32", "vhadds.v4i32"),
   (UInt_ 32 4, UInt_ 64 4, "vrhaddu.v4i32", "vhaddu.v4i32")]

/-- The condition of lines 671-676 and 679-681 on the operands of a
comparison: both are calls named `abs_f32` and the left one has the type
`Float(32, 4)` or `Float(32, 2)`. -/
def compare_magnitude_condition (a b : Expr) : Prop :=
  ∃ (ta tb : HalideType) (xs ys : List Expr),
    a = .Call ta "abs_f32" xs ∧ b = .Call tb "abs_f32" ys ∧
    (ta = Float_ 32 4 ∨ ta = Float_ 32 2)

/-- The widening rows of lines 378-401: the type of the operand of the cast,
the type of the cast, the result type of the call and the intrinsic. -/
def widening_shift_rows : List (HalideType × HalideType × LLVMType × String) :=
  [(Int_ 8 8, Int_ 16 8, i16x8, "vshiftls.v8i16"),
   (Int_ 16 4, Int_ 32 4, i32x4, "vshiftls.v4i32"),
   (Int_ 32 2, Int_ 64 2, i64x2, "vshiftls.v2i64"),
   (UInt_ 8 8, UInt_ 16 8, i16x8, "vshiftlu.v8i16"),
   (UInt_ 16 4, UInt_ 32 4, i32x4, "vshiftlu.v4i32"),
   (UInt_ 32 2, UInt_ 64 2, i64x2, "vshiftlu.v2i64")]

/-- The type of twice the lane width with the same signedness and lane
count. -/
def HalideType.widened (t : HalideType) : HalideType := ⟨t.t, 2 * t.bits, t.width⟩

/-- An environment that holds `x` in `a`, `y` in `b` and zero elsewhere. -/
def env2 (x y : Nat) (name : String) : Nat :=
  if name = "a" then x else if name = "b" then y else 0

/-- The lowering is a call of an absolute-difference intrinsic. -/
def SelectLowering.is_abs_diff : SelectLowering → Bool
  | .vabd_widened _ _ _ _ => true
  | .vabd _ _ _ => true
  | .generic => false

/-- The condition of lines 727-734 on the node `Select(c, tv, fv)`, with the
product of lane width and lane count taken in the natural numbers. -/
def abs_diff_condition (c tv fv : Expr) : Prop :=
  ∃ cmp_a cmp_b a_a a_b b_a b_b : Expr,
    c = .LT cmp_a cmp_b ∧ tv = .Sub a_a a_b ∧ fv = .Sub b_a b_b ∧
    a_a = b_b ∧ a_b = b_a ∧ cmp_a = a_b ∧ cmp_b = a_a ∧
    (Expr.Select c tv fv).type.is_float = false ∧
    ((Expr.Select c tv fv).type.bits = 8 ∨ (Expr.Select c tv fv).type.bits = 16 ∨
      (Expr.Select c tv fv).type.bits = 32 ∨ (Expr.Select c tv fv).type.bits = 64) ∧
    ((Expr.Select c tv fv).type.bits * (Expr.Select c tv fv).type.width = 64 ∨
      (Expr.Select c tv fv).type.bits * (Expr.Select c tv fv).type.width = 128)

/-! ## Instances of a tree with holes -/

/-- The tree `e` with every variable `Variable t name` for which `σ name` is a
tree of type `t` replaced by that tree; the arguments of calls are left as they
are. -/
def fill_holes (σ : String → Option Expr) : Expr → Expr
  | .IntImm v => .IntImm v
  | .FloatImm v => .FloatImm v
  | .Cast t v => .Cast t (fill_holes σ v)
  | .Variable t name =>
    match σ name with
    | some x => if x.type = t then x else .Variable t name
    | none => .Variable t name
  | .Add a b => .Add (fill_holes σ a) (fill_holes σ b)
  | .Sub a b => .Sub (fill_holes σ a) (fill_holes σ b)
  | .Mul a b => .Mul (fill_holes σ a) (fill_holes σ b)
  | .Div a b => .Div (fill_holes σ a) (fill_holes σ b)
  | .Min a b => .Min (fill_holes σ a) (fill_holes σ b)
  | .Max a b => .Max (fill_holes σ a) (fill_holes σ b)
  | .LT a b => .LT (fill_holes σ a) (fill_holes σ b)
  | .LE a b => .LE (fill_holes σ a) (fill_holes σ b)
  | .Select c tv fv => .Select (fill_holes σ c) (fill_holes σ tv) (fill_holes σ fv)
  | .Load t name i => .Load t name (fill_holes σ i)
  | .Ramp b s w => .Ramp (fill_holes σ b) (fill_holes σ s) w
  | .Broadcast v w => .Broadcast (fill_holes σ v) w
  | .Call t name args => .Call t name args

/-- The node is a variable whose name is one of `holes`. -/
def is_hole (holes : List String) : Expr → Bool
  | .Variable _ name => decide (name ∈ holes)
  | _ => false

/-- Matching the pattern against `e` compares no hole of `e` with anything but
a wildcard, so that the outcome is the same on every instance of `e`. -/
def hole_safe (holes : List String) : Expr → Expr → Bool
  | .Variable _ name, e => decide (name = "*") || !is_hole holes e
  | .IntImm _, e => !is_hole holes e
  | .FloatImm _, e => !is_hole holes e
  | .Cast _ p, e =>
    match e with
    | .Cast _ x => hole_safe holes p x
    | _ => !is_hole holes e
  | .Add pa pb, e =>
    match e with
    | .Add a b => hole_safe holes pa a && hole_safe holes pb b
    | _ => !is_hole holes e
  | .Sub pa pb, e =>
    match e with
    | .Sub a b => hole_safe holes pa a && hole_safe holes pb b
    | _ => !is_hole holes e
  | .Mul pa pb, e =>
    match e with
    | .Mul a b => hole_safe holes pa a && hole_safe holes pb b
    | _ => !is_hole holes e
  | .Div pa pb, e =>
    match e with
    | .Div a b => hole_safe holes pa a && hole_safe holes pb b
    | _ => !is_hole holes e
  | .Min pa pb, e =>
    match e with
    | .Min a b => hole_safe holes pa a && hole_safe holes pb b
    | _ => !is_hole holes e
  | .Max pa pb, e =>
    match e with
    | .Max a b => hole_safe holes pa a && hole_safe holes pb b
    | _ => !is_hole holes e
  | .LT pa pb, e =>
    match e with
    | .LT a b => hole_safe holes pa a && hole_safe holes pb b
    | _ => !is_hole holes e
  | .LE pa pb, e =>
    match e with
    | .LE a b => hole_safe holes pa a && hole_safe holes pb b
    | _ => !is_hole holes e
  | .Select pc pt pf, e =>
    match e with
    | .Select c tv fv => hole_safe holes pc c && hole_safe holes pt tv && hole_safe holes pf fv
    | _ => !is_hole holes e
  | .Load _ _ pi, e =>
    match e with
    | .Load _ _ i => hole_safe holes pi i
    | _ => !is_hole holes e
  | .Ramp pb ps _, e =>
    match e with
    | .Ramp b s _ => hole_safe holes pb b && hole_safe holes ps s
    | _ => !is_hole holes e
  | .Broadcast p _, e =>
    match e with
    | .Broadcast x _ => hole_safe holes p x
    | _ => !is_hole holes e
  | .Call _ _ _, _ => false

/-- The assignment of `a` to the hole `a` and of `b` to the hole `b`. -/
def holes2 (a b : Expr) (name : String) : Option Expr :=
  if name = "a" then some a else if name = "b" then some b else none

/-! ## `CodeGen_ARM::visit(const Store *)` (lines 762-806) -/

/-- What the `Store` handler does. -/
inductive StoreLowering
  /-- The call `call_void_intrin(intrin, args)` with `args[0]` the byte pointer
  to element `base` of the buffer `name`, whose elements have type `elem`,
  `args[1]` and `args[2]` the two vectors and `args[3]` the constant
  `alignment`. -/
  | vst2 (intrin : String) (name : String) (elem : HalideType) (base : Expr)
      (arg0 arg1 : Expr) (alignment : Nat)
  /-- The delegation `CodeGen::visit(op)`. -/
  | generic
  /-- The `assert` of line 768 fails. -/
  | assertion_failed
deriving Repr

/-- The chain of lines 783-801 on the type of the first vector: the intrinsic
that is called, if any. -/
def visit_Store_intrin (t : HalideType) : Option String :=
  if t = Int_ 8 8 ∨ t = UInt_ 8 8 then some "vst2.v8i8"
  else if t = Int_ 8 16 ∨ t = UInt_ 8 16 then some "vst2.v16i8"
  else if t = Int_ 16 4 ∨ t = UInt_ 16 4 then some "vst2.v4i16"
  else if t = Int_ 16 8 ∨ t = UInt_ 16 8 then some "vst2.v8i16"
  else if t = Int_ 32 2 ∨ t = UInt_ 32 2 then some "vst2.v2i32"
  else if t = Int_ 32 4 ∨ t = UInt_ 32 4 then some "vst2.v4i32"
  else if t = Float_ 32 2 then some "vst2.v2f32"
  else if t = Float_ 32 4 then some "vst2.v4f32"
  else none

/-- The handler `CodeGen_ARM::visit(const Store *op)` on the statement that
stores `value` at `index` of the buffer `name`. -/
def visit_Store (name : String) (value index : Expr) : StoreLowering :=
  match index, value with
  | .Ramp ramp_base ramp_stride _, .Call call_type call_name call_args =>
    if is_one ramp_stride = true ∧ call_name = "interleave vectors" then
      match call_args with
      | [arg0, arg1] =>
        let t := arg0.type
        let alignment := t.bits / 8
        match visit_Store_intrin t with
        | some intrin => .vst2 intrin name call_type.element_of ramp_base arg0 arg1 alignment
        | none => .generic
      | _ => .assertion_failed
    else .generic
  | _, _ => .generic

/-! ## `CodeGen_ARM::visit(const Load *)` (lines 808-873) -/

/-- The result of `modulus_remainder(e)`: the fact that `e` is congruent to
`remainder` modulo `modulus`. -/
structure ModulusRemainder where
  modulus : Int
  remainder : Int
deriving DecidableEq, Repr

/-- Modelled from the spec: `ModulusRemainder.h` is not among the sources.  The
greatest common divisor `gcd(a, b)`. -/
def gcd (a b : Int) : Int := (Int.gcd a b : Int)

/-- Modelled from the spec: `IROperator.h` is not among the sources.  The
difference `a - k` of an expression and an `int` literal. -/
def sub_int (a : Expr) (k : Int) : Expr := .Sub a (cast a.type (.IntImm k))

/-- What the `Load` handler leaves in `value`. -/
inductive LoadLowering
  /-- The call `call_intrin(result_type, intrin, vec(ptr, align))`, `ptr` the
  byte pointer to element `base` of the buffer `name`, whose elements have type
  `elem`, followed by `CreateExtractValue(pair, idx)`. -/
  | vld2 (intrin : String) (name : String) (elem : HalideType) (base : Expr)
      (alignment : Int) (idx : Nat)
  /-- The delegation `CodeGen::visit(op)`. -/
  | generic
deriving Repr

/-- The chain of lines 845-861 on the type of the load: the intrinsic that is
called, if any. -/
def visit_Load_intrin (t : HalideType) : Option String :=
  if t = Int_ 8 8 ∨ t = UInt_ 8 8 then some "vld2.v8i8"
  else if t = Int_ 16 4 ∨ t = UInt_ 16 4 then some "vld2.v4i16"
  else if t = Int_ 32 2 ∨ t = UInt_ 32 2 then some "vld2.v2i32"
  else if t = Float_ 32 2 then some "vld2.v2f32"
  else if t = Int_ 8 16 ∨ t = UInt_ 8 16 then some "vld2.v16i8"
  else if t = Int_ 16 8 ∨ t = UInt_ 16 8 then some "vld2.v8i16"
  else if t = Int_ 32 4 ∨ t = UInt_ 32 4 then some "vld2.v4i32"
  else if t = Float_ 32 4 then some "vld2.v4f32"
  else none

/-- The variables `base`, `mod_rem` and `odd` of the `Load` handler. -/
structure LoadState where
  base : Expr
  mod_rem : ModulusRemainder
  odd : Bool

/-- Lines 817-825: when the remainder is odd and the modulus even, the base is
rounded down by one.  The decrement cannot overflow, the remainder being
odd. -/
def visit_Load_round_down (simplify : Expr → Expr) (s : LoadState) : LoadState :=
  if s.mod_rem.remainder % 2 = 1 ∧ ¬ s.mod_rem.modulus % 2 = 1 then
    ⟨simplify (sub_int s.base 1), ⟨s.mod_rem.modulus, s.mod_rem.remainder - 1⟩, true⟩
  else s

/-- Lines 826-833: a base that ends in `+ 1` and could not be analysed loses
that `+ 1`. -/
def visit_Load_strip_one (s : LoadState) : LoadState :=
  match s.base with
  | .Add add_a add_b =>
    if s.odd = false ∧ is_one add_b = true ∧ s.mod_rem.modulus % 2 = 1 then
      ⟨add_a, s.mod_rem, true⟩
    else s
  | _ => s

/-- The state after lines 814-833 on the base of the ramp. -/
def visit_Load_state (modulus_remainder : Expr → ModulusRemainder) (simplify : Expr → Expr)
    (ramp_base : Expr) : LoadState :=
  visit_Load_strip_one
    (visit_Load_round_down simplify ⟨ramp_base, modulus_remainder ramp_base, false⟩)

/-- The handler `CodeGen_ARM::visit(const Load *op)` on the node
`Load(type, name, index)`.  The analysis `modulus_remainder` and the simplifier
`simplify` are not among the sources and are parameters. -/
def visit_Load (modulus_remainder : Expr → ModulusRemainder) (simplify : Expr → Expr)
    (type : HalideType) (name : String) (index : Expr) : LoadLowering :=
  match index with
  | .Ramp ramp_base ramp_stride _ =>
    if is_two ramp_stride = true then
      let s := visit_Load_state modulus_remainder simplify ramp_base
      let alignment : Int :=
        ((type.bits / 8 : Nat) : Int) * gcd (gcd s.mod_rem.modulus s.mod_rem.remainder) 32
      match visit_Load_intrin type with
      | some intrin =>
        .vld2 intrin name type.element_of s.base alignment (if s.odd then 1 else 0)
      | none => .generic
    else .generic
  | _ => .generic

/-- The vector types the interleaving store and the deinterleaving load are
selected for. -/
def interleaved_types : List HalideType :=
  [Int_ 8 8, UInt_ 8 8, Int_ 8 16, UInt_ 8 16, Int_ 16 4, UInt_ 16 4, Int_ 16 8, UInt_ 16 8,
   Int_ 32 2, UInt_ 32 2, Int_ 32 4, UInt_ 32 4, Float_ 32 2, Float_ 32 4]

/-- The test of line 816 on the alignment fact of the base: the remainder is
odd and the modulus is even. -/
def proven_odd (mod_rem : ModulusRemainder) : Prop :=
  mod_rem.remainder % 2 = 1 ∧ ¬ mod_rem.modulus % 2 = 1

/-- The test of line 827 on a base that is not proven odd: it is a sum whose
right operand is the constant one, and the modulus is odd. -/
def ends_in_one (mod_rem : ModulusRemainder) (base : Expr) : Prop :=
  ∃ a b, base = .Add a b ∧ is_one b = true ∧ mod_rem.modulus % 2 = 1

/-! ## Memory and the interleaving instructions -/

/-- The index an expression of type `Int(32)` denotes when every variable
`name` holds `env name`. -/
def index_value (env : String → Nat) (e : Expr) : Option Int :=
  (lane_value env e).map fun x => toSigned 32 (x % 2 ^ 32)

/-- The `n` elements of the buffer `mem` from element `i` on. -/
def load_consecutive (mem : Int → Nat) (i : Int) (n : Nat) : List Nat :=
  (List.range n).map fun (j : Nat) => mem (i + (j : Int))

/-- The elements at the even and at the odd positions of a list. -/
def deinterleave : List Nat → List Nat × List Nat
  | x :: y :: rest => (x :: (deinterleave rest).1, y :: (deinterleave rest).2)
  | _ => ([], [])

/-- Lane meaning of the NEON load `vld2` of two vectors of `n` lanes at
element `i`: `2 * n` consecutive elements, split into the even and the odd
ones. -/
def vld2 (mem : Int → Nat) (i : Int) (n : Nat) : List Nat × List Nat :=
  deinterleave (load_consecutive mem i (2 * n))

/-- Lane meaning of `CreateExtractValue(pair, idx)` on the pair of `vld2`. -/
def extract_value (pair : List Nat × List Nat) (idx : Nat) : List Nat :=
  if idx = 0 then pair.1 else pair.2

/-- The list `a0, b0, a1, b1, ...` of two lists of equal length. -/
def interleave : List Nat → List Nat → List Nat
  | a :: as, b :: bs => a :: b :: interleave as bs
  | _, _ => []

/-- The buffer after the elements `xs` are written from element `i` on. -/
def store_consecutive (mem : Int → Nat) (i : Int) (xs : List Nat) : Int → Nat :=
  fun j => if i ≤ j ∧ j < i + (xs.length : Int) then xs.getD (j - i).toNat 0 else mem j

/-- Lane meaning of the NEON store `vst2` of the vectors `a` and `b` at
element `i`: their interleaving is written to consecutive elements. -/
def vst2 (mem : Int → Nat) (i : Int) (a b : List Nat) : Int → Nat :=
  store_consecutive mem i (interleave a b)

/-- The load with stride two of `n` lanes at element `i`: lane `k` is the
element `i + 2 * k`. -/
def strided_load (mem : Int → Nat) (i : Int) (n : Nat) : List Nat :=
  (List.range n).map fun (k : Nat) => mem (i + 2 * (k : Int))

/-- A call `call_intrin(result_type, name, args)` with the types of its
operands. -/
structure IntrinCall where
  result_type : LLVMType
  name : String
  arg_types : List LLVMType
deriving DecidableEq, Repr

/-- The intrinsic calls of the `Int(16, 4)` path (lines 536-541) on a division
of type `type`: `val` and the broadcast multiplier have the type of the
division, `sixteen` is a splat of four `i32`. -/
def magic_s16_calls (type : HalideType) (multiplier : Int) : List IntrinCall :=
  if multiplier ≠ 0 then
    [⟨i32x4, "vmulls.v4i32", [llvm_type_of type, llvm_type_of type]⟩,
     ⟨i16x4, "vshiftn.v4i16", [i32x4, ⟨32, 4⟩]⟩]
  else []

/-- The intrinsic calls of the `UInt(16, 8)` path (lines 571-575) on a division
of type `type`. -/
def magic_u16_calls (type : HalideType) (method : Int) : List IntrinCall :=
  if method > 0 then
    [⟨i32x4, "vmullu.v4i32", [llvm_type_of type, llvm_type_of type]⟩,
     ⟨i16x4, "vshiftn.v4i16", [i32x4, ⟨32, 4⟩]⟩]
  else []

/-- The intrinsic calls a lowering of the magic-number paths contains, for a
division of type `type`. -/
def DivLowering.magic_calls (type : HalideType) : DivLowering → List IntrinCall
  | .magic_s16 _ (some (_, multiplier, _)) _ => magic_s16_calls type multiplier
  | .magic_u16 _ (some (method, _, _)) _ => magic_u16_calls type method
  | _ => []

/-- Every operand and the result of the call have `lanes` lanes. -/
def IntrinCall.lanes_consistent (lanes : Nat) (c : IntrinCall) : Prop :=
  c.result_type.width = lanes ∧ ∀ t ∈ c.arg_types, t.width = lanes

/-! ## Lane meaning of the halving instructions -/

/-- Lane meaning of the NEON unsigned halving add `vhaddu`: half the sum, the
sum taken without wrapping. -/
def vhaddu (x y : Nat) : Nat := (x + y) / 2

/-- Lane meaning of the NEON signed halving add `vhadds` at width `w`: half the
sum of the signed readings, rounded down. -/
def vhadds (w x y : Nat) : Nat := ofInt w ((toSigned w x + toSigned w y) / 2)

/-- Lane meaning of the NEON unsigned halving subtract `vhsubu` at width `w`:
half the difference, rounded down, the difference taken without wrapping. -/
def vhsubu (w x y : Nat) : Nat := ofInt w (((x : Int) - (y : Int)) / 2)

/-- Lane meaning of the NEON signed halving subtract `vhsubs` at width `w`. -/
def vhsubs (w x y : Nat) : Nat := ofInt w ((toSigned w x - toSigned w y) / 2)

/-! ## The shift constant of `CodeGen_ARM::visit(const Mul *)` -/

/-- The shift constant of a selected shift intrinsic has the vector type of the
value operand of that intrinsic. -/
def MulLowering.shift_type_agrees : MulLowering → Prop
  | .call_intrin _ _ lhs shift_type _ => shift_type = llvm_type_of lhs.type
  | .generic => True

/-! ## `CodeGen_ARM::visit(const Min *)` and `visit(const Max *)` (lines 604-666) -/

/-- A row of the tables `patterns[]` of the `Min` and `Max` handlers. -/
structure visit_Min_Pattern where
  t : HalideType
  op : String
deriving DecidableEq, Repr

/-- The table `patterns[]` of lines 610-625, in source order. -/
def visit_Min_patterns : List visit_Min_Pattern :=
  [⟨UInt_ 8 8, "vminu.v8i8"⟩,
   ⟨UInt_ 8 16, "vminu.v16i8"⟩,
   ⟨UInt_ 16 4, "vminu.v4i16"⟩,
   ⟨UInt_ 16 8, "vminu.v8i16"⟩,
   ⟨UInt_ 32 2, "vminu.v2i32"⟩,
   ⟨UInt_ 32 4, "vminu.v4i32"⟩,
   ⟨Int_ 8 8, "vmins.v8i8"⟩,
   ⟨Int_ 8 16, "vmins.v16i8"⟩,
   ⟨Int_ 16 4, "vmins.v4i16"⟩,
   ⟨Int_ 16 8, "vmins.v8i16"⟩,
   ⟨Int_ 32 2, "vmins.v2i32"⟩,
   ⟨Int_ 32 4, "vmins.v4i32"⟩,
   ⟨Float_ 32 2, "vmins.v2f32"⟩,
   ⟨Float_ 32 4, "vmins.v4f32"⟩]

/-- The table `patterns[]` of lines 642-657, in source order. -/
def visit_Max_patterns : List visit_Min_Pattern :=
  [⟨UInt_ 8 8, "vmaxu.v8i8"⟩,
   ⟨UInt_ 8 16, "vmaxu.v16i8"⟩,
   ⟨UInt_ 16 4, "vmaxu.v4i16"⟩,
   ⟨UInt_ 16 8, "vmaxu.v8i16"⟩,
   ⟨UInt_ 32 2, "vmaxu.v2i32"⟩,
   ⟨UInt_ 32 4, "vmaxu.v4i32"⟩,
   ⟨Int_ 8 8, "vmaxs.v8i8"⟩,
   ⟨Int_ 8 16, "vmaxs.v16i8"⟩,
   ⟨Int_ 16 4, "vmaxs.v4i16"⟩,
   ⟨Int_ 16 8, "vmaxs.v8i16"⟩,
   ⟨Int_ 32 2, "vmaxs.v2i32"⟩,
   ⟨Int_ 32 4, "vmaxs.v4i32"⟩,
   ⟨Float_ 32 2, "vmaxs.v2f32"⟩,
   ⟨Float_ 32 4, "vmaxs.v4f32"⟩]

/-- What the `Min` and `Max` handlers leave in `value`. -/
inductive MinMaxLowering
  /-- The call `call_intrin(op->type, patterns[i].op, vec(op->a, op->b))`. -/
  | call_intrin (result_type : HalideType) (intrin : String) (args : List Expr)
  /-- The delegation `CodeGen::visit(op)`. -/
  | generic
deriving Repr

/-- The loop of lines 627-632 (and 659-664) over the rows of a table: the first
row whose type is the type of the node. -/
def min_max_loop (type : HalideType) (a b : Expr) : List visit_Min_Pattern → MinMaxLowering
  | [] => .generic
  | row :: rest =>
    if type = row.t then .call_intrin type row.op [a, b]
    else min_max_loop type a b rest

/-- The handler `CodeGen_ARM::visit(const Min *op)` on the node `Min(a, b)`. -/
def visit_Min (a b : Expr) : MinMaxLowering :=
  min_max_loop (Expr.Min a b).type a b visit_Min_patterns

/-- The handler `CodeGen_ARM::visit(const Max *op)` on the node `Max(a, b)`. -/
def visit_Max (a b : Expr) : MinMaxLowering :=
  min_max_loop (Expr.Max a b).type a b visit_Max_patterns

/-- The types the claim lists: 8-, 16- or 32-bit signed or unsigned integers
and 32-bit floats, 64 or 128 bits wide in total. -/
def min_max_type (t : HalideType) : Prop :=
  ((t.t ≠ TypeCode.Float ∧ (t.bits = 8 ∨ t.bits = 16 ∨ t.bits = 32)) ∨
    (t.t = TypeCode.Float ∧ t.bits = 32)) ∧
  (t.bits * t.width = 64 ∨ t.bits * t.width = 128)

/-- The name the claim gives: the stem, `u` for an unsigned type and `s` for a
signed or floating-point type, and a suffix with the lane count and the lane
width of the type. -/
def min_max_name (stem : String) (t : HalideType) : String :=
  stem ++ (if t.is_uint then "u" else "s") ++ ".v" ++ toString t.width ++
    (if t.is_float then "f" else "i") ++ toString t.bits

/-! ## `simple_autoschedule` (`SimpleAutoSchedule.cpp`) -/

/-- The dependency analysis of lines 50-57: `dependencies[f]`, the set of the
functions of `order` whose `find_dependency` names `f`. -/
def dependencies (order : List String) (find_dependency : String → List String)
    (f : String) : List String :=
  (order.filter fun g => decide (f ∈ find_dependency g)).dedup

/-- The flag `has_rvars` of lines 74-80 for a callee whose update definitions
have `rvars` reduction variables each. -/
def has_rvars (rvars : List Nat) : Bool := rvars.any fun n => decide (n > 0)

/-- The loop of lines 59-86 building `new_order`: `callers f` is
`dependencies[f]` and `rvars f` lists the number of reduction variables of each
update definition of `f`. -/
def inlining_filter (output_set dont_inline skip_functions : List String)
    (callers : String → List String) (rvars : String → List Nat) : List String → List String
  | [] => []
  | f :: rest =>
    if f ∈ output_set ∨ f ∈ dont_inline then
      f :: inlining_filter output_set dont_inline skip_functions callers rvars rest
    else if f ∈ skip_functions then
      inlining_filter output_set dont_inline skip_functions callers rvars rest
    else if (callers f).length = 1 ∧ has_rvars (rvars f) = false then
      inlining_filter output_set dont_inline skip_functions callers rvars rest
    else f :: inlining_filter output_set dont_inline skip_functions callers rvars rest

/-- The order `simple_autoschedule` keeps (line 88) for the realization order
`order`. -/
def new_order (output_set dont_inline skip_functions : List String)
    (find_dependency : String → List String) (rvars : String → List Nat)
    (order : List String) : List String :=
  inlining_filter output_set dont_inline skip_functions
    (dependencies order find_dependency) rvars order

/-- The loop of lines 174-181 from `rvar_id` on, over the extents not yet
visited, in the state `(dim_width, dim_height)`. -/
def tile_search_loop (tile_width tile_height : Int) :
    List Int → Int → Int × Int → Int × Int
  | [], _, s => s
  | extent :: rest, rvar_id, (dim_width, dim_height) =>
    if dim_width = -1 ∧ extent ≥ tile_width then
      tile_search_loop tile_width tile_height rest (rvar_id + 1) (rvar_id, dim_height)
    else if dim_width ≠ -1 ∧ dim_height = -1 ∧ extent ≥ tile_height then
      (dim_width, rvar_id)
    else tile_search_loop tile_width tile_height rest (rvar_id + 1) (dim_width, dim_height)

/-- The search of lines 154-181 for the reduction dimensions to tile:
`(dim_width, dim_height)` for the extents `rvar_extents`. -/
def tile_search (rvar_extents : List Int) (tile_width tile_height : Int) : Int × Int :=
  tile_search_loop tile_width tile_height rvar_extents 0 (-1, -1)

/-! ## The matcher contract for named wildcards -/

open IntegerDivision

/-! ## The loop of `is_const_power_of_two` -/

theorem wrap32_of_range (x : Int) (h1 : -2147483648 ≤ x) (h2 : x < 2147483648) :
    wrap32 x = x := by
  unfold wrap32
  omega

theorem two_pow_le_of_le {j k : Nat} (h : j ≤ k) : (2 : Int) ^ j ≤ 2 ^ k :=
  pow_le_pow_right₀ (by norm_num) h

theorem two_pow_pos (j : Nat) : (0 : Int) < 2 ^ j := by positivity

theorem two_pow_30 : (2 : Int) ^ 30 = 1073741824 := by norm_num

/-- Once `tmp` has become zero the loop never leaves: every bound on the number
of tests is reached. -/
theorem power_of_two_loop_zero (value : Int) (hv : 0 < value) :
    ∀ (fuel : Nat) (bit_count : Int), power_of_two_loop fuel value 0 bit_count = none := by
  intro fuel
  induction fuel with
  | zero => intro bc; rfl
  | succ n ih =>
    intro bc
    have h0 : wrap32 (0 * 2) = 0 := by unfold wrap32; omega
    rw [power_of_two_loop, if_pos hv, h0]
    exact ih _

/-- Whatever the loop returns from a start `(2 ^ j, j)` with `j ≤ 30` is a pair
`(2 ^ k, k)` with `k ≤ 30`, the least power of two from `2 ^ j` on that is not
below `value`. -/
theorem power_of_two_loop_result :
    ∀ (fuel j : Nat) (value tmp bit_count : Int), j ≤ 30 →
      power_of_two_loop fuel value (2 ^ j) (j : Int) = some (tmp, bit_count) →
      ∃ k : Nat, j ≤ k ∧ k ≤ 30 ∧ tmp = 2 ^ k ∧ bit_count = (k : Int) ∧ value ≤ 2 ^ k ∧
        (k = j ∨ (2 : Int) ^ (k - 1) < value) := by
  intro fuel
  induction fuel with
  | zero => intro j value tmp bc _ h; simp [power_of_two_loop] at h
  | succ n ih =>
    intro j value tmp bc hj h
    rw [power_of_two_loop] at h
    by_cases hlt : (2 : Int) ^ j < value
    · rw [if_pos hlt] at h
      have hjle : (2 : Int) ^ j ≤ 2 ^ 30 := two_pow_le_of_le hj
      have hbc : wrap32 ((j : Int) + 1) = ((j + 1 : Nat) : Int) := by
        rw [wrap32_of_range] <;> push_cast <;> omega
      by_cases hj30 : j = 30
      · -- the doubling overflows: `tmp` becomes negative, then zero
        subst hj30
        have hw : wrap32 ((2 : Int) ^ 30 * 2) = -2147483648 := by
          rw [two_pow_30]; unfold wrap32; omega
        rw [hw] at h
        have hvpos : 0 < value := lt_trans (two_pow_pos 30) hlt
        cases n with
        | zero => simp [power_of_two_loop] at h
        | succ m =>
          rw [power_of_two_loop, if_pos (by rw [two_pow_30] at hlt; omega)] at h
          have hw2 : wrap32 (-2147483648 * 2) = 0 := by unfold wrap32; omega
          rw [hw2, power_of_two_loop_zero value hvpos] at h
          simp at h
      · have hj' : j + 1 ≤ 30 := by omega
        have hjle' : (2 : Int) ^ (j + 1) ≤ 2 ^ 30 := two_pow_le_of_le hj'
        have hw : wrap32 ((2 : Int) ^ j * 2) = 2 ^ (j + 1) := by
          rw [← pow_succ]
          apply wrap32_of_range
          · have := two_pow_pos (j + 1); omega
          · rw [two_pow_30] at hjle'; omega
        rw [hw, hbc] at h
        obtain ⟨k, hk1, hk2, hk3, hk4, hk5, hk6⟩ := ih (j + 1) value tmp bc hj' h
        refine ⟨k, by omega, hk2, hk3, hk4, hk5, Or.inr ?_⟩
        rcases hk6 with hk6 | hk6
        · subst hk6
          simpa using hlt
        · exact hk6
    · rw [if_neg hlt] at h
      simp only [Option.some.injEq, Prod.mk.injEq] at h
      exact ⟨j, le_refl j, hj, h.1.symm, h.2.symm, by omega, Or.inl rfl⟩

/-- For a value of at most `2 ^ 30` the loop returns once the bound on the
number of tests covers the doublings that remain. -/
theorem power_of_two_loop_total :
    ∀ (n j fuel : Nat) (value : Int), value ≤ 2 ^ 30 → j + n = 30 → n < fuel →
      ∃ r, power_of_two_loop fuel value (2 ^ j) (j : Int) = some r := by
  intro n
  induction n with
  | zero =>
    intro j fuel value hv hj hf
    obtain ⟨m, rfl⟩ : ∃ m, fuel = m + 1 := ⟨fuel - 1, by omega⟩
    have hj30 : j = 30 := by omega
    subst hj30
    rw [power_of_two_loop, if_neg (by omega)]
    exact ⟨_, rfl⟩
  | succ n ih =>
    intro j fuel value hv hj hf
    obtain ⟨m, rfl⟩ : ∃ m, fuel = m + 1 := ⟨fuel - 1, by omega⟩
    rw [power_of_two_loop]
    by_cases hlt : (2 : Int) ^ j < value
    · rw [if_pos hlt]
      have hj' : j + 1 ≤ 30 := by omega
      have hjle' : (2 : Int) ^ (j + 1) ≤ 2 ^ 30 := two_pow_le_of_le hj'
      have hw : wrap32 ((2 : Int) ^ j * 2) = 2 ^ (j + 1) := by
        rw [← pow_succ]
        apply wrap32_of_range
        · have := two_pow_pos (j + 1); omega
        · rw [two_pow_30] at hjle'; omega
      have hbc : wrap32 ((j : Int) + 1) = ((j + 1 : Nat) : Int) := by
        rw [wrap32_of_range] <;> push_cast <;> omega
      rw [hw, hbc]
      exact ih (j + 1) m value hv (by omega) (by omega)
    · rw [if_neg hlt]
      exact ⟨_, rfl⟩

/-- For a value above `2 ^ 30` the loop never returns: `tmp` doubles past
`2 ^ 30`, wraps to `-2 ^ 31` and then stays at zero. -/
theorem power_of_two_loop_diverges (value : Int) (hv : 2 ^ 30 < value) :
    ∀ (fuel : Nat), power_of_two_loop fuel value 1 0 = none := by
  intro fuel
  cases h : power_of_two_loop fuel value 1 0 with
  | none => rfl
  | some r =>
    exfalso
    obtain ⟨tmp, bc⟩ := r
    have h' : power_of_two_loop fuel value (2 ^ 0) ((0 : Nat) : Int) = some (tmp, bc) := by
      simpa using h
    obtain ⟨k, _, hk2, _, _, hk5, _⟩ := power_of_two_loop_result fuel 0 value tmp bc (by omega) h'
    have := two_pow_le_of_le hk2
    omega

/-! ## The answers of `is_const_power_of_two` -/

theorem is_const_power_of_two_innermost (fuel : Nat) :
    ∀ e : Expr, is_const_power_of_two fuel e = is_const_power_of_two fuel (innermost e)
  | .Broadcast value _ => by
    simpa [is_const_power_of_two, innermost] using is_const_power_of_two_innermost fuel value
  | .Cast _ value => by
    simpa [is_const_power_of_two, innermost] using is_const_power_of_two_innermost fuel value
  | .IntImm _ => rfl
  | .FloatImm _ => rfl
  | .Variable _ _ => rfl
  | .Add _ _ => rfl
  | .Sub _ _ => rfl
  | .Mul _ _ => rfl
  | .Div _ _ => rfl
  | .Min _ _ => rfl
  | .Max _ _ => rfl
  | .LT _ _ => rfl
  | .LE _ _ => rfl
  | .Select _ _ _ => rfl
  | .Load _ _ _ => rfl
  | .Ramp _ _ _ => rfl
  | .Call _ _ _ => rfl

theorem two_pow_inj {j k : Nat} (h : (2 : Int) ^ j = 2 ^ k) : j = k := by
  have h' : (2 : Nat) ^ j = 2 ^ k := by exact_mod_cast h
  exact Nat.pow_right_injective (le_refl 2) h'

/-- What an answer of `is_const_power_of_two` on an immediate means: `true`
with `*bits = k` only for the immediate `2 ^ k`, `k ≤ 30`, and `false` only for
an immediate that is no power of two. -/
theorem is_const_power_of_two_imm_answer (fuel : Nat) (value : Int) (r : Option Int)
    (h : is_const_power_of_two fuel (.IntImm value) = some r) :
    (∀ bits, r = some bits → ∃ k : Nat, k ≤ 30 ∧ bits = (k : Int) ∧ value = 2 ^ k) ∧
    (r = none → ∀ k : Nat, value ≠ 2 ^ k) := by
  unfold is_const_power_of_two at h
  cases hl : power_of_two_loop fuel value 1 0 with
  | none => rw [hl] at h; simp at h
  | some res =>
    obtain ⟨tmp, bc⟩ := res
    rw [hl] at h
    have hl' : power_of_two_loop fuel value (2 ^ 0) ((0 : Nat) : Int) = some (tmp, bc) := by
      simpa using hl
    obtain ⟨k, _, hk2, hk3, hk4, hk5, hk6⟩ :=
      power_of_two_loop_result fuel 0 value tmp bc (by omega) hl'
    by_cases heq : tmp = value
    · simp only [heq, if_true, Option.some.injEq] at h
      subst h
      refine ⟨fun bits hb => ?_, fun hn => by simp at hn⟩
      simp only [Option.some.injEq] at hb
      exact ⟨k, hk2, by omega, by rw [← heq, hk3]⟩
    · simp only [heq, if_false, Option.some.injEq] at h
      subst h
      refine ⟨fun bits hb => by simp at hb, fun _ m hm => ?_⟩
      -- `value = 2 ^ m` lies strictly between `2 ^ (k - 1)` and `2 ^ k`
      have hlt : (2 : Int) ^ m < 2 ^ k := by
        rcases lt_or_eq_of_le hk5 with h1 | h1
        · rw [← hm]; exact h1
        · exact absurd (hk3.trans h1.symm) heq
      have hmk : m < k := by
        by_contra hc
        have := two_pow_le_of_le (Nat.le_of_not_lt hc)
        omega
      rcases hk6 with hk6 | hk6
      · omega
      · have := two_pow_le_of_le (show m ≤ k - 1 by omega)
        omega

/-- On an immediate of at most `2 ^ 30` the helper returns. -/
theorem is_const_power_of_two_imm_total (n : Nat) (value : Int) (hv : value ≤ 2 ^ 30) :
    ∃ r, is_const_power_of_two (n + 32) (.IntImm value) = some r := by
  obtain ⟨res, hres⟩ := power_of_two_loop_total 30 0 (n + 32) value hv (by omega) (by omega)
  have hl : power_of_two_loop (n + 32) value 1 0 = some res := by simpa using hres
  obtain ⟨tmp, bc⟩ := res
  unfold is_const_power_of_two
  rw [hl]
  by_cases heq : tmp = value
  · refine ⟨some bc, ?_⟩
    simp only [heq, if_true]
  · refine ⟨none, ?_⟩
    simp only [heq, if_false]

/-- On the immediate `2 ^ k`, `k ≤ 30`, the helper answers `true` with
`*bits = k`. -/
theorem is_const_power_of_two_imm_pow (n k : Nat) (hk : k ≤ 30) :
    is_const_power_of_two (n + 32) (.IntImm (2 ^ k)) = some (some (k : Int)) := by
  obtain ⟨r, hr⟩ := is_const_power_of_two_imm_total n (2 ^ k) (two_pow_le_of_le hk)
  obtain ⟨h1, h2⟩ := is_const_power_of_two_imm_answer _ _ r hr
  cases r with
  | none => exact absurd rfl (h2 rfl k)
  | some bits =>
    obtain ⟨m, _, hm2, hm3⟩ := h1 bits rfl
    have := two_pow_inj hm3
    subst this
    rw [hr, hm2]

/-- On an immediate of at most `2 ^ 30` that is no power of two the helper
answers `false`. -/
theorem is_const_power_of_two_imm_not_pow (n : Nat) (value : Int) (hv : value ≤ 2 ^ 30)
    (hp : ∀ k : Nat, value ≠ 2 ^ k) :
    is_const_power_of_two (n + 32) (.IntImm value) = some none := by
  obtain ⟨r, hr⟩ := is_const_power_of_two_imm_total n value hv
  obtain ⟨h1, _⟩ := is_const_power_of_two_imm_answer _ _ r hr
  cases r with
  | none => exact hr
  | some bits =>
    obtain ⟨m, _, _, hm3⟩ := h1 bits rfl
    exact absurd hm3 (hp m)

/-- On an immediate above `2 ^ 30` the helper never returns. -/
theorem is_const_power_of_two_imm_diverges (fuel : Nat) (value : Int) (hv : 2 ^ 30 < value) :
    is_const_power_of_two fuel (.IntImm value) = none := by
  unfold is_const_power_of_two
  rw [power_of_two_loop_diverges value hv fuel]

theorem not_pow_of_between (d : Int) (m : Nat) (h1 : 2 ^ m < d) (h2 : d < 2 ^ (m + 1)) :
    ∀ k : Nat, d ≠ 2 ^ k := by
  intro k hk
  subst hk
  by_cases hkm : k ≤ m
  · have := two_pow_le_of_le hkm
    omega
  · have := two_pow_le_of_le (show m + 1 ≤ k by omega)
    omega


/-! ## The magic-number paths compute the quotient -/

theorem tdiv_split (v d : Int) (hd : 0 ≤ d) :
    Int.tdiv v d = if 0 ≤ v then v / d else -((-v) / d) := by
  split
  · next h => exact Int.tdiv_eq_ediv h hd
  · next h =>
    have h2 : (0 : Int) ≤ -v := by omega
    have := Int.tdiv_eq_ediv h2 hd
    rw [Int.neg_tdiv] at this
    omega

theorem ofInt16_cast (a : Int) : ((ofInt 16 a : Nat) : Int) = a % 65536 := by
  unfold ofInt
  norm_num
  omega

theorem ofInt16_lt (a : Int) : ofInt 16 a < 65536 := by
  have := ofInt16_cast a
  omega

theorem ofInt16_congr {a b : Int} (h : a % 65536 = b % 65536) : ofInt 16 a = ofInt 16 b := by
  have h1 := ofInt16_cast a
  have h2 := ofInt16_cast b
  omega

theorem toSigned16_eq (x : Nat) :
    toSigned 16 x = if x < 32768 then (x : Int) else (x : Int) - 65536 := by
  unfold toSigned
  norm_num

theorem toSigned16_ofInt (a : Int) : toSigned 16 (ofInt 16 a) = wrap16 a := by
  rw [toSigned16_eq]
  have h1 := ofInt16_cast a
  unfold wrap16
  split <;> omega

theorem ofInt16_toSigned (x : Nat) (hx : x < 65536) : ofInt 16 (toSigned 16 x) = x := by
  have h1 := ofInt16_cast (toSigned 16 x)
  have h2 := toSigned16_eq x
  split at h2 <;> omega

theorem vshiftn_vmulls16 (x y : Nat) :
    vshiftn 16 (vmulls 16 x y) 16 = ofInt 16 (toSigned 16 x * toSigned 16 y / 65536) := by
  unfold vshiftn vmulls ofInt
  generalize toSigned 16 x * toSigned 16 y = p
  have key : ((p % 4294967296).toNat / 65536 % 65536 : Nat) = ((p / 65536) % 65536).toNat := by
    omega
  simpa only [vshiftn, vmulls, ofInt, Nat.reduceMul, Nat.reducePow, Int.reducePow] using key

theorem CreateAdd16_ofInt (a b : Int) :
    CreateAdd 16 (ofInt 16 a) (ofInt 16 b) = ofInt 16 (a + b) := by
  have h1 := ofInt16_cast a
  have h2 := ofInt16_cast b
  have h3 := ofInt16_cast (a + b)
  unfold CreateAdd
  norm_num
  omega

theorem CreateAShr16_ofInt (a : Int) (k : Nat) (hk : k < 16) :
    CreateAShr 16 (ofInt 16 a) k = some (ofInt 16 (wrap16 a / 2 ^ k)) := by
  unfold CreateAShr
  rw [if_pos hk, toSigned16_ofInt, Int.shiftRight_eq_div_pow]
  norm_num

theorem CreateLShr16_sign (x : Nat) (hx : x < 65536) :
    CreateLShr 16 x 15 = some (ofInt 16 (if toSigned 16 x < 0 then 1 else 0)) := by
  unfold CreateLShr
  rw [if_pos (by norm_num), Nat.shiftRight_eq_div_pow, toSigned16_eq]
  have h1 := ofInt16_cast 1
  have h0 := ofInt16_cast 0
  congr 1
  split <;> split <;> omega

theorem ofInt16_small (a : Int) (h0 : 0 ≤ a) (h1 : a < 65536) : ofInt 16 a = a.toNat := by
  have := ofInt16_cast a
  omega

theorem wrap16_wrap16_add (a b : Int) : wrap16 (wrap16 a + b) = wrap16 (a + b) := by
  unfold wrap16
  omega

theorem magic_s16_lane_eq (method multiplier shift : Int) (val : Nat) (hval : val < 65536)
    (hs0 : 0 ≤ shift) (hs1 : shift < 16) :
    magic_s16_lane method multiplier shift val
      = some (ofInt 16 (magic_s16_int method multiplier shift (toSigned 16 val))) := by
  have hv := ofInt16_toSigned val hval
  have hr : wrap16 (toSigned 16 val) = toSigned 16 val := by
    rw [toSigned16_eq]; unfold wrap16; split <;> omega
  generalize toSigned 16 val = s at hv hr
  subst hv
  have hsh : ofInt 16 shift = shift.toNat := ofInt16_small shift hs0 (by omega)
  have hk : shift.toNat < 16 := by omega
  have h15 : ofInt 16 (16 - 1) = 15 := by
    have := ofInt16_cast (16 - 1)
    omega
  have hsign := CreateLShr16_sign (ofInt 16 s) (ofInt16_lt s)
  rw [toSigned16_ofInt, hr] at hsign
  unfold magic_s16_lane magic_s16_int
  simp only [h15, hsh, hsign, vshiftn_vmulls16, toSigned16_ofInt, CreateAdd16_ofInt, hr]
  by_cases hm : multiplier ≠ 0 <;> by_cases hme : method = 1 <;> by_cases hsz : shift ≠ 0 <;>
    simp only [hm, hme, hsz, if_true, if_false, not_true_eq_false, not_false_eq_true,
      CreateAShr16_ofInt _ _ hk, CreateAdd16_ofInt, ne_eq, wrap16_wrap16_add, hr] <;>
    first
      | rfl
      | (congr 1; apply ofInt16_congr; simp only [wrap16]; omega)

theorem toSigned16_range (x : Nat) (hx : x < 65536) :
    -32768 ≤ toSigned 16 x ∧ toSigned 16 x ≤ 32767 := by
  rw [toSigned16_eq]
  split <;> omega

theorem mulhi_range (s mu : Int) (h1 : -32768 ≤ s) (h2 : s ≤ 32767) (hm0 : 0 ≤ mu)
    (hm1 : mu ≤ 65536) : -32768 ≤ s * mu / 65536 ∧ s * mu / 65536 ≤ 32767 := by
  constructor
  · apply Int.le_ediv_of_mul_le (by norm_num)
    nlinarith
  · have : s * mu / 65536 < 32768 := by
      apply Int.ediv_lt_of_lt_mul (by norm_num)
      nlinarith
    omega

theorem wrap16_of_range (a : Int) (h1 : -32768 ≤ a) (h2 : a ≤ 32767) : wrap16 a = a := by
  unfold wrap16
  omega

theorem magic_s16_int_eq (method multiplier shift s : Int) (h1 : -32768 ≤ s) (h2 : s ≤ 32767)
    (hm0 : 0 < multiplier) (hm1 : multiplier < 65536)
    (hme : method = 1 ↔ 32768 ≤ multiplier) :
    magic_s16_int method multiplier shift s
      = s * multiplier / 65536 / 2 ^ shift.toNat + (if s < 0 then 1 else 0) := by
  obtain ⟨hr1, hr2⟩ := mulhi_range s multiplier h1 h2 (by omega) (by omega)
  have hmult : (if multiplier ≠ 0 then
        (if method = 1 then wrap16 (wrap16 (s * wrap16 multiplier / 65536) + s)
          else wrap16 (s * wrap16 multiplier / 65536))
      else s) = s * multiplier / 65536 := by
    rw [if_pos (by omega)]
    by_cases hc : method = 1
    · have hw : wrap16 multiplier = multiplier - 65536 := by
        have := hme.mp hc
        unfold wrap16
        omega
      have he : s * (multiplier - 65536) / 65536 = s * multiplier / 65536 - s := by
        have : s * (multiplier - 65536) = s * multiplier + (-s) * 65536 := by ring
        rw [this, Int.add_mul_ediv_right _ _ (by norm_num)]
        ring
      have hcancel : s * multiplier / 65536 - s + s = s * multiplier / 65536 := by ring
      rw [if_pos hc, wrap16_wrap16_add, hw, he, hcancel]
      exact wrap16_of_range _ hr1 hr2
    · have hw : wrap16 multiplier = multiplier := by
        have : ¬ 32768 ≤ multiplier := fun h => hc (hme.mpr h)
        unfold wrap16
        omega
      rw [if_neg hc, hw]
      exact wrap16_of_range _ hr1 hr2
  unfold magic_s16_int
  simp only [hmult]
  by_cases hsz : shift ≠ 0
  · rw [if_pos hsz]
  · have : shift = 0 := by omega
    subst this
    simp

/-- C1: for every divisor `d` with `2 ≤ d ≤ 63` that is no power of two and
every 16-bit lane `v`, the `Int(16, 4)` magic-number path, run on row `d - 2` of
`table_s16`, yields the signed quotient of `v` by `d` truncated toward zero. -/
theorem magic_s16_division_correct (d : Int) (v : Nat) (hd2 : 2 ≤ d) (hd63 : d ≤ 63)
    (hp : ∀ k : Nat, d ≠ 2 ^ k) (hv : v < 2 ^ 16) :
    ∃ method multiplier shift,
      table_read table_s16 (d - 2) = some (method, multiplier, shift) ∧
      magic_s16_lane method multiplier shift v
        = some (ofInt 16 (Int.tdiv (toSigned 16 v) d)) := by
  have hv' : v < 65536 := by simpa using hv
  obtain ⟨hlo, hhi⟩ := toSigned16_range v hv'
  have h1 := hp 1
  have h2 := hp 2
  have h3 := hp 3
  have h4 := hp 4
  have h5 := hp 5
  norm_num at h1 h2 h3 h4 h5
  interval_cases d <;> first
    | exact absurd rfl h1
    | exact absurd rfl h2
    | exact absurd rfl h3
    | exact absurd rfl h4
    | exact absurd rfl h5
    | (refine ⟨_, _, _, rfl, ?_⟩
       rw [magic_s16_lane_eq _ _ _ _ hv' (by norm_num) (by norm_num)]
       congr 2
       rw [tdiv_split _ _ (by norm_num)]
       generalize toSigned 16 v = s at hlo hhi
       rw [magic_s16_int_eq _ _ _ _ hlo hhi (by norm_num) (by norm_num) (by norm_num)]
       simp only [Int.reduceToNat, Int.reducePow, pow_zero, Int.ediv_one]
       split_ifs <;> omega)

theorem magic_s16_division_correct_witness :
    table_read table_s16 (7 - 2) = some (0, 18725, 1) ∧
    magic_s16_lane 0 18725 1 (ofInt 16 (-100)) = some (ofInt 16 (-14)) := by
  obtain ⟨method, multiplier, shift, hrow, hval⟩ :=
    magic_s16_division_correct 7 (ofInt 16 (-100)) (by norm_num) (by norm_num)
      (not_pow_of_between 7 2 (by norm_num) (by norm_num)) (by decide)
  have hrow' : table_read table_s16 (7 - 2) = some (0, 18725, 1) := rfl
  rw [hrow'] at hrow
  simp only [Option.some.injEq, Prod.mk.injEq] at hrow
  obtain ⟨rfl, rfl, rfl⟩ := hrow
  have hq : ofInt 16 (Int.tdiv (toSigned 16 (ofInt 16 (-100))) 7) = ofInt 16 (-14) := by decide
  rw [hq] at hval
  exact ⟨hrow', hval⟩


theorem mulhi_u16 (val m : Nat) (hval : val < 65536) (hm : m < 65536) :
    vshiftn 16 (vmullu 16 val m) 16 = val * m / 65536 ∧ val * m / 65536 ≤ val := by
  have hprod : val * m < 4294967296 := by nlinarith
  have hle : val * m / 65536 ≤ val := by
    apply Nat.div_le_of_le_mul
    nlinarith
  refine ⟨?_, hle⟩
  unfold vshiftn vmullu
  simp only [Nat.reduceMul, Nat.reducePow]
  rw [Nat.mod_eq_of_lt hprod, Nat.mod_eq_of_lt (by omega)]

theorem magic_u16_lane_eq (method multiplier shift : Int) (val : Nat) (hval : val < 65536)
    (hm0 : 0 ≤ multiplier) (hm1 : multiplier < 65536) (hs0 : 0 ≤ shift) (hs1 : shift < 16) :
    magic_u16_lane method multiplier shift val
      = some (magic_u16_nat method multiplier shift val) := by
  have hsh : ofInt 16 shift = shift.toNat := ofInt16_small shift hs0 (by omega)
  have hmu : ofInt 16 multiplier = multiplier.toNat := ofInt16_small multiplier hm0 hm1
  have hk : shift.toNat < 16 := by omega
  obtain ⟨hhigh, hle⟩ := mulhi_u16 val multiplier.toNat hval (by omega)
  generalize hq : val * multiplier.toNat / 65536 = high at hhigh hle
  have hsub : CreateSub 16 val high = val - high := by
    have := ofInt16_cast ((val : Int) - (high : Int))
    unfold CreateSub
    omega
  have hcorr : CreateLShr 16 (val - high) 1 = some ((val - high) / 2) := by
    unfold CreateLShr
    rw [if_pos (by norm_num), Nat.shiftRight_eq_div_pow]
  have hadd : CreateAdd 16 high ((val - high) / 2) = high + (val - high) / 2 := by
    unfold CreateAdd
    simp only [Nat.reducePow]
    omega
  have hfinal : ∀ x : Nat, CreateLShr 16 x shift.toNat = some (x / 2 ^ shift.toNat) := by
    intro x
    unfold CreateLShr
    rw [if_pos hk, Nat.shiftRight_eq_div_pow]
  unfold magic_u16_lane magic_u16_nat
  simp only [hmu, hsh, hhigh, hq, hsub, hcorr, hadd]
  by_cases h0 : method > 0
  · simp only [h0, if_true]
    by_cases h2 : method = 2
    · simp only [h2, if_true, hfinal]
    · simp only [h2, if_false, hfinal]
  · simp only [h0, if_false, hfinal]

/-- C2: for every divisor `d` with `2 ≤ d ≤ 63` that is no power of two and
every 16-bit lane `v`, the `UInt(16, 8)` magic-number path, run on row `d - 2`
of `table_u16`, yields `floor(v / d)`. -/
theorem magic_u16_division_correct (d : Nat) (v : Nat) (hd2 : 2 ≤ d) (hd63 : d ≤ 63)
    (hp : ∀ k : Nat, d ≠ 2 ^ k) (hv : v < 2 ^ 16) :
    ∃ method multiplier shift,
      table_read table_u16 ((d : Int) - 2) = some (method, multiplier, shift) ∧
      magic_u16_lane method multiplier shift v = some (v / d) := by
  have hv' : v < 65536 := by simpa using hv
  have h1 := hp 1
  have h2 := hp 2
  have h3 := hp 3
  have h4 := hp 4
  have h5 := hp 5
  norm_num at h1 h2 h3 h4 h5
  interval_cases d <;> first
    | exact absurd rfl h1
    | exact absurd rfl h2
    | exact absurd rfl h3
    | exact absurd rfl h4
    | exact absurd rfl h5
    | (refine ⟨_, _, _, rfl, ?_⟩
       rw [magic_u16_lane_eq _ _ _ _ hv' (by norm_num) (by norm_num) (by norm_num) (by norm_num)]
       congr 1
       simp only [magic_u16_nat, Int.reduceToNat, Nat.reducePow, Int.reduceEq, if_true, if_false,
         gt_iff_lt, Int.reduceLT]
       omega)

theorem magic_u16_division_correct_witness :
    table_read table_u16 (7 - 2) = some (2, 9363, 2) ∧
    magic_u16_lane 2 9363 2 65535 = some 9362 := by
  obtain ⟨method, multiplier, shift, hrow, hval⟩ :=
    magic_u16_division_correct 7 65535 (by norm_num) (by norm_num)
      (fun k hk => by
        have h3 : k < 3 := by
          by_contra hc
          have := Nat.pow_le_pow_right (show 0 < 2 by norm_num) (Nat.le_of_not_lt hc)
          omega
        interval_cases k <;> omega) (by norm_num)
  have hrow' : table_read table_u16 (((7 : Nat) : Int) - 2) = some (2, 9363, 2) := rfl
  rw [hrow'] at hrow
  simp only [Option.some.injEq, Prod.mk.injEq] at hrow
  obtain ⟨rfl, rfl, rfl⟩ := hrow
  exact ⟨rfl, hval⟩

/-! ## The branches of the `Div` handler -/


theorem averaging_loop_result (op : Expr) :
    ∀ (ps : List visit_Div_Pattern) (i : Nat) (r : DivLowering),
      averaging_loop op ps i = some r →
      (∃ j t o args, r = .averaging j t o args) ∨ r = .bad_read := by
  intro ps
  induction ps with
  | nil => intro i r h; simp [averaging_loop] at h
  | cons p rest ih =>
    intro i r h
    rw [averaging_loop] at h
    split at h
    · split at h
      · simp only [Option.some.injEq] at h
        exact Or.inl ⟨_, _, _, _, h.symm⟩
      · simp only [Option.some.injEq] at h
        exact Or.inr h.symm
    · exact ih _ _ h

theorem visit_Div_magic_s16 (fuel : Nat) (a b : Expr) (i : Int) (row : Option (Int × Int × Int))
    (val : Expr) (h : visit_Div fuel a b = some (.magic_s16 i row val)) :
    a.type = Int_ 16 4 ∧ 1 < const_divisor b ∧ const_divisor b < 64 ∧
      i = const_divisor b - 2 ∧ row = table_read table_s16 (const_divisor b - 2) ∧ val = a ∧
      is_const_power_of_two fuel b = some none := by
  unfold visit_Div at h
  simp only [] at h
  split at h
  · next r hr =>
    split at hr
    · rcases averaging_loop_result _ _ _ _ hr with ⟨j, t, o, args, rfl⟩ | rfl <;> simp at h
    · simp at hr
  · split at h
    · simp at h
    · next p hp =>
      split_ifs at h with h1 h2 h3 h4 h5 h6
      all_goals (try (split at h <;> simp at h))
      all_goals (try simp at h)
      obtain ⟨ht, hd1, hd2⟩ := h5
      obtain ⟨hi, hrow, hval⟩ := h
      have hint : (a.Div b).type.is_int = true := by rw [ht]; rfl
      have hpn : p = none := by
        cases p with
        | none => rfl
        | some k => exact absurd ⟨rfl, hint⟩ h3
      subst hpn
      exact ⟨ht, hd1, hd2, hi.symm, hrow.symm, hval.symm, hp⟩

theorem visit_Div_magic_u16 (fuel : Nat) (a b : Expr) (i : Int) (row : Option (Int × Int × Int))
    (val : Expr) (h : visit_Div fuel a b = some (.magic_u16 i row val)) :
    a.type = UInt_ 16 8 ∧ 1 < const_divisor b ∧ const_divisor b < 64 ∧
      i = const_divisor b - 2 ∧ row = table_read table_u16 (const_divisor b - 2) ∧ val = a ∧
      is_const_power_of_two fuel b = some none := by
  unfold visit_Div at h
  simp only [] at h
  split at h
  · next r hr =>
    split at hr
    · rcases averaging_loop_result _ _ _ _ hr with ⟨j, t, o, args, rfl⟩ | rfl <;> simp at h
    · simp at hr
  · split at h
    · simp at h
    · next p hp =>
      split_ifs at h with h1 h2 h3 h4 h5 h6
      all_goals (try (split at h <;> simp at h))
      all_goals (try simp at h)
      obtain ⟨ht, hd1, hd2⟩ := h6
      obtain ⟨hi, hrow, hval⟩ := h
      have hint : (a.Div b).type.is_uint = true := by rw [ht]; rfl
      have hpn : p = none := by
        cases p with
        | none => rfl
        | some k => exact absurd ⟨rfl, hint⟩ h4
      subst hpn
      exact ⟨ht, hd1, hd2, hi.symm, hrow.symm, hval.symm, hp⟩

theorem const_divisor_shape (b : Expr) (h : const_divisor b ≠ 0) :
    innermost b = .IntImm (const_divisor b) := by
  unfold const_divisor at *
  split <;> simp_all [innermost]

theorem visit_Div_lshr (fuel : Nat) (a b num : Expr) (s : Int)
    (h : visit_Div fuel a b = some (.lshr num s)) :
    num = a ∧ is_const_power_of_two fuel b = some (some s) ∧ a.type.is_uint = true := by
  unfold visit_Div at h
  simp only [] at h
  split at h
  · next r hr =>
    split at hr
    · rcases averaging_loop_result _ _ _ _ hr with ⟨j, t, o, args, rfl⟩ | rfl <;> simp at h
    · simp at hr
  · split at h
    · simp at h
    · next p hp =>
      split_ifs at h with h1 h2 h3 h4 h5 h6
      all_goals (try (split at h <;> simp at h))
      all_goals (try simp at h)
      obtain ⟨hnum, hs⟩ := h
      obtain ⟨hsome, hu⟩ := h4
      cases p with
      | none => simp at hsome
      | some k =>
        simp only [Option.getD_some] at hs
        subst hs
        exact ⟨hnum.symm, hp, hu⟩

/-- The branch taken for a divisor that strips to the immediate `2 ^ k`,
`k ≤ 30`, on an integer-typed division: the averaging branch when it applies,
and otherwise the shift by `k`, arithmetic for a signed and logical for an
unsigned type. -/
theorem visit_Div_power_of_two (n : Nat) (a b : Expr) (k : Nat) (hk : k ≤ 30)
    (hb : innermost b = .IntImm (2 ^ k))
    (ht : a.type.is_int = true ∨ a.type.is_uint = true) :
    ∃ r, visit_Div (n + 32) a b = some r ∧
      ((a.type.is_int = true ∧ r = .ashr a (k : Int)) ∨
       (a.type.is_int = false ∧ r = .lshr a (k : Int)) ∨
       ((is_two b && (a.is_Add || a.is_Sub)) = true ∧
          averaging_loop (.Div a b) visit_Div_averagings 0 = some r)) := by
  have hp : is_const_power_of_two (n + 32) b = some (some (k : Int)) := by
    rw [is_const_power_of_two_innermost, hb]
    exact is_const_power_of_two_imm_pow n k hk
  have hnf : ∀ w, (a.Div b).type ≠ Float_ 32 w := by
    intro w hf
    have hf' : a.type = Float_ 32 w := hf
    rw [hf'] at ht
    simp [HalideType.is_int, HalideType.is_uint, Float_] at ht
  unfold visit_Div
  simp only []
  split
  · next r hr =>
    refine ⟨r, rfl, Or.inr (Or.inr ?_)⟩
    split at hr
    · next hc => exact ⟨hc, hr⟩
    · simp at hr
  · rw [hp]
    simp only [hnf, false_and, if_false, Option.isSome_some, true_and, Option.getD_some]
    by_cases hi : a.type.is_int = true
    · have hi' : (a.Div b).type.is_int = true := hi
      simp only [hi', if_true]
      exact ⟨_, rfl, Or.inl ⟨hi, rfl⟩⟩
    · have hu : a.type.is_uint = true := ht.resolve_left hi
      have hi' : ¬ (a.Div b).type.is_int = true := hi
      have hu' : (a.Div b).type.is_uint = true := hu
      simp only [hi', hu', if_true, if_false]
      exact ⟨_, rfl, Or.inr (Or.inl ⟨by simpa using hi, rfl⟩)⟩

/-- The branch taken for a 16-bit division by a broadcast immediate `d` that
is no power of two and lies outside the table: the generic lowering. -/
theorem visit_Div_out_of_table (n : Nat) (a b : Expr) (d : Int)
    (ht : a.type = Int_ 16 4 ∨ a.type = UInt_ 16 8)
    (hb : innermost b = .IntImm d) (hcd : const_divisor b = d)
    (htwo : is_two b = false)
    (hd : d ≤ 0 ∨ (64 ≤ d ∧ d ≤ 2 ^ 30 ∧ ∀ k : Nat, d ≠ 2 ^ k)) :
    visit_Div (n + 32) a b = some .generic := by
  have hnp : ∀ k : Nat, d ≠ 2 ^ k := by
    rcases hd with hd | hd
    · intro k hk
      have := two_pow_pos k
      omega
    · exact hd.2.2
  have hle : d ≤ 2 ^ 30 := by
    rcases hd with hd | hd
    · have := two_pow_pos 30
      omega
    · exact hd.2.1
  have hp : is_const_power_of_two (n + 32) b = some none := by
    rw [is_const_power_of_two_innermost, hb]
    exact is_const_power_of_two_imm_not_pow n d hle hnp
  have hnf : ∀ w, (a.Div b).type ≠ Float_ 32 w := by
    intro w hf
    have hf' : a.type = Float_ 32 w := hf
    rcases ht with ht | ht <;> rw [ht] at hf' <;> simp [Int_, UInt_, Float_] at hf'
  have hrange : ¬ (const_divisor b > 1 ∧ const_divisor b < 64) := by
    rw [hcd]
    omega
  unfold visit_Div
  simp only [htwo, Bool.false_and, Bool.false_eq_true, if_false, hp, hnf, false_and,
    Option.isSome_none, hrange, and_false]

/-! ## Division by a constant: the claims on the `Div` handler -/

theorem table_lengths : table_s16.length = 62 ∧ table_u16.length = 62 := ⟨rfl, rfl⟩

theorem table_read_in_range (table : List (Int × Int × Int)) (i : Int) (h0 : 0 ≤ i)
    (h1 : i.toNat < table.length) : ∃ r, table_read table i = some r := by
  unfold table_read
  rw [if_pos h0]
  exact ⟨_, List.get?_eq_get h1⟩

/-- C3 (fails on the code): on the `Int(16, 4)` division `x / 2` the handler
emits an arithmetic shift right by one, which yields `-1` on the lane `-1`,
while the truncating division of the generic lowering yields `0`. -/
theorem signed_shift_truncation_defect :
    (∀ n, visit_Div (n + 32) (.Variable (Int_ 16 4) "x")
        (.Broadcast (.Cast (Int_ 16 1) (.IntImm 2)) 4)
      = some (.ashr (.Variable (Int_ 16 4) "x") 1)) ∧
    CreateAShr 16 (ofInt 16 (-1)) (ofInt 16 1) = some (ofInt 16 (-1)) ∧
    CreateSDiv 16 (ofInt 16 (-1)) (ofInt 16 2) = some (ofInt 16 0) ∧
    ofInt 16 (-1) ≠ ofInt 16 0 := by
  refine ⟨fun n => ?_, by decide, by decide, by decide⟩
  obtain ⟨r, hr, hcase⟩ := visit_Div_power_of_two n (.Variable (Int_ 16 4) "x")
    (.Broadcast (.Cast (Int_ 16 1) (.IntImm 2)) 4) 1 (by omega) rfl (Or.inl rfl)
  rcases hcase with ⟨_, h⟩ | ⟨h, _⟩ | ⟨h, _⟩
  · rw [hr, h]; rfl
  · exact absurd h (by decide)
  · exact absurd h (by decide)

/-- C4: when the handler lowers an unsigned division by a constant that strips
to `2 ^ k`, `k` below the lane width, to a logical shift right, the shifted
operand is the numerator, the shift amount is `k`, and on every lane `v` of
that width the shift yields `floor(v / 2 ^ k)`, again a lane of that width and
the value of the unsigned division of the generic lowering. -/
theorem unsigned_shift_division_correct (fuel : Nat) (a b num : Expr) (s : Int) (k v : Nat)
    (hb : innermost b = .IntImm (2 ^ k)) (hk : k < a.type.bits) (hv : v < 2 ^ a.type.bits)
    (h : visit_Div fuel a b = some (.lshr num s)) :
    num = a ∧ s = (k : Int) ∧ a.type.is_uint = true ∧
      CreateLShr a.type.bits v (ofInt a.type.bits s) = some (v / 2 ^ k) ∧
      CreateUDiv a.type.bits v (ofInt a.type.bits (2 ^ k)) = some (v / 2 ^ k) ∧
      v / 2 ^ k < 2 ^ a.type.bits := by
  obtain ⟨hnum, hp, hu⟩ := visit_Div_lshr fuel a b num s h
  rw [is_const_power_of_two_innermost, hb] at hp
  obtain ⟨h1, _⟩ := is_const_power_of_two_imm_answer fuel _ _ hp
  obtain ⟨m, _, hm2, hm3⟩ := h1 s rfl
  have hkm : k = m := two_pow_inj hm3
  subst hkm
  generalize a.type.bits = w at hk hv
  have hkw : k < 2 ^ w :=
    lt_of_lt_of_le (Nat.lt_two_pow k) (Nat.pow_le_pow_right (by norm_num) hk.le)
  have hpw : 2 ^ k < 2 ^ w := Nat.pow_lt_pow_right (by norm_num) hk
  have hs : ofInt w s = k := by
    unfold ofInt
    rw [hm2, Int.emod_eq_of_lt (by positivity) (by exact_mod_cast hkw)]
    simp
  have hd : ofInt w ((2 : Int) ^ k) = 2 ^ k := by
    unfold ofInt
    rw [Int.emod_eq_of_lt (by positivity) (by exact_mod_cast hpw)]
    have : ((2 : Int) ^ k) = ((2 ^ k : Nat) : Int) := by push_cast; rfl
    rw [this, Int.toNat_natCast]
  refine ⟨hnum, hm2, hu, ?_, ?_, lt_of_le_of_lt (Nat.div_le_self v _) hv⟩
  · rw [hs]
    unfold CreateLShr
    rw [if_pos hk, Nat.shiftRight_eq_div_pow]
  · rw [hd]
    unfold CreateUDiv
    rw [if_neg (by positivity)]

theorem unsigned_shift_division_correct_witness :
    visit_Div 32 (.Variable (UInt_ 8 8) "x") (.Broadcast (.Cast (UInt_ 8 1) (.IntImm 4)) 8)
      = some (.lshr (.Variable (UInt_ 8 8) "x") 2) ∧
    CreateLShr 8 200 (ofInt 8 2) = some (200 / 2 ^ 2) := by
  have h : visit_Div 32 (.Variable (UInt_ 8 8) "x")
      (.Broadcast (.Cast (UInt_ 8 1) (.IntImm 4)) 8)
      = some (.lshr (.Variable (UInt_ 8 8) "x") 2) := by
    obtain ⟨r, hr, hcase⟩ := visit_Div_power_of_two 0 (.Variable (UInt_ 8 8) "x")
      (.Broadcast (.Cast (UInt_ 8 1) (.IntImm 4)) 8) 2 (by omega) rfl (Or.inr rfl)
    rcases hcase with ⟨h, _⟩ | ⟨_, h⟩ | ⟨h, _⟩
    · exact absurd h (by decide)
    · rw [hr, h]; rfl
    · exact absurd h (by decide)
  exact ⟨h, (unsigned_shift_division_correct 32 (.Variable (UInt_ 8 8) "x")
    (.Broadcast (.Cast (UInt_ 8 1) (.IntImm 4)) 8) (.Variable (UInt_ 8 8) "x") 2 2 200
    rfl (by decide) (by decide) h).2.2.2.1⟩

/-- C5 (fails on the code): the shift path is taken for a divisor whose
immediate is a power of two only before the cast narrows it.  On `Int(8, 8)`
the divisor `cast<int8>(128)` has the value `-128`, the handler emits an
arithmetic shift right by seven, which yields `-1` on the lane `-128` where the
division yields `1`; on `UInt(8, 8)` the divisor `cast<uint8>(256)` makes it
emit a logical shift by eight, the full lane width. -/
theorem shift_path_narrowed_divisor_defect :
    (∀ n, visit_Div (n + 32) (.Variable (Int_ 8 8) "x")
        (.Broadcast (.Cast (Int_ 8 1) (.IntImm 128)) 8)
      = some (.ashr (.Variable (Int_ 8 8) "x") 7)) ∧
    toSigned 8 (ofInt 8 128) = -128 ∧
    CreateAShr 8 (ofInt 8 (-128)) (ofInt 8 7) = some (ofInt 8 (-1)) ∧
    CreateSDiv 8 (ofInt 8 (-128)) (ofInt 8 128) = some (ofInt 8 1) ∧
    ofInt 8 (-1) ≠ ofInt 8 1 ∧
    (∀ n, visit_Div (n + 32) (.Variable (UInt_ 8 8) "x")
        (.Broadcast (.Cast (UInt_ 8 1) (.IntImm 256)) 8)
      = some (.lshr (.Variable (UInt_ 8 8) "x") 8)) ∧
    (∀ v, CreateLShr 8 v (ofInt 8 8) = none) := by
  refine ⟨fun n => ?_, by decide, by decide, by decide, by decide, fun n => ?_, fun v => ?_⟩
  · obtain ⟨r, hr, hcase⟩ := visit_Div_power_of_two n (.Variable (Int_ 8 8) "x")
      (.Broadcast (.Cast (Int_ 8 1) (.IntImm 128)) 8) 7 (by omega) rfl (Or.inl rfl)
    rcases hcase with ⟨_, h⟩ | ⟨h, _⟩ | ⟨h, _⟩
    · rw [hr, h]; rfl
    · exact absurd h (by decide)
    · exact absurd h (by decide)
  · obtain ⟨r, hr, hcase⟩ := visit_Div_power_of_two n (.Variable (UInt_ 8 8) "x")
      (.Broadcast (.Cast (UInt_ 8 1) (.IntImm 256)) 8) 8 (by omega) rfl (Or.inr rfl)
    rcases hcase with ⟨h, _⟩ | ⟨_, h⟩ | ⟨h, _⟩
    · exact absurd h (by decide)
    · rw [hr, h]; rfl
    · exact absurd h (by decide)
  · have h8 : ofInt 8 8 = 8 := by decide
    rw [h8]
    simp [CreateLShr]

/-- C6: whenever the handler reads `table_s16` or `table_u16`, the extracted
constant divisor `d` satisfies `2 ≤ d ≤ 63`, the row read is `d - 2`, which lies
in `[0, 61]`, inside both tables, and the read returns a row. -/
theorem division_table_index_in_bounds (fuel : Nat) (a b : Expr) (i : Int)
    (row : Option (Int × Int × Int)) (val : Expr)
    (h : visit_Div fuel a b = some (.magic_s16 i row val) ∨
         visit_Div fuel a b = some (.magic_u16 i row val)) :
    2 ≤ const_divisor b ∧ const_divisor b ≤ 63 ∧ i = const_divisor b - 2 ∧
      0 ≤ i ∧ i ≤ 61 ∧ i.toNat < table_s16.length ∧ i.toNat < table_u16.length ∧
      ∃ r, row = some r := by
  rcases h with h | h
  · obtain ⟨_, h1, h2, hi, hrow, _, _⟩ := visit_Div_magic_s16 fuel a b i row val h
    have hlen := table_lengths.1
    have hlen2 := table_lengths.2
    obtain ⟨r, hr⟩ := table_read_in_range table_s16 (const_divisor b - 2) (by omega) (by omega)
    exact ⟨by omega, by omega, hi, by omega, by omega, by omega, by omega, r, by rw [hrow, hr]⟩
  · obtain ⟨_, h1, h2, hi, hrow, _, _⟩ := visit_Div_magic_u16 fuel a b i row val h
    have hlen := table_lengths.1
    have hlen2 := table_lengths.2
    obtain ⟨r, hr⟩ := table_read_in_range table_u16 (const_divisor b - 2) (by omega) (by omega)
    exact ⟨by omega, by omega, hi, by omega, by omega, by omega, by omega, r, by rw [hrow, hr]⟩

theorem visit_Div_seven :
    visit_Div 32 (.Variable (Int_ 16 4) "x") (.Broadcast (.Cast (Int_ 16 1) (.IntImm 7)) 4)
      = some (.magic_s16 5 (some (0, 18725, 1)) (.Variable (Int_ 16 4) "x")) := by
  have hp : is_const_power_of_two 32 (.Broadcast (.Cast (Int_ 16 1) (.IntImm 7)) 4)
      = some none := by
    rw [is_const_power_of_two_innermost]
    refine is_const_power_of_two_imm_not_pow 0 7 (by norm_num) (fun k hk => ?_)
    have h3 : k < 3 := by
      by_contra hc
      have := two_pow_le_of_le (Nat.le_of_not_lt hc)
      omega
    interval_cases k <;> omega
  unfold visit_Div
  simp only [hp]
  rfl

theorem division_table_index_in_bounds_witness :
    visit_Div 32 (.Variable (Int_ 16 4) "x") (.Broadcast (.Cast (Int_ 16 1) (.IntImm 7)) 4)
      = some (.magic_s16 5 (some (0, 18725, 1)) (.Variable (Int_ 16 4) "x")) ∧
    (0 : Int) ≤ 5 ∧ (5 : Int) ≤ 61 :=
  ⟨visit_Div_seven,
   (division_table_index_in_bounds 32 _ _ 5 _ _ (Or.inl visit_Div_seven)).2.2.2.1,
   (division_table_index_in_bounds 32 _ _ 5 _ _ (Or.inl visit_Div_seven)).2.2.2.2.1⟩

/-- C7 as stated fails: the divisors `64` and `1` are out of the table range,
yet the handler lowers the `Int(16, 4)` division to an arithmetic shift, by six
and by zero, and does not delegate. -/
theorem out_of_range_divisor_counterexample :
    visit_Div 32 (.Variable (Int_ 16 4) "x") (.Broadcast (.Cast (Int_ 16 1) (.IntImm 64)) 4)
      = some (.ashr (.Variable (Int_ 16 4) "x") 6) ∧
    visit_Div 32 (.Variable (Int_ 16 4) "x") (.Broadcast (.Cast (Int_ 16 1) (.IntImm 64)) 4)
      ≠ some .generic ∧
    visit_Div 32 (.Variable (Int_ 16 4) "x") (.Broadcast (.Cast (Int_ 16 1) (.IntImm 1)) 4)
      = some (.ashr (.Variable (Int_ 16 4) "x") 0) := by
  have h64 : visit_Div 32 (.Variable (Int_ 16 4) "x")
      (.Broadcast (.Cast (Int_ 16 1) (.IntImm 64)) 4)
      = some (.ashr (.Variable (Int_ 16 4) "x") 6) := by
    obtain ⟨r, hr, hcase⟩ := visit_Div_power_of_two 0 (.Variable (Int_ 16 4) "x")
      (.Broadcast (.Cast (Int_ 16 1) (.IntImm 64)) 4) 6 (by omega) rfl (Or.inl rfl)
    rcases hcase with ⟨_, h⟩ | ⟨h, _⟩ | ⟨h, _⟩
    · rw [hr, h]; rfl
    · exact absurd h (by decide)
    · exact absurd h (by decide)
  have h1 : visit_Div 32 (.Variable (Int_ 16 4) "x")
      (.Broadcast (.Cast (Int_ 16 1) (.IntImm 1)) 4)
      = some (.ashr (.Variable (Int_ 16 4) "x") 0) := by
    obtain ⟨r, hr, hcase⟩ := visit_Div_power_of_two 0 (.Variable (Int_ 16 4) "x")
      (.Broadcast (.Cast (Int_ 16 1) (.IntImm 1)) 4) 0 (by omega) rfl (Or.inl rfl)
    rcases hcase with ⟨_, h⟩ | ⟨h, _⟩ | ⟨h, _⟩
    · rw [hr, h]; rfl
    · exact absurd h (by decide)
    · exact absurd h (by decide)
  refine ⟨h64, ?_, h1⟩
  rw [h64]
  simp

/-- C7 as amended: a division of type `Int(16, 4)` or `UInt(16, 8)` by a
broadcast immediate `d`, bare or under a cast, with `d ≤ 0`, or with
`64 ≤ d ≤ 2 ^ 30` and `d` no power of two, is delegated to the generic
lowering. -/
theorem out_of_range_divisor_generic (n : Nat) (a b : Expr) (d : Int) (lanes : Nat)
    (t : HalideType)
    (ht : a.type = Int_ 16 4 ∨ a.type = UInt_ 16 8)
    (hb : b = .Broadcast (.IntImm d) lanes ∨ b = .Broadcast (.Cast t (.IntImm d)) lanes)
    (hd : d ≤ 0 ∨ (64 ≤ d ∧ d ≤ 2 ^ 30 ∧ ∀ k : Nat, d ≠ 2 ^ k)) :
    visit_Div (n + 32) a b = some .generic := by
  have hd2 : d ≠ 2 := by
    rcases hd with hd | hd <;> omega
  rcases hb with hb | hb <;> subst hb
  · exact visit_Div_out_of_table n a _ d ht rfl rfl (by simp [is_two, hd2]) hd
  · exact visit_Div_out_of_table n a _ d ht rfl rfl (by simp [is_two, hd2]) hd

theorem out_of_range_divisor_generic_witness :
    visit_Div 32 (.Variable (Int_ 16 4) "x") (.Broadcast (.Cast (Int_ 16 1) (.IntImm 100)) 4)
      = some .generic :=
  out_of_range_divisor_generic 0 (.Variable (Int_ 16 4) "x")
    (.Broadcast (.Cast (Int_ 16 1) (.IntImm 100)) 4) 100 4 (Int_ 16 1) (Or.inl rfl) (Or.inr rfl)
    (Or.inr ⟨by norm_num, by norm_num, not_pow_of_between 100 6 (by norm_num) (by norm_num)⟩)

/-- C8: whenever the handler consults `table_s16` or `table_u16`, the constant
divisor is no power of two; and every integer-typed division whose divisor
strips to an immediate `2 ^ k` (an `int`, so `k ≤ 30`) is taken by an earlier
branch: the arithmetic shift for a signed type, the logical shift for an
unsigned type, or the averaging branch. -/
theorem table_divisor_not_power_of_two :
    (∀ (fuel : Nat) (a b : Expr) (i : Int) (row : Option (Int × Int × Int)) (val : Expr),
      (visit_Div fuel a b = some (.magic_s16 i row val) ∨
       visit_Div fuel a b = some (.magic_u16 i row val)) →
      ∀ k : Nat, const_divisor b ≠ 2 ^ k) ∧
    (∀ (n : Nat) (a b : Expr) (k : Nat), k ≤ 30 → innermost b = .IntImm (2 ^ k) →
      (a.type.is_int = true ∨ a.type.is_uint = true) →
      ∃ r, visit_Div (n + 32) a b = some r ∧
        (r = .ashr a (k : Int) ∨ r = .lshr a (k : Int) ∨
         ((is_two b && (a.is_Add || a.is_Sub)) = true ∧
            averaging_loop (.Div a b) visit_Div_averagings 0 = some r))) := by
  constructor
  · intro fuel a b i row val h
    have key : 1 < const_divisor b ∧ is_const_power_of_two fuel b = some none := by
      rcases h with h | h
      · obtain ⟨_, h1, _, _, _, _, hp⟩ := visit_Div_magic_s16 fuel a b i row val h
        exact ⟨h1, hp⟩
      · obtain ⟨_, h1, _, _, _, _, hp⟩ := visit_Div_magic_u16 fuel a b i row val h
        exact ⟨h1, hp⟩
    obtain ⟨h1, hp⟩ := key
    rw [is_const_power_of_two_innermost, const_divisor_shape b (by omega)] at hp
    exact (is_const_power_of_two_imm_answer fuel _ _ hp).2 rfl
  · intro n a b k hk hb ht
    obtain ⟨r, hr, hcase⟩ := visit_Div_power_of_two n a b k hk hb ht
    refine ⟨r, hr, ?_⟩
    rcases hcase with ⟨_, h⟩ | ⟨_, h⟩ | h
    · exact Or.inl h
    · exact Or.inr (Or.inl h)
    · exact Or.inr (Or.inr h)

theorem table_divisor_not_power_of_two_witness :
    visit_Div 32 (.Variable (Int_ 16 4) "x") (.Broadcast (.Cast (Int_ 16 1) (.IntImm 7)) 4)
      = some (.magic_s16 5 (some (0, 18725, 1)) (.Variable (Int_ 16 4) "x")) ∧
    const_divisor (.Broadcast (.Cast (Int_ 16 1) (.IntImm 7)) 4) ≠ 2 ^ 2 :=
  ⟨visit_Div_seven,
   table_divisor_not_power_of_two.1 32 _ _ 5 _ _ (Or.inl visit_Div_seven) 2⟩

/-! ## The rule search of the `Cast` handler -/

/-- Rows whose pattern does not match are passed over. -/
theorem visit_Cast_loop_skip (fuel : Nat) (op : Expr) :
    ∀ (pre rest : List visit_Cast_Pattern) (i : Nat),
      (pre.all fun p => (expr_match p.pattern op).isNone) = true →
      visit_Cast_loop fuel op (pre ++ rest) i = visit_Cast_loop fuel op rest (i + pre.length) := by
  intro pre
  induction pre with
  | nil => intro rest i _; simp
  | cons p pre ih =>
    intro rest i h
    simp only [List.all_cons, Bool.and_eq_true] at h
    obtain ⟨hp, hrest⟩ := h
    have hnone : expr_match p.pattern op = none := by
      cases hm : expr_match p.pattern op with
      | none => rfl
      | some ms => rw [hm] at hp; simp at hp
    rw [List.cons_append, visit_Cast_loop, hnone]
    simp only []
    rw [ih rest (i + 1) hrest, List.length_cons]
    congr 1
    omega

/-- A selected row matches the node, and every unconditional row before it
does not. -/
theorem visit_Cast_loop_selected (fuel : Nat) (op : Expr) :
    ∀ (ps : List visit_Cast_Pattern) (i : Nat) (r : CastLowering) (j : Nat),
      visit_Cast_loop fuel op ps i = some r → r.rule = some j →
      i ≤ j ∧
      (∃ p ms, ps.get? (j - i) = some p ∧ expr_match p.pattern op = some ms) ∧
      (∀ m q, m < j - i → ps.get? m = some q → q.shift = false →
        expr_match q.pattern op = none) := by
  intro ps
  induction ps with
  | nil =>
    intro i r j h hr
    simp only [visit_Cast_loop, Option.some.injEq] at h
    subst h
    simp [CastLowering.rule] at hr
  | cons p rest ih =>
    intro i r j h hr
    have tail : visit_Cast_loop fuel op rest (i + 1) = some r →
        (expr_match p.pattern op = none ∨ p.shift = true) →
        i ≤ j ∧
        (∃ p' ms, (p :: rest).get? (j - i) = some p' ∧ expr_match p'.pattern op = some ms) ∧
        (∀ m q, m < j - i → (p :: rest).get? m = some q → q.shift = false →
          expr_match q.pattern op = none) := by
      intro h' hp
      obtain ⟨h1, ⟨p', ms, h2, h3⟩, h4⟩ := ih (i + 1) r j h' hr
      have hji : j - i = (j - (i + 1)) + 1 := by omega
      refine ⟨by omega, ⟨p', ms, ?_, h3⟩, ?_⟩
      · rw [hji, List.get?_cons_succ]
        exact h2
      · intro m q hm hq hs
        cases m with
        | zero =>
          simp only [List.get?_cons_zero, Option.some.injEq] at hq
          subst hq
          rcases hp with hp | hp
          · exact hp
          · rw [hp] at hs
            exact absurd hs (by decide)
        | succ m' =>
          rw [List.get?_cons_succ] at hq
          exact h4 m' q (by omega) hq hs
    rw [visit_Cast_loop] at h
    cases hm : expr_match p.pattern op with
    | none =>
      rw [hm] at h
      exact tail h (Or.inl hm)
    | some matched =>
      rw [hm] at h
      simp only [] at h
      have here : r.rule = some i →
          i ≤ j ∧
          (∃ p' ms, (p :: rest).get? (j - i) = some p' ∧
            expr_match p'.pattern op = some ms) ∧
          (∀ m q, m < j - i → (p :: rest).get? m = some q → q.shift = false →
            expr_match q.pattern op = none) := by
        intro hri
        have hij : i = j := by
          rw [hr] at hri
          exact (Option.some.inj hri).symm
        subst hij
        refine ⟨le_refl _, ⟨p, matched, by simp, hm⟩, ?_⟩
        intro m q hlt
        omega
      by_cases hs : p.shift = true
      · rw [if_pos hs] at h
        split at h
        · split at h
          · simp at h
          · split_ifs at h with hlt
            · simp only [Option.some.injEq] at h
              subst h
              exact here rfl
            · exact tail h (Or.inr hs)
          · exact tail h (Or.inr hs)
        · simp only [Option.some.injEq] at h
          subst h
          simp [CastLowering.rule] at hr
      · rw [if_neg hs] at h
        simp only [Option.some.injEq] at h
        subst h
        exact here rfl

/-! ## First match wins -/

theorem innermost_not_wrapped :
    ∀ e : Expr, (∀ v w, innermost e ≠ .Broadcast v w) ∧ (∀ t v, innermost e ≠ .Cast t v)
  | .Broadcast value _ => by simpa [innermost] using innermost_not_wrapped value
  | .Cast _ value => by simpa [innermost] using innermost_not_wrapped value
  | .IntImm _ => by simp [innermost]
  | .FloatImm _ => by simp [innermost]
  | .Variable _ _ => by simp [innermost]
  | .Add _ _ => by simp [innermost]
  | .Sub _ _ => by simp [innermost]
  | .Mul _ _ => by simp [innermost]
  | .Div _ _ => by simp [innermost]
  | .Min _ _ => by simp [innermost]
  | .Max _ _ => by simp [innermost]
  | .LT _ _ => by simp [innermost]
  | .LE _ _ => by simp [innermost]
  | .Select _ _ _ => by simp [innermost]
  | .Load _ _ _ => by simp [innermost]
  | .Ramp _ _ _ => by simp [innermost]
  | .Call _ _ _ => by simp [innermost]

/-- What an answer of `is_const_power_of_two` means on any expression: `true`
with `*bits = k` only when the expression strips to the immediate `2 ^ k`, and
`false` only when it strips to no such immediate. -/
theorem is_const_power_of_two_answer (fuel : Nat) (e : Expr) (r : Option Int)
    (h : is_const_power_of_two fuel e = some r) :
    (∀ bits, r = some bits →
      ∃ k : Nat, k ≤ 30 ∧ bits = (k : Int) ∧ innermost e = .IntImm (2 ^ k)) ∧
    (r = none → ∀ k : Nat, innermost e ≠ .IntImm (2 ^ k)) := by
  rw [is_const_power_of_two_innermost] at h
  obtain ⟨hb, hc⟩ := innermost_not_wrapped e
  cases hi : innermost e with
  | IntImm v =>
    rw [hi] at h
    obtain ⟨h1, h2⟩ := is_const_power_of_two_imm_answer fuel v r h
    refine ⟨fun bits hbits => ?_, fun hn k hk => ?_⟩
    · obtain ⟨k, hk1, hk2, hk3⟩ := h1 bits hbits
      exact ⟨k, hk1, hk2, by rw [hk3]⟩
    · exact h2 hn k (Expr.IntImm.inj hk)
  | Broadcast v w => exact absurd hi (hb v w)
  | Cast t v => exact absurd hi (hc t v)
  | _ =>
    rw [hi] at h
    simp only [is_const_power_of_two, Option.some.injEq] at h
    subst h
    exact ⟨fun bits hbits => by simp at hbits, fun _ k hk => by simp at hk⟩

/-- Whenever the rule search returns, it returns the first row that qualifies,
or the generic lowering when no row qualifies; a shift row that matches and
fails its side condition is passed over. -/
theorem visit_Cast_loop_first_match (fuel : Nat) (op : Expr) :
    ∀ (ps : List visit_Cast_Pattern) (i : Nat) (r : CastLowering),
      visit_Cast_loop fuel op ps i = some r → r ≠ .bad_read →
      (r = .generic ∧ ∀ pat ∈ ps, ¬ qualifies pat op) ∨
      (∃ j pat, ps.get? j = some pat ∧ r.rule = some (i + j) ∧ qualifies pat op ∧
        ∀ m q, m < j → ps.get? m = some q → ¬ qualifies q op) := by
  intro ps
  induction ps with
  | nil =>
    intro i r h _
    simp only [visit_Cast_loop, Option.some.injEq] at h
    exact Or.inl ⟨h.symm, fun pat hpat => by simp at hpat⟩
  | cons p rest ih =>
    intro i r h hbad
    -- the row at the head is passed over: the answer comes from the rest
    have tail : ¬ qualifies p op → visit_Cast_loop fuel op rest (i + 1) = some r →
        (r = .generic ∧ ∀ pat ∈ p :: rest, ¬ qualifies pat op) ∨
        (∃ j pat, (p :: rest).get? j = some pat ∧ r.rule = some (i + j) ∧ qualifies pat op ∧
          ∀ m q, m < j → (p :: rest).get? m = some q → ¬ qualifies q op) := by
      intro hnq h'
      rcases ih (i + 1) r h' hbad with ⟨hg, hall⟩ | ⟨j, pat, hj, hr, hq, hbefore⟩
      · refine Or.inl ⟨hg, fun pat hpat => ?_⟩
        rcases List.mem_cons.mp hpat with rfl | hmem
        · exact hnq
        · exact hall pat hmem
      · refine Or.inr ⟨j + 1, pat, by simpa using hj, by rw [hr]; congr 1; omega, hq, ?_⟩
        intro m q hm hq'
        cases m with
        | zero =>
          simp only [List.get?_cons_zero, Option.some.injEq] at hq'
          subst hq'
          exact hnq
        | succ m' =>
          rw [List.get?_cons_succ] at hq'
          exact hbefore m' q (by omega) hq'
    -- the row at the head is selected
    have here : r.rule = some i → qualifies p op →
        (r = .generic ∧ ∀ pat ∈ p :: rest, ¬ qualifies pat op) ∨
        (∃ j pat, (p :: rest).get? j = some pat ∧ r.rule = some (i + j) ∧ qualifies pat op ∧
          ∀ m q, m < j → (p :: rest).get? m = some q → ¬ qualifies q op) := by
      intro hr hq
      exact Or.inr ⟨0, p, rfl, hr, hq, fun m q hm => absurd hm (by omega)⟩
    rw [visit_Cast_loop] at h
    cases hm : expr_match p.pattern op with
    | none =>
      rw [hm] at h
      refine tail ?_ h
      rintro ⟨matched, hmatched, _⟩
      rw [hm] at hmatched
      simp at hmatched
    | some matched =>
      rw [hm] at h
      simp only [] at h
      by_cases hs : p.shift = true
      · rw [if_pos hs] at h
        have hsf : ¬ p.shift = false := by rw [hs]; decide
        split at h
        · next m0 divisor tl =>
          split at h
          · simp at h
          · next shift_amount hp =>
            obtain ⟨h1, _⟩ := is_const_power_of_two_answer fuel divisor _ hp
            obtain ⟨k, _, hk2, hk3⟩ := h1 shift_amount rfl
            split_ifs at h with hlt
            · simp only [Option.some.injEq] at h
              subst h
              refine here rfl ⟨_, hm, Or.inr ⟨m0, divisor, tl, k, rfl, hk3, ?_⟩⟩
              rw [hk2] at hlt
              exact_mod_cast hlt
            · refine tail ?_ h
              rintro ⟨matched', hmatched, hside⟩
              rw [hm] at hmatched
              obtain rfl := Option.some.inj hmatched
              rcases hside with hside | ⟨m0', d', tl', k', heq, hk', hlt'⟩
              · exact hsf hside
              · simp only [List.cons.injEq] at heq
                obtain ⟨rfl, rfl, _⟩ := heq
                rw [hk3] at hk'
                have hkk : k = k' := two_pow_inj (Expr.IntImm.inj hk')
                subst hkk
                apply hlt
                rw [hk2]
                exact_mod_cast hlt'
          · next hp =>
            obtain ⟨_, h2⟩ := is_const_power_of_two_answer fuel divisor _ hp
            refine tail ?_ h
            rintro ⟨matched', hmatched, hside⟩
            rw [hm] at hmatched
            obtain rfl := Option.some.inj hmatched
            rcases hside with hside | ⟨m0', d', tl', k', heq, hk', _⟩
            · exact hsf hside
            · simp only [List.cons.injEq] at heq
              obtain ⟨rfl, rfl, _⟩ := heq
              exact h2 rfl k' hk'
        · simp only [Option.some.injEq] at h
          exact absurd h.symm hbad
      · rw [if_neg hs] at h
        simp only [Option.some.injEq] at h
        subst h
        exact here rfl ⟨_, hm, Or.inl (by simpa using hs)⟩

/-! ## Inversion of the pattern matcher -/

theorem expr_match_acc_wild (t : HalideType) (e : Expr) (ms r : List Expr) :
    expr_match_acc (.Variable t "*") e ms = some r ↔ t = e.type ∧ r = ms ++ [e] := by
  simp only [expr_match_acc, if_true]
  split_ifs with h
  · simp [h, eq_comm]
  · simp [h]

theorem expr_match_acc_IntImm (v : Int) (e : Expr) (ms r : List Expr) :
    expr_match_acc (.IntImm v) e ms = some r ↔ e = .IntImm v ∧ r = ms := by
  cases e <;> simp [expr_match_acc, eq_comm]

theorem expr_match_acc_Cast (t : HalideType) (p e : Expr) (ms r : List Expr) :
    expr_match_acc (.Cast t p) e ms = some r ↔
      ∃ x, e = .Cast t x ∧ expr_match_acc p x ms = some r := by
  cases e <;> simp [expr_match_acc, eq_comm]
  constructor
  · rintro ⟨h1, h2⟩
    exact ⟨_, ⟨h1, rfl⟩, h2⟩
  · rintro ⟨x, ⟨h1, rfl⟩, h2⟩
    exact ⟨h1, h2⟩

theorem expr_match_acc_Broadcast (w : Nat) (p e : Expr) (ms r : List Expr) :
    expr_match_acc (.Broadcast p w) e ms = some r ↔
      ∃ x, e = .Broadcast x w ∧ expr_match_acc p x ms = some r := by
  cases e <;> simp [expr_match_acc, eq_comm]
  constructor
  · rintro ⟨h1, h2⟩
    exact ⟨_, ⟨rfl, h1⟩, h2⟩
  · rintro ⟨x, ⟨rfl, h1⟩, h2⟩
    exact ⟨h1, h2⟩

theorem expr_match_acc_Max (pa pb e : Expr) (ms r : List Expr) :
    expr_match_acc (.Max pa pb) e ms = some r ↔
      ∃ a b m1, e = .Max a b ∧ expr_match_acc pa a ms = some m1 ∧
        expr_match_acc pb b m1 = some r := by
  cases e <;> simp [expr_match_acc, Option.bind_eq_some]
  constructor
  · rintro ⟨m, h1, h2⟩
    exact ⟨_, _, ⟨rfl, rfl⟩, m, h1, h2⟩
  · rintro ⟨a, b, ⟨rfl, rfl⟩, m, h1, h2⟩
    exact ⟨m, h1, h2⟩

theorem expr_match_acc_Min (pa pb e : Expr) (ms r : List Expr) :
    expr_match_acc (.Min pa pb) e ms = some r ↔
      ∃ a b m1, e = .Min a b ∧ expr_match_acc pa a ms = some m1 ∧
        expr_match_acc pb b m1 = some r := by
  cases e <;> simp [expr_match_acc, Option.bind_eq_some]
  constructor
  · rintro ⟨m, h1, h2⟩
    exact ⟨_, _, ⟨rfl, rfl⟩, m, h1, h2⟩
  · rintro ⟨a, b, ⟨rfl, rfl⟩, m, h1, h2⟩
    exact ⟨m, h1, h2⟩

theorem expr_match_acc_Div (pa pb e : Expr) (ms r : List Expr) :
    expr_match_acc (.Div pa pb) e ms = some r ↔
      ∃ a b m1, e = .Div a b ∧ expr_match_acc pa a ms = some m1 ∧
        expr_match_acc pb b m1 = some r := by
  cases e <;> simp [expr_match_acc, Option.bind_eq_some]
  constructor
  · rintro ⟨m, h1, h2⟩
    exact ⟨_, _, ⟨rfl, rfl⟩, m, h1, h2⟩
  · rintro ⟨a, b, ⟨rfl, rfl⟩, m, h1, h2⟩
    exact ⟨m, h1, h2⟩

/-- A constant pattern `Broadcast(Cast(t, IntImm v), w)` leaves the matches
untouched and matches independently of them. -/
theorem const_pattern_cast (t : HalideType) (v : Int) (w : Nat) (e : Expr) (ms r : List Expr)
    (h : expr_match_acc (.Broadcast (.Cast t (.IntImm v)) w) e ms = some r) :
    r = ms ∧ ∀ ms', expr_match_acc (.Broadcast (.Cast t (.IntImm v)) w) e ms' = some ms' := by
  simp only [expr_match_acc_Broadcast, expr_match_acc_Cast, expr_match_acc_IntImm] at h
  obtain ⟨x, rfl, y, rfl, rfl, rfl⟩ := h
  refine ⟨rfl, fun ms' => ?_⟩
  simp [expr_match_acc]

/-- A constant pattern `Broadcast(IntImm v, w)` leaves the matches untouched
and matches independently of them. -/
theorem const_pattern_imm (v : Int) (w : Nat) (e : Expr) (ms r : List Expr)
    (h : expr_match_acc (.Broadcast (.IntImm v) w) e ms = some r) :
    r = ms ∧ ∀ ms', expr_match_acc (.Broadcast (.IntImm v) w) e ms' = some ms' := by
  simp only [expr_match_acc_Broadcast, expr_match_acc_IntImm] at h
  obtain ⟨x, rfl, rfl, rfl⟩ := h
  refine ⟨rfl, fun ms' => ?_⟩
  simp [expr_match_acc]

/-- Whatever the clamped quotient pattern `cast(tc, max(min(* / *, c1), c2))`
matches, the clamped wildcard `cast(tc, max(min(*, c1), c2))` matches too. -/
theorem shadow_clamp (tc tw : HalideType) (c1 c2 op : Expr) (ms : List Expr)
    (h1 : ∀ e ms r, expr_match_acc c1 e ms = some r →
      r = ms ∧ ∀ ms', expr_match_acc c1 e ms' = some ms')
    (h2 : ∀ e ms r, expr_match_acc c2 e ms = some r →
      r = ms ∧ ∀ ms', expr_match_acc c2 e ms' = some ms')
    (h : expr_match (.Cast tc (.Max (.Min (.Div (.Variable tw "*") (.Variable tw "*")) c1) c2)) op
      = some ms) :
    ∃ ms', expr_match (.Cast tc (.Max (.Min (.Variable tw "*") c1) c2)) op = some ms' := by
  simp only [expr_match, expr_match_acc_Cast, expr_match_acc_Max, expr_match_acc_Min,
    expr_match_acc_Div, expr_match_acc_wild] at h ⊢
  obtain ⟨x, rfl, a, b, m1, rfl, ⟨a1, b1, m2, rfl, ⟨a2, b2, m3, rfl, ⟨ht, rfl⟩, _, rfl⟩, hc1⟩,
    hc2⟩ := h
  exact ⟨_, _, rfl, _, _, _, rfl, ⟨_, _, _, rfl, ⟨ht, rfl⟩, (h1 _ _ _ hc1).2 _⟩,
    (h2 _ _ _ hc2).2 _⟩

/-- Whatever the bounded quotient pattern `cast(tc, min(* / *, c1))` matches,
the bounded wildcard `cast(tc, min(*, c1))` matches too. -/
theorem shadow_min (tc tw : HalideType) (c1 op : Expr) (ms : List Expr)
    (h1 : ∀ e ms r, expr_match_acc c1 e ms = some r →
      r = ms ∧ ∀ ms', expr_match_acc c1 e ms' = some ms')
    (h : expr_match (.Cast tc (.Min (.Div (.Variable tw "*") (.Variable tw "*")) c1)) op
      = some ms) :
    ∃ ms', expr_match (.Cast tc (.Min (.Variable tw "*") c1)) op = some ms' := by
  simp only [expr_match, expr_match_acc_Cast, expr_match_acc_Min,
    expr_match_acc_Div, expr_match_acc_wild] at h ⊢
  obtain ⟨x, rfl, a1, b1, m2, rfl, ⟨a2, b2, m3, rfl, ⟨ht, rfl⟩, _, rfl⟩, hc1⟩ := h
  exact ⟨_, _, rfl, _, _, _, rfl, ⟨ht, rfl⟩, (h1 _ _ _ hc1).2 _⟩

/-- A row is never selected when an earlier unconditional row matches every
node that the row's own pattern matches. -/
theorem shadowed_rule_never_selected (fuel : Nat) (op : Expr) (r : CastLowering) (i j : Nat)
    (pi pj : visit_Cast_Pattern)
    (hi : visit_Cast_patterns.get? i = some pi) (hj : visit_Cast_patterns.get? j = some pj)
    (hij : i < j) (hshift : pi.shift = false)
    (hshadow : ∀ ms, expr_match pj.pattern op = some ms →
      ∃ ms', expr_match pi.pattern op = some ms')
    (h : visit_Cast_loop fuel op visit_Cast_patterns 0 = some r) :
    r.rule ≠ some j := by
  intro hr
  obtain ⟨_, ⟨p, ms, hp, hm⟩, hall⟩ := visit_Cast_loop_selected fuel op _ 0 r j h hr
  rw [Nat.sub_zero, hj] at hp
  obtain rfl := Option.some.inj hp
  obtain ⟨ms', hms'⟩ := hshadow ms hm
  have := hall i pi (by omega) hi hshift
  rw [this] at hms'
  simp at hms'

/-! ## The claims on the `Cast` handler -/

/-- C9 (fails on the code): on `cast<int8x8>(x / 1073741825)` the shift row
`vshiftn.v8i8` matches, its side condition fails as stated (the immediate is no
power of two), and no row qualifies, yet the handler does not delegate: the
side-condition check never returns.  And on `cast<int8x8>(x / cast<int16>(32768))`
the same row is selected with shift `-15` although the divisor has the value
`-32768`. -/
theorem cast_rule_search_defect :
    (∀ fuel, visit_Cast fuel (Int_ 8 8) (.Div (.Variable (Int_ 16 8) "x")
        (.Broadcast (.Cast (Int_ 16 1) (.IntImm 1073741825)) 8)) = none) ∧
    (∀ k : Nat, (1073741825 : Int) ≠ 2 ^ k) ∧
    (∀ n, visit_Cast (n + 32) (Int_ 8 8) (.Div (.Variable (Int_ 16 8) "x")
        (.Broadcast (.Cast (Int_ 16 1) (.IntImm 32768)) 8))
      = some (.call_shift 66 (Int_ 8 8) "vshiftn.v8i8" (.Variable (Int_ 16 8) "x") (-15))) ∧
    toSigned 16 (ofInt 16 32768) = -32768 := by
  have hsplit : visit_Cast_patterns
      = visit_Cast_patterns.take 66 ++ visit_Cast_patterns.drop 66 :=
    (List.take_append_drop 66 _).symm
  have hdrop : visit_Cast_patterns.drop 66
      = visit_Cast_Pattern.mk "vshiftn.v8i8" (_i8 (.Div wild_i16x8 wild_i16x8)) true
        :: visit_Cast_patterns.drop 67 := rfl
  refine ⟨fun fuel => ?_, not_pow_of_between _ 30 (by norm_num) (by norm_num), fun n => ?_,
    by decide⟩
  · unfold visit_Cast
    rw [hsplit, visit_Cast_loop_skip _ _ _ _ _ (by decide), hdrop, visit_Cast_loop]
    have hm : expr_match (_i8 (.Div wild_i16x8 wild_i16x8))
        (.Cast (Int_ 8 8) (.Div (.Variable (Int_ 16 8) "x")
          (.Broadcast (.Cast (Int_ 16 1) (.IntImm 1073741825)) 8)))
        = some [.Variable (Int_ 16 8) "x",
            .Broadcast (.Cast (Int_ 16 1) (.IntImm 1073741825)) 8] := rfl
    have hp : is_const_power_of_two fuel
        (.Broadcast (.Cast (Int_ 16 1) (.IntImm 1073741825)) 8) = none := by
      rw [is_const_power_of_two_innermost]
      exact is_const_power_of_two_imm_diverges fuel _ (by norm_num)
    simp only [hm, if_true, hp]
  · unfold visit_Cast
    rw [hsplit, visit_Cast_loop_skip _ _ _ _ _ (by decide), hdrop, visit_Cast_loop]
    have hm : expr_match (_i8 (.Div wild_i16x8 wild_i16x8))
        (.Cast (Int_ 8 8) (.Div (.Variable (Int_ 16 8) "x")
          (.Broadcast (.Cast (Int_ 16 1) (.IntImm 32768)) 8)))
        = some [.Variable (Int_ 16 8) "x",
            .Broadcast (.Cast (Int_ 16 1) (.IntImm 32768)) 8] := rfl
    have hp : is_const_power_of_two (n + 32)
        (.Broadcast (.Cast (Int_ 16 1) (.IntImm 32768)) 8) = some (some 15) := by
      rw [is_const_power_of_two_innermost]
      exact is_const_power_of_two_imm_pow n 15 (by omega)
    simp only [hm, if_true, hp]
    rfl

/-- C10 (fails on the code): the six saturating narrowing-shift rows
`vqshiftn*` (rows 72-77) come after the unconditional saturating-narrow rows
`vqmovn*` (rows 60-65), whose patterns match every node theirs match, so none of
the six is ever selected.  On `cast<int8x8>(clamp(x / 4, -128, 127))` row 72
matches and its side condition holds, and the handler selects row 60. -/
theorem cast_shadowed_rule_defect :
    (∀ fuel, visit_Cast fuel (Int_ 8 8)
        (clamp (.Div (.Variable (Int_ 16 8) "x")
          (.Broadcast (.Cast (Int_ 16 1) (.IntImm 4)) 8)) (-128) 127)
      = some (.call_intrin 60 (Int_ 8 8) "vqmovns.v8i8"
          [.Div (.Variable (Int_ 16 8) "x") (.Broadcast (.Cast (Int_ 16 1) (.IntImm 4)) 8)])) ∧
    visit_Cast_patterns.get? 72
      = some (visit_Cast_Pattern.mk "vqshiftns.v8i8" (_i8q (.Div wild_i16x8 wild_i16x8)) true) ∧
    expr_match (_i8q (.Div wild_i16x8 wild_i16x8))
        (.Cast (Int_ 8 8) (clamp (.Div (.Variable (Int_ 16 8) "x")
          (.Broadcast (.Cast (Int_ 16 1) (.IntImm 4)) 8)) (-128) 127))
      = some [.Variable (Int_ 16 8) "x", .Broadcast (.Cast (Int_ 16 1) (.IntImm 4)) 8] ∧
    is_const_power_of_two 32 (.Broadcast (.Cast (Int_ 16 1) (.IntImm 4)) 8) = some (some 2) ∧
    (∀ (fuel : Nat) (type : HalideType) (value : Expr) (r : CastLowering),
      visit_Cast fuel type value = some r →
      r.rule ≠ some 72 ∧ r.rule ≠ some 73 ∧ r.rule ≠ some 74 ∧ r.rule ≠ some 75 ∧
        r.rule ≠ some 76 ∧ r.rule ≠ some 77) := by
  refine ⟨fun fuel => ?_, rfl, rfl, ?_, fun fuel type value r h => ?_⟩
  · have hsplit : visit_Cast_patterns
        = visit_Cast_patterns.take 60 ++ visit_Cast_patterns.drop 60 :=
      (List.take_append_drop 60 _).symm
    have hdrop : visit_Cast_patterns.drop 60
        = visit_Cast_Pattern.mk "vqmovns.v8i8" (_i8q wild_i16x8) false
          :: visit_Cast_patterns.drop 61 := rfl
    unfold visit_Cast
    rw [hsplit, visit_Cast_loop_skip _ _ _ _ _ (by decide), hdrop, visit_Cast_loop]
    rfl
  · rw [is_const_power_of_two_innermost]
    exact is_const_power_of_two_imm_pow 0 2 (by omega)
  · unfold visit_Cast at h
    refine ⟨?_, ?_, ?_, ?_, ?_, ?_⟩
    · exact shadowed_rule_never_selected fuel _ r 60 72 _ _
        (rfl : visit_Cast_patterns.get? 60 = some (.mk "vqmovns.v8i8" (_i8q wild_i16x8) false))
        (rfl : visit_Cast_patterns.get? 72
          = some (.mk "vqshiftns.v8i8" (_i8q (.Div wild_i16x8 wild_i16x8)) true))
        (by omega) rfl
        (fun ms hm => shadow_clamp (Int_ 8 8) (Int_ 16 8) _ _ _ ms
          (const_pattern_cast _ 127 8) (const_pattern_cast _ (-128) 8) hm) h
    · exact shadowed_rule_never_selected fuel _ r 61 73 _ _
        (rfl : visit_Cast_patterns.get? 61 = some (.mk "vqmovns.v4i16" (_i16q wild_i32x4) false))
        (rfl : visit_Cast_patterns.get? 73
          = some (.mk "vqshiftns.v4i16" (_i16q (.Div wild_i32x4 wild_i32x4)) true))
        (by omega) rfl
        (fun ms hm => shadow_clamp (Int_ 16 4) (Int_ 32 4) _ _ _ ms
          (const_pattern_imm 32767 4) (const_pattern_imm (-32768) 4) hm) h
    · exact shadowed_rule_never_selected fuel _ r 62 74 _ _
        (rfl : visit_Cast_patterns.get? 62 = some (.mk "vqmovnu.v8i8" (_u8q wild_u16x8) false))
        (rfl : visit_Cast_patterns.get? 74
          = some (.mk "vqshiftnu.v8i8" (_u8q (.Div wild_u16x8 wild_u16x8)) true))
        (by omega) rfl
        (fun ms hm => shadow_min (UInt_ 8 8) (UInt_ 16 8) _ _ ms
          (const_pattern_cast _ 255 8) hm) h
    · exact shadowed_rule_never_selected fuel _ r 63 75 _ _
        (rfl : visit_Cast_patterns.get? 63 = some (.mk "vqmovnu.v4i16" (_u16q wild_u32x4) false))
        (rfl : visit_Cast_patterns.get? 75
          = some (.mk "vqshiftnu.v4i16" (_u16q (.Div wild_u32x4 wild_u32x4)) true))
        (by omega) rfl
        (fun ms hm => shadow_min (UInt_ 16 4) (UInt_ 32 4) _ _ ms
          (const_pattern_cast _ 65535 4) hm) h
    · exact shadowed_rule_never_selected fuel _ r 64 76 _ _
        (rfl : visit_Cast_patterns.get? 64 = some (.mk "vqmovnsu.v8i8" (_u8q wild_i16x8) false))
        (rfl : visit_Cast_patterns.get? 76
          = some (.mk "vqshiftnsu.v8i8" (_u8q (.Div wild_i16x8 wild_i16x8)) true))
        (by omega) rfl
        (fun ms hm => shadow_clamp (UInt_ 8 8) (Int_ 16 8) _ _ _ ms
          (const_pattern_cast _ 255 8) (const_pattern_cast _ 0 8) hm) h
    · exact shadowed_rule_never_selected fuel _ r 65 77 _ _
        (rfl : visit_Cast_patterns.get? 65 = some (.mk "vqmovnsu.v4i16" (_u16q wild_i32x4) false))
        (rfl : visit_Cast_patterns.get? 77
          = some (.mk "vqshiftnsu.v4i16" (_u16q (.Div wild_i32x4 wild_i32x4)) true))
        (by omega) rfl
        (fun ms hm => shadow_clamp (UInt_ 16 4) (Int_ 32 4) _ _ _ ms
          (const_pattern_imm 65535 4) (const_pattern_imm 0 4) hm) h

/-! ## Bit patterns and their integer readings, at any width -/

theorem ofInt_lt (w : Nat) (i : Int) : ofInt w i < 2 ^ w := by
  unfold ofInt
  have h1 : 0 ≤ i % (2 : Int) ^ w := Int.emod_nonneg _ (by positivity)
  have h2 : i % (2 : Int) ^ w < 2 ^ w := Int.emod_lt_of_pos _ (by positivity)
  have h3 : ((i % (2 : Int) ^ w).toNat : Int) < ((2 ^ w : Nat) : Int) := by
    rw [Int.toNat_of_nonneg h1]
    push_cast
    exact h2
  exact_mod_cast h3

theorem ofInt_cast (w : Nat) (i : Int) : ((ofInt w i : Nat) : Int) = i % 2 ^ w := by
  unfold ofInt
  exact Int.toNat_of_nonneg (Int.emod_nonneg _ (by positivity))

theorem ofInt_of_range (w : Nat) (i : Int) (h0 : 0 ≤ i) (h1 : i < 2 ^ w) :
    ofInt w i = i.toNat := by
  unfold ofInt
  rw [Int.emod_eq_of_lt h0 h1]

theorem ofInt_natCast (w x : Nat) (h : x < 2 ^ w) : ofInt w (x : Int) = x := by
  rw [ofInt_of_range w x (by positivity) (by exact_mod_cast h)]
  simp

theorem ofInt_congr (w : Nat) (i j : Int) (h : i % 2 ^ w = j % 2 ^ w) : ofInt w i = ofInt w j := by
  unfold ofInt
  rw [h]

theorem toSigned_emod (w x : Nat) : toSigned w x % 2 ^ w = (x : Int) % 2 ^ w := by
  unfold toSigned
  split
  · rfl
  · exact Int.emod_sub_cancel _ _

theorem two_pow_pred (w : Nat) (hw : 0 < w) : (2 : Int) ^ w = 2 * 2 ^ (w - 1) := by
  obtain ⟨k, rfl⟩ : ∃ k, w = k + 1 := ⟨w - 1, by omega⟩
  rw [pow_succ]
  simp [mul_comm]

theorem toSigned_range (w x : Nat) (hw : 0 < w) (hx : x < 2 ^ w) :
    -(2 : Int) ^ (w - 1) ≤ toSigned w x ∧ toSigned w x < 2 ^ (w - 1) := by
  have hp := two_pow_pred w hw
  have hx' : (x : Int) < 2 ^ w := by exact_mod_cast hx
  unfold toSigned
  split
  · next h =>
    have h' : (x : Int) < 2 ^ (w - 1) := by exact_mod_cast h
    have : (0 : Int) < 2 ^ (w - 1) := by positivity
    constructor <;> omega
  · next h =>
    have h' : (2 : Int) ^ (w - 1) ≤ x := by
      have := Nat.le_of_not_lt h
      exact_mod_cast this
    constructor <;> omega

theorem toSigned_ofInt (w : Nat) (i : Int) (hw : 0 < w)
    (h1 : -(2 : Int) ^ (w - 1) ≤ i) (h2 : i < 2 ^ (w - 1)) : toSigned w (ofInt w i) = i := by
  have hp := two_pow_pred w hw
  have hpos : (0 : Int) < 2 ^ (w - 1) := by positivity
  have hc := ofInt_cast w i
  have hlt : (ofInt w i < 2 ^ (w - 1)) ↔ ((ofInt w i : Nat) : Int) < 2 ^ (w - 1) := by
    constructor
    · intro h; exact_mod_cast h
    · intro h; exact_mod_cast h
  unfold toSigned
  by_cases hi : 0 ≤ i
  · have he : i % 2 ^ w = i := Int.emod_eq_of_lt hi (by omega)
    rw [if_pos (hlt.2 (by rw [hc, he]; exact h2)), hc, he]
  · have he : i % 2 ^ w = i + 2 ^ w := by
      have := Int.add_mul_emod_self_left i (2 ^ w) 1
      rw [mul_one] at this
      rw [← this]
      exact Int.emod_eq_of_lt (by omega) (by omega)
    rw [if_neg (fun h => by rw [hlt, hc, he] at h; omega), hc, he]
    omega

/-- The reading of a sign-extended lane is the reading of the lane. -/
theorem CreateIntCast_sext (n m x : Nat) (hn : 0 < n) (hnm : n < m) (hx : x < 2 ^ n) :
    toSigned m (CreateIntCast n m true x) = toSigned n x := by
  unfold CreateIntCast
  rw [if_neg (by omega)]
  simp only [if_true]
  obtain ⟨h1, h2⟩ := toSigned_range n x hn hx
  have hle : (2 : Int) ^ (n - 1) ≤ 2 ^ (m - 1) := two_pow_le_of_le (by omega)
  exact toSigned_ofInt m _ (by omega) (by omega) (by omega)

theorem CreateIntCast_zext (n m x : Nat) (hnm : n < m) : CreateIntCast n m false x = x := by
  unfold CreateIntCast
  rw [if_neg (by omega)]
  simp

theorem CreateIntCast_lt (n m x : Nat) (s : Bool) (hnm : n < m) (hx : x < 2 ^ n) :
    CreateIntCast n m s x < 2 ^ m := by
  unfold CreateIntCast
  rw [if_neg (by omega)]
  split
  · exact ofInt_lt _ _
  · exact lt_of_lt_of_le hx (Nat.pow_le_pow_right (by norm_num) hnm.le)

/-- The wrapping difference of two lanes is the pattern of the difference of
their signed readings. -/
theorem CreateSub_signed (w x y : Nat) :
    CreateSub w x y = ofInt w (toSigned w x - toSigned w y) := by
  unfold CreateSub
  apply ofInt_congr
  rw [Int.sub_emod, Int.sub_emod (toSigned w x), toSigned_emod, toSigned_emod]

theorem CreateSelect_ult (x y p q : Nat) :
    CreateSelect (CreateICmpULT x y) p q = if x < y then p else q := by
  unfold CreateSelect CreateICmpULT
  split <;> simp

theorem CreateSelect_slt (w x y p q : Nat) :
    CreateSelect (CreateICmpSLT w x y) p q = if toSigned w x < toSigned w y then p else q := by
  unfold CreateSelect CreateICmpSLT
  split <;> simp

/-! ## Absolute difference at twice the width -/

/-- Signed lanes: the select tree at the wide width on the sign-extended lanes
yields the zero-extended result of `vabds` at the narrow width, which is the
distance of the two lanes. -/
theorem abs_diff_signed_lane (n m x y : Nat) (hn : 0 < n) (hnm : n < m)
    (hx : x < 2 ^ n) (hy : y < 2 ^ n) :
    CreateSelect (CreateICmpSLT m (CreateIntCast n m true x) (CreateIntCast n m true y))
        (CreateSub m (CreateIntCast n m true y) (CreateIntCast n m true x))
        (CreateSub m (CreateIntCast n m true x) (CreateIntCast n m true y))
      = CreateIntCast n m false (vabds n x y) ∧
    ((CreateIntCast n m false (vabds n x y) : Nat) : Int) = |toSigned n x - toSigned n y| := by
  obtain ⟨hx1, hx2⟩ := toSigned_range n x hn hx
  obtain ⟨hy1, hy2⟩ := toSigned_range n y hn hy
  have hp := two_pow_pred n hn
  have hle : (2 : Int) ^ n ≤ 2 ^ m := two_pow_le_of_le hnm.le
  rw [CreateIntCast_zext n m _ hnm]
  unfold CreateSelect CreateICmpSLT vabds
  rw [CreateSub_signed, CreateSub_signed, CreateIntCast_sext n m x hn hnm hx,
    CreateIntCast_sext n m y hn hnm hy]
  by_cases h : toSigned n x < toSigned n y
  · rw [if_pos h, if_pos h, if_neg (by norm_num),
      ofInt_of_range m _ (by omega) (by omega), ofInt_of_range n _ (by omega) (by omega)]
    refine ⟨rfl, ?_⟩
    rw [Int.toNat_of_nonneg (by omega), abs_of_nonpos (by omega)]
    omega
  · rw [if_neg h, if_neg h, if_pos rfl,
      ofInt_of_range m _ (by omega) (by omega), ofInt_of_range n _ (by omega) (by omega)]
    refine ⟨rfl, ?_⟩
    rw [Int.toNat_of_nonneg (by omega), abs_of_nonneg (by omega)]

/-- Unsigned lanes: the select tree at the wide width on the zero-extended
lanes yields the zero-extended result of `vabdu`. -/
theorem abs_diff_unsigned_lane (n m x y : Nat) (hnm : n < m) (hx : x < 2 ^ n) (hy : y < 2 ^ n) :
    CreateSelect (CreateICmpULT (CreateIntCast n m false x) (CreateIntCast n m false y))
        (CreateSub m (CreateIntCast n m false y) (CreateIntCast n m false x))
        (CreateSub m (CreateIntCast n m false x) (CreateIntCast n m false y))
      = CreateIntCast n m false (vabdu x y) := by
  have hle : 2 ^ n ≤ 2 ^ m := Nat.pow_le_pow_right (by norm_num) hnm.le
  have hle' : ((2 ^ m : Nat) : Int) = 2 ^ m := by push_cast; rfl
  simp only [CreateIntCast_zext _ _ _ hnm]
  unfold CreateSelect CreateICmpULT vabdu CreateSub
  by_cases h : x < y
  · rw [if_pos h, if_pos h, if_neg (by norm_num),
      ofInt_of_range m _ (by omega) (by omega)]
    omega
  · rw [if_neg h, if_neg h, if_pos rfl, ofInt_of_range m _ (by omega) (by omega)]
    omega

/-! ## The value of a node from the values of its operands -/

theorem lane_value_Cast (env : String → Nat) (t : HalideType) (v : Expr) (x : Nat)
    (ht : t.is_float = false) (hv : v.type.is_float = false) (hx : lane_value env v = some x) :
    lane_value env (.Cast t v) = some (CreateIntCast v.type.bits t.bits v.type.is_int x) := by
  simp [lane_value, ht, hv, hx]

theorem lane_value_Add (env : String → Nat) (a b : Expr) (x y : Nat)
    (ht : a.type.is_float = false) (hx : lane_value env a = some x)
    (hy : lane_value env b = some y) :
    lane_value env (.Add a b) = some (CreateAdd a.type.bits x y) := by
  simp [lane_value, ht, hx, hy]

theorem lane_value_Sub (env : String → Nat) (a b : Expr) (x y : Nat)
    (ht : a.type.is_float = false) (hx : lane_value env a = some x)
    (hy : lane_value env b = some y) :
    lane_value env (.Sub a b) = some (CreateSub a.type.bits x y) := by
  simp [lane_value, ht, hx, hy]

theorem lane_value_Min (env : String → Nat) (a b : Expr) (x y : Nat)
    (ht : a.type.is_float = false) (hx : lane_value env a = some x)
    (hy : lane_value env b = some y) :
    lane_value env (.Min a b) = some (CreateSelect (lane_lt a.type x y) x y) := by
  simp [lane_value, ht, hx, hy]

theorem lane_value_Max (env : String → Nat) (a b : Expr) (x y : Nat)
    (ht : a.type.is_float = false) (hx : lane_value env a = some x)
    (hy : lane_value env b = some y) :
    lane_value env (.Max a b) = some (CreateSelect (lane_lt a.type y x) x y) := by
  simp [lane_value, ht, hx, hy]

theorem lane_value_LT (env : String → Nat) (a b : Expr) (x y : Nat)
    (ht : a.type.is_float = false) (hx : lane_value env a = some x)
    (hy : lane_value env b = some y) :
    lane_value env (.LT a b) = some (lane_lt a.type x y) := by
  simp [lane_value, ht, hx, hy]

theorem lane_value_LE (env : String → Nat) (a b : Expr) (x y : Nat)
    (ht : a.type.is_float = false) (hx : lane_value env a = some x)
    (hy : lane_value env b = some y) :
    lane_value env (.LE a b) = some (lane_le a.type x y) := by
  simp [lane_value, ht, hx, hy]

theorem lane_value_Div (env : String → Nat) (a b : Expr) (x y : Nat)
    (ht : a.type.is_float = false) (hx : lane_value env a = some x)
    (hy : lane_value env b = some y) :
    lane_value env (.Div a b)
      = if a.type.is_int then CreateSDiv a.type.bits x y else CreateUDiv a.type.bits x y := by
  simp [lane_value, ht, hx, hy]

theorem lane_value_Select (env : String → Nat) (c tv fv : Expr) (cv x y : Nat)
    (hc : lane_value env c = some cv) (hx : lane_value env tv = some x)
    (hy : lane_value env fv = some y) :
    lane_value env (.Select c tv fv) = some (CreateSelect cv x y) := by
  simp [lane_value, hc, hx, hy]

/-! ## Structural equality -/

theorem equal_refl : ∀ e : Expr, equal e e = true
  | .IntImm _ => by simp [equal]
  | .FloatImm _ => by simp [equal]
  | .Cast _ p => by simp [equal, equal_refl p]
  | .Variable _ _ => by simp [equal]
  | .Add a b => by simp [equal, equal_refl a, equal_refl b]
  | .Sub a b => by simp [equal, equal_refl a, equal_refl b]
  | .Mul a b => by simp [equal, equal_refl a, equal_refl b]
  | .Div a b => by simp [equal, equal_refl a, equal_refl b]
  | .Min a b => by simp [equal, equal_refl a, equal_refl b]
  | .Max a b => by simp [equal, equal_refl a, equal_refl b]
  | .LT a b => by simp [equal, equal_refl a, equal_refl b]
  | .LE a b => by simp [equal, equal_refl a, equal_refl b]
  | .Select c a b => by simp [equal, equal_refl c, equal_refl a, equal_refl b]
  | .Load _ _ i => by simp [equal, equal_refl i]
  | .Ramp a b _ => by simp [equal, equal_refl a, equal_refl b]
  | .Broadcast a _ => by simp [equal, equal_refl a]
  | .Call _ _ args => by simp [equal, equal_args_refl args]
where
  equal_args_refl : ∀ es : List Expr, equal.equal_args es es = true
    | [] => by simp [equal.equal_args]
    | e :: es => by simp [equal.equal_args, equal_refl e, equal_args_refl es]

theorem equal_sound : ∀ a b : Expr, equal a b = true → a = b
  | .IntImm _, b, h => by cases b <;> simp_all [equal]
  | .FloatImm _, b, h => by cases b <;> simp_all [equal]
  | .Cast _ p, b, h => by
    cases b <;> simp [equal] at h
    rw [h.1, equal_sound p _ h.2]
  | .Variable _ _, b, h => by cases b <;> simp_all [equal]
  | .Add pa pb, b, h => by
    cases b <;> simp [equal] at h
    rw [equal_sound pa _ h.1, equal_sound pb _ h.2]
  | .Sub pa pb, b, h => by
    cases b <;> simp [equal] at h
    rw [equal_sound pa _ h.1, equal_sound pb _ h.2]
  | .Mul pa pb, b, h => by
    cases b <;> simp [equal] at h
    rw [equal_sound pa _ h.1, equal_sound pb _ h.2]
  | .Div pa pb, b, h => by
    cases b <;> simp [equal] at h
    rw [equal_sound pa _ h.1, equal_sound pb _ h.2]
  | .Min pa pb, b, h => by
    cases b <;> simp [equal] at h
    rw [equal_sound pa _ h.1, equal_sound pb _ h.2]
  | .Max pa pb, b, h => by
    cases b <;> simp [equal] at h
    rw [equal_sound pa _ h.1, equal_sound pb _ h.2]
  | .LT pa pb, b, h => by
    cases b <;> simp [equal] at h
    rw [equal_sound pa _ h.1, equal_sound pb _ h.2]
  | .LE pa pb, b, h => by
    cases b <;> simp [equal] at h
    rw [equal_sound pa _ h.1, equal_sound pb _ h.2]
  | .Select pc pa pb, b, h => by
    cases b <;> simp [equal] at h
    rw [equal_sound pc _ h.1.1, equal_sound pa _ h.1.2, equal_sound pb _ h.2]
  | .Load _ _ pi, b, h => by
    cases b <;> simp [equal] at h
    rw [h.1.1, h.1.2, equal_sound pi _ h.2]
  | .Ramp pa pb _, b, h => by
    cases b <;> simp [equal] at h
    rw [equal_sound pa _ h.1.1, equal_sound pb _ h.1.2, h.2]
  | .Broadcast pa _, b, h => by
    cases b <;> simp [equal] at h
    rw [equal_sound pa _ h.1, h.2]
  | .Call _ _ pargs, b, h => by
    cases b <;> simp [equal] at h
    rw [h.1.1, h.1.2, equal_args_sound pargs _ h.2]
where
  equal_args_sound : ∀ ps es : List Expr, equal.equal_args ps es = true → ps = es
    | [], [], _ => rfl
    | [], _ :: _, h => by simp [equal.equal_args] at h
    | _ :: _, [], h => by simp [equal.equal_args] at h
    | p :: ps, e :: es, h => by
      simp [equal.equal_args] at h
      rw [equal_sound p e h.1, equal_args_sound ps es h.2]

/-- The test `equal` decides equality of trees. -/
theorem equal_iff (a b : Expr) : equal a b = true ↔ a = b :=
  ⟨equal_sound a b, fun h => h ▸ equal_refl a⟩

/-! ## The `Select` handler -/

theorem visit_Select_call_is_abs_diff (t : HalideType) (vec_bits : Int) (cmp_a cmp_b : Expr) :
    (visit_Select_call t vec_bits cmp_a cmp_b).is_abs_diff = true := by
  unfold visit_Select_call
  split
  · split <;> rfl
  · rfl

theorem vec_bits_of_range (t : HalideType) (hw : t.bits * t.width < 2 ^ 31) :
    wrap32 ((t.bits : Int) * (t.width : Int)) = ((t.bits * t.width : Nat) : Int) := by
  have h : ((t.bits * t.width : Nat) : Int) < 2147483648 := by exact_mod_cast hw
  rw [← Nat.cast_mul]
  exact wrap32_of_range _ (by omega) h

theorem visit_Select_generic_of_not (c tv fv : Expr)
    (hw : tv.type.bits * tv.type.width < 2 ^ 31)
    (h : ¬ abs_diff_condition c tv fv) : visit_Select c tv fv = .generic := by
  unfold visit_Select
  split
  · next cmp_a cmp_b a_a a_b b_a b_b =>
    simp only []
    split
    · next hc =>
      exfalso
      apply h
      simp only [equal_iff] at hc
      obtain ⟨h1, h2, h3, h4, h5, h6, h7⟩ := hc
      refine ⟨cmp_a, cmp_b, a_a, a_b, b_a, b_b, rfl, rfl, rfl, h1, h2, h3, h4, h5, h6, ?_⟩
      have hw' : ((cmp_a.LT cmp_b).Select (a_a.Sub a_b) (b_a.Sub b_b)).type.bits *
          ((cmp_a.LT cmp_b).Select (a_a.Sub a_b) (b_a.Sub b_b)).type.width < 2 ^ 31 := hw
      rw [vec_bits_of_range _ hw'] at h7
      exact_mod_cast h7
    · rfl
  · rfl

theorem visit_Select_abs_diff_of (c tv fv : Expr) (h : abs_diff_condition c tv fv) :
    (visit_Select c tv fv).is_abs_diff = true := by
  obtain ⟨cmp_a, cmp_b, a_a, a_b, b_a, b_b, rfl, rfl, rfl, h1, h2, h3, h4, h5, h6, h7⟩ := h
  have h7' : wrap32 ((((cmp_a.LT cmp_b).Select (a_a.Sub a_b) (b_a.Sub b_b)).type.bits : Int) *
      (((cmp_a.LT cmp_b).Select (a_a.Sub a_b) (b_a.Sub b_b)).type.width : Int)) = 64 ∨
      wrap32 ((((cmp_a.LT cmp_b).Select (a_a.Sub a_b) (b_a.Sub b_b)).type.bits : Int) *
      (((cmp_a.LT cmp_b).Select (a_a.Sub a_b) (b_a.Sub b_b)).type.width : Int)) = 128 := by
    rw [vec_bits_of_range _ (by rcases h7 with h7 | h7 <;> rw [h7] <;> norm_num)]
    rcases h7 with h7 | h7 <;> rw [h7] <;> simp
  unfold visit_Select
  simp only []
  rw [if_pos ⟨(equal_iff _ _).2 h1, (equal_iff _ _).2 h2, (equal_iff _ _).2 h3,
    (equal_iff _ _).2 h4, h5, h6, h7'⟩]
  exact visit_Select_call_is_abs_diff _ _ _ _

/-- C13: on a node whose vector size in bits is an `int`, the `Select` handler
emits a call of an absolute-difference intrinsic exactly when the condition is
an `LT` node, both branches are `Sub` nodes, the four equalities
`true.a = false.b`, `true.b = false.a`, `cond.a = true.b`, `cond.b = true.a`
hold, the type is not a floating-point type, its lanes have 8, 16, 32 or 64
bits, and lane width times lane count is 64 or 128; in every other case it
delegates to the generic lowering. -/
theorem select_abs_diff_iff (c tv fv : Expr) (hw : tv.type.bits * tv.type.width < 2 ^ 31) :
    ((visit_Select c tv fv).is_abs_diff = true ↔ abs_diff_condition c tv fv) ∧
    (¬ abs_diff_condition c tv fv → visit_Select c tv fv = .generic) := by
  refine ⟨⟨fun h => ?_, visit_Select_abs_diff_of c tv fv⟩, visit_Select_generic_of_not c tv fv hw⟩
  by_contra hc
  rw [visit_Select_generic_of_not c tv fv hw hc] at h
  exact absurd h (by decide)

theorem select_abs_diff_iff_witness :
    (visit_Select (.LT (.Variable (UInt_ 8 8) "a") (.Variable (UInt_ 8 8) "b"))
        (.Sub (.Variable (UInt_ 8 8) "b") (.Variable (UInt_ 8 8) "a"))
        (.Sub (.Variable (UInt_ 8 8) "a") (.Variable (UInt_ 8 8) "b"))).is_abs_diff = true ↔
      abs_diff_condition (.LT (.Variable (UInt_ 8 8) "a") (.Variable (UInt_ 8 8) "b"))
        (.Sub (.Variable (UInt_ 8 8) "b") (.Variable (UInt_ 8 8) "a"))
        (.Sub (.Variable (UInt_ 8 8) "a") (.Variable (UInt_ 8 8) "b")) :=
  (select_abs_diff_iff _ _ _ (by decide)).1

/-! ## Absolute difference -/

theorem vabdu_abs (x y : Nat) : (vabdu x y : Int) = |(x : Int) - (y : Int)| := by
  unfold vabdu
  split
  · rw [abs_of_nonpos (by omega)]; omega
  · rw [abs_of_nonneg (by omega)]; omega

theorem vabdu_comm (x y : Nat) : vabdu x y = vabdu y x := by
  unfold vabdu
  split <;> split <;> omega

/-- C12: on operands of type `UInt(8, 8)` whose lanes hold `x` and `y`, the
`Select` handler replaces `select(a < b, b - a, a - b)` by `vabdu.v8i8` on the
two operands; the value of the tree, with its wrapping 8-bit subtractions, is
the result of that instruction, which is `|x - y|` and does not change when the
operands are swapped. -/
theorem abs_diff_u8_value (env : String → Nat) (a b : Expr) (x y : Nat)
    (ha : a.type = UInt_ 8 8) (hb : b.type = UInt_ 8 8)
    (hx : lane_value env a = some x) (hy : lane_value env b = some y)
    (hx8 : x < 256) (hy8 : y < 256) :
    visit_Select (.LT a b) (.Sub b a) (.Sub a b) = .vabd (UInt_ 8 8) "vabdu.v8i8" [a, b] ∧
    lane_value env (abs_diff_tree a b) = some (vabdu x y) ∧
    (vabdu x y : Int) = |(x : Int) - (y : Int)| ∧
    vabdu x y = vabdu y x := by
  refine ⟨?_, ?_, vabdu_abs x y, vabdu_comm x y⟩
  · unfold visit_Select
    simp only [equal_refl, Expr.type, hb, true_and]
    rw [if_pos (by decide)]
    unfold visit_Select_call
    split
    · rw [if_neg (fun h => absurd h.1 (by decide))]
      rfl
    · rfl
  · unfold abs_diff_tree
    simp only [lane_value, Expr.type, ha, hb, hx, hy, Option.bind_some, Option.map_some',
      HalideType.is_float, HalideType.is_int, UInt_, reduceCtorEq, decide_False,
      Bool.false_eq_true, if_false, Option.some.injEq]
    unfold lane_lt CreateICmpULT CreateSelect CreateSub ofInt vabdu
    simp only [HalideType.is_int, reduceCtorEq, decide_False, Bool.false_eq_true, if_false]
    norm_num
    split_ifs <;> omega

theorem abs_diff_u8_value_witness :
    lane_value (env2 200 50)
        (abs_diff_tree (.Variable (UInt_ 8 8) "a") (.Variable (UInt_ 8 8) "b")) = some 150 ∧
    lane_value (env2 50 200)
        (abs_diff_tree (.Variable (UInt_ 8 8) "a") (.Variable (UInt_ 8 8) "b")) = some 150 :=
  ⟨(abs_diff_u8_value (env2 200 50) (.Variable (UInt_ 8 8) "a") (.Variable (UInt_ 8 8) "b")
      200 50 rfl rfl rfl rfl (by decide) (by decide)).2.1,
   (abs_diff_u8_value (env2 50 200) (.Variable (UInt_ 8 8) "a") (.Variable (UInt_ 8 8) "b")
      50 200 rfl rfl rfl rfl (by decide) (by decide)).2.1⟩

theorem visit_Select_widened (N W : HalideType) (a b : Expr)
    (ha : a.type = N) (hb : b.type = N)
    (hf : W.is_float = false) (hbits : W.bits = 8 ∨ W.bits = 16 ∨ W.bits = 32 ∨ W.bits = 64)
    (hvec : W.bits * W.width = 128) (hN : N.bits * 2 = W.bits) (ht : N.t = W.t) :
    visit_Select (.LT (.Cast W a) (.Cast W b)) (.Sub (.Cast W b) (.Cast W a))
        (.Sub (.Cast W a) (.Cast W b))
      = .vabd_widened N (vabd_name W (W.bits / 2)) [a, b] W := by
  have hv : wrap32 ((W.bits : Int) * (W.width : Int)) = 128 := by
    rw [vec_bits_of_range W (by rw [hvec]; norm_num), hvec]
    rfl
  unfold visit_Select
  simp only [equal_refl, Expr.type, true_and]
  rw [if_pos ⟨hf, hbits, Or.inr hv⟩]
  unfold visit_Select_call
  simp only [Expr.as_Cast, ha, hb]
  rw [if_pos ⟨hv, hN, hN, ht, ht⟩]

/-- C14: for operands `a`, `b` of a signed or unsigned type `N` with lanes of
8, 16 or 32 bits in a 64-bit vector, on the tree built over their casts to the
type of twice the lane width the `Select` handler calls the absolute difference
at the narrow type on `a` and `b` and zero-extends the result; that value is
the value of the tree at the wide type, and it is the distance `|a - b|` of the
two lanes. -/
theorem abs_diff_widening_value (env : String → Nat) (N : HalideType) (a b : Expr) (x y : Nat)
    (hf : N.is_float = false) (hbits : N.bits = 8 ∨ N.bits = 16 ∨ N.bits = 32)
    (hvec : N.bits * N.width = 64)
    (ha : a.type = N) (hb : b.type = N)
    (hx : lane_value env a = some x) (hy : lane_value env b = some y)
    (hxn : x < 2 ^ N.bits) (hyn : y < 2 ^ N.bits) :
    visit_Select (.LT (.Cast N.widened a) (.Cast N.widened b))
        (.Sub (.Cast N.widened b) (.Cast N.widened a))
        (.Sub (.Cast N.widened a) (.Cast N.widened b))
      = .vabd_widened N (vabd_name N.widened N.bits) [a, b] N.widened ∧
    lane_value env (abs_diff_tree (.Cast N.widened a) (.Cast N.widened b))
      = some (CreateIntCast N.bits N.widened.bits false (vabd N x y)) ∧
    ((CreateIntCast N.bits N.widened.bits false (vabd N x y) : Nat) : Int)
      = |lane_int N x - lane_int N y| := by
  have hn0 : 0 < N.bits := by omega
  have hnm : N.bits < N.widened.bits := by
    show N.bits < 2 * N.bits
    omega
  have hfw : N.widened.is_float = false := hf
  have hiw : N.widened.is_int = N.is_int := rfl
  have hdiv : N.widened.bits / 2 = N.bits := by
    show 2 * N.bits / 2 = N.bits
    omega
  refine ⟨?_, ?_, ?_⟩
  · have h := visit_Select_widened N N.widened a b ha hb hfw
      (by show 2 * N.bits = 8 ∨ 2 * N.bits = 16 ∨ 2 * N.bits = 32 ∨ 2 * N.bits = 64; omega)
      (by show 2 * N.bits * N.width = 128; rw [Nat.mul_assoc, hvec])
      (by show N.bits * 2 = 2 * N.bits; omega) rfl
    rw [hdiv] at h
    exact h
  · unfold abs_diff_tree
    simp only [lane_value, Expr.type, ha, hb, hx, hy, hf, hfw, Option.some_bind,
      Option.map_some', Bool.false_eq_true, or_self, if_false, Option.some.injEq]
    unfold lane_lt vabd
    rw [hiw]
    by_cases hi : N.is_int = true
    · simp only [hi, if_true]
      exact (abs_diff_signed_lane N.bits N.widened.bits x y hn0 hnm hxn hyn).1
    · have hi' : N.is_int = false := by simpa using hi
      simp only [hi', Bool.false_eq_true, if_false]
      exact abs_diff_unsigned_lane N.bits N.widened.bits x y hnm hxn hyn
  · unfold vabd lane_int
    by_cases hi : N.is_int = true
    · simp only [hi, if_true]
      exact (abs_diff_signed_lane N.bits N.widened.bits x y hn0 hnm hxn hyn).2
    · have hi' : N.is_int = false := by simpa using hi
      simp only [hi', Bool.false_eq_true, if_false]
      rw [CreateIntCast_zext _ _ _ hnm]
      exact vabdu_abs x y

theorem abs_diff_widening_value_witness :
    visit_Select
        (.LT (.Cast (Int_ 16 8) (.Variable (Int_ 8 8) "a"))
          (.Cast (Int_ 16 8) (.Variable (Int_ 8 8) "b")))
        (.Sub (.Cast (Int_ 16 8) (.Variable (Int_ 8 8) "b"))
          (.Cast (Int_ 16 8) (.Variable (Int_ 8 8) "a")))
        (.Sub (.Cast (Int_ 16 8) (.Variable (Int_ 8 8) "a"))
          (.Cast (Int_ 16 8) (.Variable (Int_ 8 8) "b")))
      = .vabd_widened (Int_ 8 8) "vabds.v8i8"
          [.Variable (Int_ 8 8) "a", .Variable (Int_ 8 8) "b"] (Int_ 16 8) ∧
    lane_value (env2 127 128)
        (abs_diff_tree (.Cast (Int_ 16 8) (.Variable (Int_ 8 8) "a"))
          (.Cast (Int_ 16 8) (.Variable (Int_ 8 8) "b")))
      = some 255 :=
  ⟨(abs_diff_widening_value (env2 127 128) (Int_ 8 8) (.Variable (Int_ 8 8) "a")
      (.Variable (Int_ 8 8) "b") 127 128 rfl (Or.inl rfl) rfl rfl rfl rfl rfl
      (by decide) (by decide)).1,
   (abs_diff_widening_value (env2 127 128) (Int_ 8 8) (.Variable (Int_ 8 8) "a")
      (.Variable (Int_ 8 8) "b") 127 128 rfl (Or.inl rfl) rfl rfl rfl rfl rfl
      (by decide) (by decide)).2.1⟩

/-! ## The matcher on the instances of a tree -/

theorem fill_holes_type (σ : String → Option Expr) : ∀ e : Expr, (fill_holes σ e).type = e.type
  | .IntImm _ => rfl
  | .FloatImm _ => rfl
  | .Cast _ _ => rfl
  | .Variable t name => by
    unfold fill_holes
    split
    · split
      · next h => simpa [Expr.type] using h
      · rfl
    · rfl
  | .Add a _ => by simp only [fill_holes, Expr.type, fill_holes_type σ a]
  | .Sub a _ => by simp only [fill_holes, Expr.type, fill_holes_type σ a]
  | .Mul a _ => by simp only [fill_holes, Expr.type, fill_holes_type σ a]
  | .Div a _ => by simp only [fill_holes, Expr.type, fill_holes_type σ a]
  | .Min a _ => by simp only [fill_holes, Expr.type, fill_holes_type σ a]
  | .Max a _ => by simp only [fill_holes, Expr.type, fill_holes_type σ a]
  | .LT a _ => by simp only [fill_holes, Expr.type, fill_holes_type σ a]
  | .LE a _ => by simp only [fill_holes, Expr.type, fill_holes_type σ a]
  | .Select _ tv _ => by simp only [fill_holes, Expr.type, fill_holes_type σ tv]
  | .Load _ _ _ => rfl
  | .Ramp b _ _ => by simp only [fill_holes, Expr.type, fill_holes_type σ b]
  | .Broadcast v _ => by simp only [fill_holes, Expr.type, fill_holes_type σ v]
  | .Call _ _ _ => rfl

/-- Matching is blind to what fills a hole: when the comparison of the pattern
with `e` meets the holes of `e` only at wildcards, the outcome on an instance of
`e` is the instance of the outcome on `e`. -/
theorem expr_match_acc_fill (σ : String → Option Expr) (holes : List String)
    (hσ : ∀ n, n ∉ holes → σ n = none) :
    ∀ (p e : Expr) (ms : List Expr), hole_safe holes p e = true →
      expr_match_acc p (fill_holes σ e) (ms.map (fill_holes σ))
        = (expr_match_acc p e ms).map (List.map (fill_holes σ))
  | .Variable t name, e, ms, h => by
    by_cases hw : name = "*"
    · simp only [expr_match_acc, hw, if_true, fill_holes_type]
      split <;> simp
    · have hh : is_hole holes e = false := by simpa [hole_safe, hw] using h
      cases e with
      | Variable t2 n =>
        have hn : σ n = none := hσ n (by simpa [is_hole] using hh)
        simp only [fill_holes, hn, expr_match_acc, hw, if_false]
        split <;> simp
      | _ => simp [fill_holes, expr_match_acc, hw]
  | .IntImm v, e, ms, h => by
    cases e with
    | IntImm v2 =>
      simp only [fill_holes, expr_match_acc]
      split <;> simp
    | Variable t2 n =>
      have hn : σ n = none := hσ n (by simpa [hole_safe, is_hole] using h)
      simp [fill_holes, hn, expr_match_acc]
    | _ => simp [fill_holes, expr_match_acc]
  | .FloatImm v, e, ms, h => by
    cases e with
    | FloatImm v2 =>
      simp only [fill_holes, expr_match_acc]
      split <;> simp
    | Variable t2 n =>
      have hn : σ n = none := hσ n (by simpa [hole_safe, is_hole] using h)
      simp [fill_holes, hn, expr_match_acc]
    | _ => simp [fill_holes, expr_match_acc]
  | .Cast t p, e, ms, h => by
    cases e with
    | Cast t2 x =>
      simp only [hole_safe] at h
      simp only [fill_holes, expr_match_acc]
      split
      · exact expr_match_acc_fill σ holes hσ p x ms h
      · rfl
    | Variable t2 n =>
      have hn : σ n = none := hσ n (by simpa [hole_safe, is_hole] using h)
      simp [fill_holes, hn, expr_match_acc]
    | _ => simp [fill_holes, expr_match_acc]
  | .Add pa pb, e, ms, h => by
    cases e with
    | Add a b =>
      simp only [hole_safe, Bool.and_eq_true] at h
      simp only [fill_holes, expr_match_acc]
      rw [expr_match_acc_fill σ holes hσ pa a ms h.1]
      cases expr_match_acc pa a ms with
      | none => rfl
      | some ms1 =>
        simp only [Option.map_some', Option.some_bind]
        exact expr_match_acc_fill σ holes hσ pb b ms1 h.2
    | Variable t2 n =>
      have hn : σ n = none := hσ n (by simpa [hole_safe, is_hole] using h)
      simp [fill_holes, hn, expr_match_acc]
    | _ => simp [fill_holes, expr_match_acc]
  | .Sub pa pb, e, ms, h => by
    cases e with
    | Sub a b =>
      simp only [hole_safe, Bool.and_eq_true] at h
      simp only [fill_holes, expr_match_acc]
      rw [expr_match_acc_fill σ holes hσ pa a ms h.1]
      cases expr_match_acc pa a ms with
      | none => rfl
      | some ms1 =>
        simp only [Option.map_some', Option.some_bind]
        exact expr_match_acc_fill σ holes hσ pb b ms1 h.2
    | Variable t2 n =>
      have hn : σ n = none := hσ n (by simpa [hole_safe, is_hole] using h)
      simp [fill_holes, hn, expr_match_acc]
    | _ => simp [fill_holes, expr_match_acc]
  | .Mul pa pb, e, ms, h => by
    cases e with
    | Mul a b =>
      simp only [hole_safe, Bool.and_eq_true] at h
      simp only [fill_holes, expr_match_acc]
      rw [expr_match_acc_fill σ holes hσ pa a ms h.1]
      cases expr_match_acc pa a ms with
      | none => rfl
      | some ms1 =>
        simp only [Option.map_some', Option.some_bind]
        exact expr_match_acc_fill σ holes hσ pb b ms1 h.2
    | Variable t2 n =>
      have hn : σ n = none := hσ n (by simpa [hole_safe, is_hole] using h)
      simp [fill_holes, hn, expr_match_acc]
    | _ => simp [fill_holes, expr_match_acc]
  | .Div pa pb, e, ms, h => by
    cases e with
    | Div a b =>
      simp only [hole_safe, Bool.and_eq_true] at h
      simp only [fill_holes, expr_match_acc]
      rw [expr_match_acc_fill σ holes hσ pa a ms h.1]
      cases expr_match_acc pa a ms with
      | none => rfl
      | some ms1 =>
        simp only [Option.map_some', Option.some_bind]
        exact expr_match_acc_fill σ holes hσ pb b ms1 h.2
    | Variable t2 n =>
      have hn : σ n = none := hσ n (by simpa [hole_safe, is_hole] using h)
      simp [fill_holes, hn, expr_match_acc]
    | _ => simp [fill_holes, expr_match_acc]
  | .Min pa pb, e, ms, h => by
    cases e with
    | Min a b =>
      simp only [hole_safe, Bool.and_eq_true] at h
      simp only [fill_holes, expr_match_acc]
      rw [expr_match_acc_fill σ holes hσ pa a ms h.1]
      cases expr_match_acc pa a ms with
      | none => rfl
      | some ms1 =>
        simp only [Option.map_some', Option.some_bind]
        exact expr_match_acc_fill σ holes hσ pb b ms1 h.2
    | Variable t2 n =>
      have hn : σ n = none := hσ n (by simpa [hole_safe, is_hole] using h)
      simp [fill_holes, hn, expr_match_acc]
    | _ => simp [fill_holes, expr_match_acc]
  | .Max pa pb, e, ms, h => by
    cases e with
    | Max a b =>
      simp only [hole_safe, Bool.and_eq_true] at h
      simp only [fill_holes, expr_match_acc]
      rw [expr_match_acc_fill σ holes hσ pa a ms h.1]
      cases expr_match_acc pa a ms with
      | none => rfl
      | some ms1 =>
        simp only [Option.map_some', Option.some_bind]
        exact expr_match_acc_fill σ holes hσ pb b ms1 h.2
    | Variable t2 n =>
      have hn : σ n = none := hσ n (by simpa [hole_safe, is_hole] using h)
      simp [fill_holes, hn, expr_match_acc]
    | _ => simp [fill_holes, expr_match_acc]
  | .LT pa pb, e, ms, h => by
    cases e with
    | LT a b =>
      simp only [hole_safe, Bool.and_eq_true] at h
      simp only [fill_holes, expr_match_acc]
      rw [expr_match_acc_fill σ holes hσ pa a ms h.1]
      cases expr_match_acc pa a ms with
      | none => rfl
      | some ms1 =>
        simp only [Option.map_some', Option.some_bind]
        exact expr_match_acc_fill σ holes hσ pb b ms1 h.2
    | Variable t2 n =>
      have hn : σ n = none := hσ n (by simpa [hole_safe, is_hole] using h)
      simp [fill_holes, hn, expr_match_acc]
    | _ => simp [fill_holes, expr_match_acc]
  | .LE pa pb, e, ms, h => by
    cases e with
    | LE a b =>
      simp only [hole_safe, Bool.and_eq_true] at h
      simp only [fill_holes, expr_match_acc]
      rw [expr_match_acc_fill σ holes hσ pa a ms h.1]
      cases expr_match_acc pa a ms with
      | none => rfl
      | some ms1 =>
        simp only [Option.map_some', Option.some_bind]
        exact expr_match_acc_fill σ holes hσ pb b ms1 h.2
    | Variable t2 n =>
      have hn : σ n = none := hσ n (by simpa [hole_safe, is_hole] using h)
      simp [fill_holes, hn, expr_match_acc]
    | _ => simp [fill_holes, expr_match_acc]
  | .Select pc pt pf, e, ms, h => by
    cases e with
    | Select c tv fv =>
      simp only [hole_safe, Bool.and_eq_true] at h
      simp only [fill_holes, expr_match_acc]
      rw [expr_match_acc_fill σ holes hσ pc c ms h.1.1]
      cases expr_match_acc pc c ms with
      | none => rfl
      | some ms1 =>
        simp only [Option.map_some', Option.some_bind]
        rw [expr_match_acc_fill σ holes hσ pt tv ms1 h.1.2]
        cases expr_match_acc pt tv ms1 with
        | none => rfl
        | some ms2 =>
          simp only [Option.map_some', Option.some_bind]
          exact expr_match_acc_fill σ holes hσ pf fv ms2 h.2
    | Variable t2 n =>
      have hn : σ n = none := hσ n (by simpa [hole_safe, is_hole] using h)
      simp [fill_holes, hn, expr_match_acc]
    | _ => simp [fill_holes, expr_match_acc]
  | .Load t name pi, e, ms, h => by
    cases e with
    | Load t2 name2 i =>
      simp only [hole_safe] at h
      simp only [fill_holes, expr_match_acc]
      split
      · exact expr_match_acc_fill σ holes hσ pi i ms h
      · rfl
    | Variable t2 n =>
      have hn : σ n = none := hσ n (by simpa [hole_safe, is_hole] using h)
      simp [fill_holes, hn, expr_match_acc]
    | _ => simp [fill_holes, expr_match_acc]
  | .Ramp pb ps w, e, ms, h => by
    cases e with
    | Ramp b s w2 =>
      simp only [hole_safe, Bool.and_eq_true] at h
      simp only [fill_holes, expr_match_acc]
      split
      · rw [expr_match_acc_fill σ holes hσ pb b ms h.1]
        cases expr_match_acc pb b ms with
        | none => rfl
        | some ms1 =>
          simp only [Option.map_some', Option.some_bind]
          exact expr_match_acc_fill σ holes hσ ps s ms1 h.2
      · rfl
    | Variable t2 n =>
      have hn : σ n = none := hσ n (by simpa [hole_safe, is_hole] using h)
      simp [fill_holes, hn, expr_match_acc]
    | _ => simp [fill_holes, expr_match_acc]
  | .Broadcast p w, e, ms, h => by
    cases e with
    | Broadcast x w2 =>
      simp only [hole_safe] at h
      simp only [fill_holes, expr_match_acc]
      split
      · exact expr_match_acc_fill σ holes hσ p x ms h
      · rfl
    | Variable t2 n =>
      have hn : σ n = none := hσ n (by simpa [hole_safe, is_hole] using h)
      simp [fill_holes, hn, expr_match_acc]
    | _ => simp [fill_holes, expr_match_acc]
  | .Call _ _ _, _, _, h => by simp [hole_safe] at h

/-! ## The `Cast` handler on the instances of a tree -/

theorem expr_match_fill (σ : String → Option Expr) (holes : List String)
    (hσ : ∀ n, n ∉ holes → σ n = none) (p e : Expr) (h : hole_safe holes p e = true) :
    expr_match p (fill_holes σ e) = (expr_match p e).map (List.map (fill_holes σ)) := by
  have := expr_match_acc_fill σ holes hσ p e [] h
  simpa [expr_match] using this

/-- When the rows before row `k` do not match the tree `e`, row `k` is an
unconditional row that matches it, and no comparison meets a hole of `e`
outside a wildcard, the handler selects row `k` on every instance of `e`, with
the instances of the matched subtrees as arguments. -/
theorem visit_Cast_fill (fuel : Nat) (σ : String → Option Expr) (holes : List String)
    (hσ : ∀ n, n ∉ holes → σ n = none) (t : HalideType) (e : Expr) (k : Nat)
    (row : visit_Cast_Pattern) (ms : List Expr)
    (hk : visit_Cast_patterns.get? k = some row)
    (hpre : ((visit_Cast_patterns.take k).all fun p =>
      hole_safe holes p.pattern (.Cast t e) && (expr_match p.pattern (.Cast t e)).isNone) = true)
    (hsafe : hole_safe holes row.pattern (.Cast t e) = true) (hshift : row.shift = false)
    (hm : expr_match row.pattern (.Cast t e) = some ms) :
    visit_Cast fuel t (fill_holes σ e)
      = some (.call_intrin k row.pattern.type row.intrin (ms.map (fill_holes σ))) := by
  have hlen : k < visit_Cast_patterns.length := by
    by_contra hc
    rw [List.get?_eq_none.2 (Nat.le_of_not_lt hc)] at hk
    exact absurd hk (by simp)
  have hsplit : visit_Cast_patterns
      = visit_Cast_patterns.take k ++ row :: visit_Cast_patterns.drop (k + 1) := by
    have h1 := (List.take_append_drop k visit_Cast_patterns).symm
    have h2 : visit_Cast_patterns.drop k = row :: visit_Cast_patterns.drop (k + 1) := by
      rw [List.drop_eq_getElem_cons hlen]
      congr 1
      rw [List.get?_eq_getElem? , List.getElem?_eq_getElem hlen] at hk
      exact Option.some.inj hk
    rw [h2] at h1
    exact h1
  have hnone : ((visit_Cast_patterns.take k).all fun p =>
      (expr_match p.pattern (fill_holes σ (.Cast t e))).isNone) = true := by
    rw [List.all_eq_true] at hpre ⊢
    intro p hp
    have h := hpre p hp
    rw [Bool.and_eq_true] at h
    rw [expr_match_fill σ holes hσ _ _ h.1]
    cases hr : expr_match p.pattern (.Cast t e) with
    | none => rfl
    | some r => rw [hr] at h; simp at h
  have hop : fill_holes σ (.Cast t e) = .Cast t (fill_holes σ e) := rfl
  unfold visit_Cast
  rw [← hop, hsplit, visit_Cast_loop_skip fuel _ _ _ 0 hnone, visit_Cast_loop,
    expr_match_fill σ holes hσ _ _ hsafe, hm]
  simp [hshift, List.length_take, Nat.min_eq_left hlen.le]

theorem holes2_support (a b : Expr) : ∀ n, n ∉ ["a", "b"] → holes2 a b n = none := by
  intro n hn
  simp only [List.mem_cons, List.mem_singleton, List.not_mem_nil, or_false, not_or] at hn
  simp [holes2, hn.1, hn.2]

theorem fill_hole_a (a b : Expr) (t : HalideType) (ha : a.type = t) :
    fill_holes (holes2 a b) (.Variable t "a") = a := by
  simp [fill_holes, holes2, ha]

theorem fill_hole_b (a b : Expr) (t : HalideType) (hb : b.type = t) :
    fill_holes (holes2 a b) (.Variable t "b") = b := by
  simp [fill_holes, holes2, hb]

theorem fill_holes_Add (σ : String → Option Expr) (x y : Expr) :
    fill_holes σ (.Add x y) = .Add (fill_holes σ x) (fill_holes σ y) := rfl

theorem fill_holes_Sub (σ : String → Option Expr) (x y : Expr) :
    fill_holes σ (.Sub x y) = .Sub (fill_holes σ x) (fill_holes σ y) := rfl

theorem fill_holes_Mul (σ : String → Option Expr) (x y : Expr) :
    fill_holes σ (.Mul x y) = .Mul (fill_holes σ x) (fill_holes σ y) := rfl

theorem fill_holes_Div (σ : String → Option Expr) (x y : Expr) :
    fill_holes σ (.Div x y) = .Div (fill_holes σ x) (fill_holes σ y) := rfl

theorem fill_holes_Min (σ : String → Option Expr) (x y : Expr) :
    fill_holes σ (.Min x y) = .Min (fill_holes σ x) (fill_holes σ y) := rfl

theorem fill_holes_Max (σ : String → Option Expr) (x y : Expr) :
    fill_holes σ (.Max x y) = .Max (fill_holes σ x) (fill_holes σ y) := rfl

theorem fill_holes_LT (σ : String → Option Expr) (x y : Expr) :
    fill_holes σ (.LT x y) = .LT (fill_holes σ x) (fill_holes σ y) := rfl

theorem fill_holes_LE (σ : String → Option Expr) (x y : Expr) :
    fill_holes σ (.LE x y) = .LE (fill_holes σ x) (fill_holes σ y) := rfl

theorem fill_holes_Cast (σ : String → Option Expr) (t : HalideType) (x : Expr) :
    fill_holes σ (.Cast t x) = .Cast t (fill_holes σ x) := rfl

theorem fill_holes_Broadcast (σ : String → Option Expr) (x : Expr) (w : Nat) :
    fill_holes σ (.Broadcast x w) = .Broadcast (fill_holes σ x) w := rfl

theorem fill_holes_const (σ : String → Option Expr) (t : HalideType) (k : Int) :
    fill_holes σ (cast t (.IntImm k)) = cast t (.IntImm k) := by
  unfold cast cast_scalar
  split_ifs <;> rfl

/-! ## Saturating add and subtract of unsigned 8-bit lanes -/

theorem saturating_add_u8_selected (fuel : Nat) (a b : Expr)
    (ha : a.type = UInt_ 8 8) (hb : b.type = UInt_ 8 8) :
    visit_Cast fuel (UInt_ 8 8) (saturating_add_u8 a b)
      = some (.call_intrin 45 (UInt_ 8 8) "vqaddu.v8i8" [a, b]) := by
  have h := visit_Cast_fill fuel (holes2 a b) ["a", "b"] (holes2_support a b) (UInt_ 8 8)
    (saturating_add_u8 (.Variable (UInt_ 8 8) "a") (.Variable (UInt_ 8 8) "b")) 45 _
    [.Variable (UInt_ 8 8) "a", .Variable (UInt_ 8 8) "b"] rfl rfl rfl rfl rfl
  simp only [saturating_add_u8, min_int, fill_holes_Min, fill_holes_Add, fill_holes_Cast,
    fill_holes_const, fill_hole_a a b _ ha, fill_hole_b a b _ hb, List.map] at h
  exact h

theorem vqaddu_min (x y : Nat) : vqaddu 8 x y = min (x + y) 255 := by
  unfold vqaddu
  simp only [Nat.reducePow, Nat.reduceSub]
  split <;> omega

/-- C15: on operands of type `UInt(8, 8)` whose lanes hold `x` and `y`, the
`Cast` handler replaces `cast<u8>(min(u16(a) + u16(b), 255))` by `vqaddu.v8i8`
on the two operands, and the value of the tree is the result of that
instruction, `min(x + y, 255)`. -/
theorem saturating_add_u8_value (fuel : Nat) (env : String → Nat) (a b : Expr) (x y : Nat)
    (ha : a.type = UInt_ 8 8) (hb : b.type = UInt_ 8 8)
    (hx : lane_value env a = some x) (hy : lane_value env b = some y)
    (hx8 : x < 256) (hy8 : y < 256) :
    visit_Cast fuel (UInt_ 8 8) (saturating_add_u8 a b)
      = some (.call_intrin 45 (UInt_ 8 8) "vqaddu.v8i8" [a, b]) ∧
    lane_value env (.Cast (UInt_ 8 8) (saturating_add_u8 a b)) = some (vqaddu 8 x y) ∧
    vqaddu 8 x y = min (x + y) 255 := by
  refine ⟨saturating_add_u8_selected fuel a b ha hb, ?_, vqaddu_min x y⟩
  have e1 : CreateIntCast (UInt_ 8 8).bits (UInt_ 16 8).bits (UInt_ 8 8).is_int x = x :=
    CreateIntCast_zext 8 16 x (by norm_num)
  have e2 : CreateIntCast (UInt_ 8 8).bits (UInt_ 16 8).bits (UInt_ 8 8).is_int y = y :=
    CreateIntCast_zext 8 16 y (by norm_num)
  have h1 := lane_value_Cast env (UInt_ 16 8) a x rfl (by rw [ha]; rfl) hx
  have h2 := lane_value_Cast env (UInt_ 16 8) b y rfl (by rw [hb]; rfl) hy
  rw [ha, e1] at h1
  rw [hb, e2] at h2
  have h3 := lane_value_Add env _ _ _ _ (by rfl) h1 h2
  have hc : lane_value env (cast (UInt_ 16 8) (.IntImm 255)) = some 255 := rfl
  have h4 := lane_value_Min env _ _ _ _ (by rfl) h3 hc
  have h5 := lane_value_Cast env (UInt_ 8 8) _ _ (by rfl) (by rfl) h4
  refine h5.trans (congrArg some ?_)
  show CreateIntCast 16 8 false (CreateSelect (CreateICmpULT (CreateAdd 16 x y) 255)
    (CreateAdd 16 x y) 255) = vqaddu 8 x y
  rw [CreateSelect_ult]
  unfold CreateIntCast CreateAdd vqaddu
  simp only [Nat.reducePow, Nat.reduceLeDiff, Nat.reduceSub, if_true]
  split_ifs <;> omega

theorem saturating_add_u8_value_witness :
    lane_value (env2 250 20)
        (.Cast (UInt_ 8 8)
          (saturating_add_u8 (.Variable (UInt_ 8 8) "a") (.Variable (UInt_ 8 8) "b")))
      = some 255 ∧
    CreateAdd 8 250 20 = 14 :=
  ⟨(saturating_add_u8_value 0 (env2 250 20) (.Variable (UInt_ 8 8) "a")
      (.Variable (UInt_ 8 8) "b") 250 20 rfl rfl rfl rfl (by decide) (by decide)).2.1, rfl⟩

theorem saturating_sub_u8_selected (fuel : Nat) (a b : Expr)
    (ha : a.type = UInt_ 8 8) (hb : b.type = UInt_ 8 8) :
    visit_Cast fuel (UInt_ 8 8) (saturating_sub_u8 a b)
      = some (.call_intrin 53 (UInt_ 8 8) "vqsubu.v8i8" [a, b]) := by
  have h := visit_Cast_fill fuel (holes2 a b) ["a", "b"] (holes2_support a b) (UInt_ 8 8)
    (saturating_sub_u8 (.Variable (UInt_ 8 8) "a") (.Variable (UInt_ 8 8) "b")) 53 _
    [.Variable (UInt_ 8 8) "a", .Variable (UInt_ 8 8) "b"] rfl rfl rfl rfl rfl
  simp only [saturating_sub_u8, clamp, fill_holes_Max, fill_holes_Min, fill_holes_Sub,
    fill_holes_Cast, fill_holes_const, fill_hole_a a b _ ha, fill_hole_b a b _ hb,
    List.map] at h
  exact h

/-- The signed 16-bit difference of two zero-extended 8-bit lanes is their
difference: the intermediate does not overflow. -/
theorem sub_i16_of_u8 (x y : Nat) (hx : x < 256) (hy : y < 256) :
    toSigned 16 (CreateSub 16 x y) = (x : Int) - (y : Int) := by
  unfold CreateSub
  exact toSigned_ofInt 16 _ (by norm_num) (by norm_num; omega) (by norm_num; omega)

/-- C16: on operands of type `UInt(8, 8)` whose lanes hold `x` and `y`, the
`Cast` handler replaces `cast<u8>(clamp(i16(a) - i16(b), 0, 255))` by
`vqsubu.v8i8` on the two operands; the signed 16-bit difference is `x - y`
without overflow, and the value of the tree is the result of that instruction,
`max(x - y, 0)`. -/
theorem saturating_sub_u8_value (fuel : Nat) (env : String → Nat) (a b : Expr) (x y : Nat)
    (ha : a.type = UInt_ 8 8) (hb : b.type = UInt_ 8 8)
    (hx : lane_value env a = some x) (hy : lane_value env b = some y)
    (hx8 : x < 256) (hy8 : y < 256) :
    visit_Cast fuel (UInt_ 8 8) (saturating_sub_u8 a b)
      = some (.call_intrin 53 (UInt_ 8 8) "vqsubu.v8i8" [a, b]) ∧
    lane_value env (.Sub (.Cast (Int_ 16 8) a) (.Cast (Int_ 16 8) b))
      = some (CreateSub 16 x y) ∧
    toSigned 16 (CreateSub 16 x y) = (x : Int) - (y : Int) ∧
    lane_value env (.Cast (UInt_ 8 8) (saturating_sub_u8 a b)) = some (vqsubu x y) ∧
    (vqsubu x y : Int) = max ((x : Int) - (y : Int)) 0 := by
  have e1 : CreateIntCast (UInt_ 8 8).bits (Int_ 16 8).bits (UInt_ 8 8).is_int x = x :=
    CreateIntCast_zext 8 16 x (by norm_num)
  have e2 : CreateIntCast (UInt_ 8 8).bits (Int_ 16 8).bits (UInt_ 8 8).is_int y = y :=
    CreateIntCast_zext 8 16 y (by norm_num)
  have h1 := lane_value_Cast env (Int_ 16 8) a x rfl (by rw [ha]; rfl) hx
  have h2 := lane_value_Cast env (Int_ 16 8) b y rfl (by rw [hb]; rfl) hy
  rw [ha, e1] at h1
  rw [hb, e2] at h2
  have h3 := lane_value_Sub env _ _ _ _ (by rfl) h1 h2
  have hd := sub_i16_of_u8 x y hx8 hy8
  have hc255 : lane_value env (cast (Int_ 16 8) (.IntImm 255)) = some 255 := rfl
  have hc0 : lane_value env (cast (Int_ 16 8) (.IntImm 0)) = some 0 := rfl
  have h4 := lane_value_Min env _ _ _ _ (by rfl) h3 hc255
  have h5 := lane_value_Max env _ _ _ _ (by rfl) h4 hc0
  have h6 := lane_value_Cast env (UInt_ 8 8) _ _ (by rfl) (by rfl) h5
  refine ⟨saturating_sub_u8_selected fuel a b ha hb, h3, hd, h6.trans (congrArg some ?_), ?_⟩
  · show CreateIntCast 16 8 true (CreateSelect (CreateICmpSLT 16 0
        (CreateSelect (CreateICmpSLT 16 (CreateSub 16 x y) 255) (CreateSub 16 x y) 255))
        (CreateSelect (CreateICmpSLT 16 (CreateSub 16 x y) 255) (CreateSub 16 x y) 255) 0)
      = vqsubu x y
    have h255 : toSigned 16 255 = 255 := by decide
    have h0 : toSigned 16 0 = 0 := by decide
    have hsub : ((CreateSub 16 x y : Nat) : Int) = ((x : Int) - (y : Int)) % 65536 := by
      unfold CreateSub
      exact ofInt_cast 16 _
    rw [CreateSelect_slt, CreateSelect_slt, hd, h255, h0]
    unfold CreateIntCast vqsubu
    simp only [Nat.reducePow, Nat.reduceLeDiff, if_true]
    clear h1 h2 h3 h4 h5 h6 e1 e2 hc255 hc0
    by_cases hlt : x < y
    · have hm : (if (x : Int) - y < 255 then CreateSub 16 x y else 255) = CreateSub 16 x y :=
        if_pos (by omega)
      simp only [hm, hd]
      rw [if_neg (by omega), if_pos hlt]
    · rw [if_neg hlt]
      by_cases h255' : (x : Int) - y < 255
      · have hm : (if (x : Int) - y < 255 then CreateSub 16 x y else 255) = CreateSub 16 x y :=
          if_pos h255'
        simp only [hm, hd]
        by_cases hz : (0 : Int) < x - y
        · rw [if_pos hz]; omega
        · rw [if_neg hz]; omega
      · have hm : (if (x : Int) - y < 255 then CreateSub 16 x y else 255) = 255 :=
          if_neg h255'
        simp only [hm, h255]
        rw [if_pos (by norm_num)]
        omega
  · unfold vqsubu
    split
    · rw [max_eq_right (by omega)]; rfl
    · rw [max_eq_left (by omega)]; omega

theorem saturating_sub_u8_value_witness :
    lane_value (env2 20 250)
        (.Cast (UInt_ 8 8)
          (saturating_sub_u8 (.Variable (UInt_ 8 8) "a") (.Variable (UInt_ 8 8) "b")))
      = some 0 ∧
    toSigned 16 (CreateSub 16 20 250) = -230 :=
  ⟨(saturating_sub_u8_value 0 (env2 20 250) (.Variable (UInt_ 8 8) "a")
      (.Variable (UInt_ 8 8) "b") 20 250 rfl rfl rfl rfl (by decide) (by decide)).2.2.2.1,
   (saturating_sub_u8_value 0 (env2 20 250) (.Variable (UInt_ 8 8) "a")
      (.Variable (UInt_ 8 8) "b") 20 250 rfl rfl rfl rfl (by decide) (by decide)).2.2.1⟩

/-! ## Rounding and truncating averages -/

theorem rounding_average_fill (fuel : Nat) (T W : HalideType) (a b : Expr) (k : Nat)
    (name : String) (pat : Expr) (ha : a.type = T) (hb : b.type = T)
    (hk : visit_Cast_patterns.get? k = some (visit_Cast_Pattern.mk name pat false))
    (hT : pat.type = T)
    (hpre : ((visit_Cast_patterns.take k).all fun p =>
      hole_safe ["a", "b"] p.pattern
          (.Cast T (rounding_average W (.Variable T "a") (.Variable T "b"))) &&
        (expr_match p.pattern
          (.Cast T (rounding_average W (.Variable T "a") (.Variable T "b")))).isNone) = true)
    (hsafe : hole_safe ["a", "b"] pat
      (.Cast T (rounding_average W (.Variable T "a") (.Variable T "b"))) = true)
    (hm : expr_match pat
        (.Cast T (rounding_average W (.Variable T "a") (.Variable T "b")))
      = some [.Variable T "a", .Variable T "b"]) :
    visit_Cast fuel T (rounding_average W a b) = some (.call_intrin k T name [a, b]) := by
  have h := visit_Cast_fill fuel (holes2 a b) ["a", "b"] (holes2_support a b) T
    (rounding_average W (.Variable T "a") (.Variable T "b")) k _ _ hk hpre hsafe rfl hm
  rw [hT] at h
  simp only [rounding_average, div_int, add_int, fill_holes_Div, fill_holes_Add,
    fill_holes_Cast, fill_holes_const, fill_hole_a a b _ ha, fill_hole_b a b _ hb,
    List.map] at h
  exact h

theorem truncating_average_fill (fuel : Nat) (T W : HalideType) (a b : Expr) (k : Nat)
    (name : String) (pat : Expr) (ha : a.type = T) (hb : b.type = T)
    (hk : visit_Cast_patterns.get? k = some (visit_Cast_Pattern.mk name pat false))
    (hT : pat.type = T)
    (hpre : ((visit_Cast_patterns.take k).all fun p =>
      hole_safe ["a", "b"] p.pattern
          (.Cast T (truncating_average W (.Variable T "a") (.Variable T "b"))) &&
        (expr_match p.pattern
          (.Cast T (truncating_average W (.Variable T "a") (.Variable T "b")))).isNone) = true)
    (hsafe : hole_safe ["a", "b"] pat
      (.Cast T (truncating_average W (.Variable T "a") (.Variable T "b"))) = true)
    (hm : expr_match pat
        (.Cast T (truncating_average W (.Variable T "a") (.Variable T "b")))
      = some [.Variable T "a", .Variable T "b"]) :
    visit_Cast fuel T (truncating_average W a b) = some (.call_intrin k T name [a, b]) := by
  have h := visit_Cast_fill fuel (holes2 a b) ["a", "b"] (holes2_support a b) T
    (truncating_average W (.Variable T "a") (.Variable T "b")) k _ _ hk hpre hsafe rfl hm
  rw [hT] at h
  simp only [truncating_average, div_int, fill_holes_Div, fill_holes_Add,
    fill_holes_Cast, fill_holes_const, fill_hole_a a b _ ha, fill_hole_b a b _ hb,
    List.map] at h
  exact h

/-- C17: for each of the twelve narrow types `T` of the halving-add rows, with
wide type `W`, and all operands `a`, `b` of type `T`, the `Cast` handler selects
the rounding intrinsic `vrhadd` for `cast<T>((cast<W>(a) + cast<W>(b) + 1) / 2)`
and the truncating intrinsic `vhadd` for `cast<T>((cast<W>(a) + cast<W>(b)) / 2)`,
each on the operands `a` and `b`; the two intrinsics differ. -/
theorem halving_add_selection (fuel k : Nat) (T W : HalideType) (rh vh : String) (a b : Expr)
    (hk : halving_add_rows.get? k = some (T, W, rh, vh))
    (ha : a.type = T) (hb : b.type = T) :
    visit_Cast fuel T (rounding_average W a b) = some (.call_intrin (8 + k) T rh [a, b]) ∧
    visit_Cast fuel T (truncating_average W a b) = some (.call_intrin (20 + k) T vh [a, b]) ∧
    rh ≠ vh := by
  have hlt : k < 12 := by
    by_contra hc
    have hlen : halving_add_rows.length ≤ k := by
      show 12 ≤ k
      omega
    rw [List.get?_eq_none.2 hlen] at hk
    exact absurd hk (by simp)
  interval_cases k
  all_goals
    simp only [halving_add_rows, List.get?, Option.some.injEq, Prod.mk.injEq] at hk
    obtain ⟨rfl, rfl, rfl, rfl⟩ := hk
    refine ⟨?_, ?_, by decide⟩
    · exact rounding_average_fill fuel _ _ a b _ _ _ ha hb (by rfl) (by rfl) (by rfl) (by rfl)
        (by rfl)
    · exact truncating_average_fill fuel _ _ a b _ _ _ ha hb (by rfl) (by rfl) (by rfl) (by rfl)
        (by rfl)

theorem halving_add_selection_witness :
    visit_Cast 0 (UInt_ 8 8)
        (rounding_average (UInt_ 16 8) (.Variable (UInt_ 8 8) "p") (.Variable (UInt_ 8 8) "q"))
      = some (.call_intrin 9 (UInt_ 8 8) "vrhaddu.v8i8"
          [.Variable (UInt_ 8 8) "p", .Variable (UInt_ 8 8) "q"]) ∧
    visit_Cast 0 (UInt_ 8 8)
        (truncating_average (UInt_ 16 8) (.Variable (UInt_ 8 8) "p") (.Variable (UInt_ 8 8) "q"))
      = some (.call_intrin 21 (UInt_ 8 8) "vhaddu.v8i8"
          [.Variable (UInt_ 8 8) "p", .Variable (UInt_ 8 8) "q"]) :=
  ⟨(halving_add_selection 0 1 (UInt_ 8 8) (UInt_ 16 8) "vrhaddu.v8i8" "vhaddu.v8i8"
      (.Variable (UInt_ 8 8) "p") (.Variable (UInt_ 8 8) "q") rfl rfl rfl).1,
   (halving_add_selection 0 1 (UInt_ 8 8) (UInt_ 16 8) "vrhaddu.v8i8" "vhaddu.v8i8"
      (.Variable (UInt_ 8 8) "p") (.Variable (UInt_ 8 8) "q") rfl rfl rfl).2.1⟩

/-! ## Narrowing add and subtract -/

/-- The high half of a lane of `2 * w` bits, as the unsigned division by
`2 ^ w` followed by the truncating cast computes it. -/
theorem high_half_unsigned (w s : Nat) (hs : s < 2 ^ (2 * w)) :
    CreateUDiv (2 * w) s (2 ^ w) = some (s / 2 ^ w) ∧
    CreateIntCast (2 * w) w false (s / 2 ^ w) = s / 2 ^ w := by
  constructor
  · unfold CreateUDiv
    rw [if_neg (by positivity)]
  · unfold CreateIntCast
    rw [if_pos (by omega)]
    apply Nat.mod_eq_of_lt
    rw [Nat.div_lt_iff_lt_mul (by positivity), ← pow_add]
    have : w + w = 2 * w := by omega
    rw [this]
    exact hs

/-- On unsigned 16-bit lanes the trees `cast<u8>((a + b) / 256)` and
`cast<u8>((a - b) / 256)` have the values of `vaddhn` and `vsubhn`. -/
theorem narrowing_u16_value (env : String → Nat) (a b : Expr) (x y : Nat)
    (ha : a.type = UInt_ 16 8) (hx : lane_value env a = some x)
    (hy : lane_value env b = some y) :
    lane_value env (.Cast (UInt_ 8 8) (narrowing_add a b 256)) = some (vaddhn 8 x y) ∧
    lane_value env (.Cast (UInt_ 8 8) (narrowing_sub a b 256)) = some (vsubhn 8 x y) := by
  have hc : lane_value env (cast (UInt_ 16 8) (.IntImm 256)) = some 256 := rfl
  have hf : a.type.is_float = false := by rw [ha]; rfl
  have hadd := lane_value_Add env a b x y hf hx hy
  have hsub := lane_value_Sub env a b x y hf hx hy
  rw [ha] at hadd hsub
  have hcA : lane_value env (cast (Expr.Add a b).type (.IntImm 256)) = some 256 := by
    show lane_value env (cast a.type (.IntImm 256)) = some 256
    rw [ha]; exact hc
  have hcS : lane_value env (cast (Expr.Sub a b).type (.IntImm 256)) = some 256 := by
    show lane_value env (cast a.type (.IntImm 256)) = some 256
    rw [ha]; exact hc
  have hltA : CreateAdd 16 x y < 2 ^ (2 * 8) := Nat.mod_lt _ (by norm_num)
  have hltS : CreateSub 16 x y < 2 ^ (2 * 8) := ofInt_lt 16 _
  constructor
  · have hdiv := lane_value_Div env (.Add a b) _ _ _ (by show a.type.is_float = false; exact hf)
      hadd hcA
    have hty : (Expr.Add a b).type = UInt_ 16 8 := ha
    rw [hty] at hdiv
    have htree : narrowing_add a b 256
        = (Expr.Add a b).Div (cast (UInt_ 16 8) (.IntImm 256)) := by
      unfold narrowing_add div_int
      rw [hty]
    have hdiv' : lane_value env (narrowing_add a b 256) = some (CreateAdd 16 x y / 2 ^ 8) := by
      rw [htree]
      exact hdiv.trans (high_half_unsigned 8 _ hltA).1
    have h := lane_value_Cast env (UInt_ 8 8) _ _ rfl
      (by show a.type.is_float = false; exact hf) hdiv'
    have hty2 : (narrowing_add a b 256).type = UInt_ 16 8 := ha
    rw [hty2] at h
    exact h.trans (congrArg some (high_half_unsigned 8 _ hltA).2)
  · have hdiv := lane_value_Div env (.Sub a b) _ _ _ (by show a.type.is_float = false; exact hf)
      hsub hcS
    have hty : (Expr.Sub a b).type = UInt_ 16 8 := ha
    rw [hty] at hdiv
    have htree : narrowing_sub a b 256
        = (Expr.Sub a b).Div (cast (UInt_ 16 8) (.IntImm 256)) := by
      unfold narrowing_sub div_int
      rw [hty]
    have hdiv' : lane_value env (narrowing_sub a b 256) = some (CreateSub 16 x y / 2 ^ 8) := by
      rw [htree]
      exact hdiv.trans (high_half_unsigned 8 _ hltS).1
    have h := lane_value_Cast env (UInt_ 8 8) _ _ rfl
      (by show a.type.is_float = false; exact hf) hdiv'
    have hty2 : (narrowing_sub a b 256).type = UInt_ 16 8 := ha
    rw [hty2] at h
    exact h.trans (congrArg some (high_half_unsigned 8 _ hltS).2)

/-- C18 (fails on the code): for signed 16-bit lanes the narrowing add is not
the value of the tree it replaces.  On `cast<int8>((a + b) / 256)` with
operands of type `Int(16, 8)` the handler selects `vaddhn.v8i8`; on the lanes
`a = -1`, `b = 0` the tree has the value `0`, the signed division truncating
toward zero, while `vaddhn` yields the high byte `0xff`, which is `-1`; the
same happens with `vsubhn.v8i8` on `a = 0`, `b = 1`. -/
theorem narrowing_add_signed_defect :
    (∀ fuel, visit_Cast fuel (Int_ 8 8)
        (narrowing_add (.Variable (Int_ 16 8) "a") (.Variable (Int_ 16 8) "b") 256)
      = some (.call_intrin 0 (Int_ 8 8) "vaddhn.v8i8"
          [.Variable (Int_ 16 8) "a", .Variable (Int_ 16 8) "b"])) ∧
    toSigned 16 65535 = -1 ∧
    lane_value (env2 65535 0) (.Cast (Int_ 8 8)
        (narrowing_add (.Variable (Int_ 16 8) "a") (.Variable (Int_ 16 8) "b") 256))
      = some 0 ∧
    vaddhn 8 65535 0 = 255 ∧
    toSigned 8 255 = -1 ∧
    (∀ fuel, visit_Cast fuel (Int_ 8 8)
        (narrowing_sub (.Variable (Int_ 16 8) "a") (.Variable (Int_ 16 8) "b") 256)
      = some (.call_intrin 4 (Int_ 8 8) "vsubhn.v8i8"
          [.Variable (Int_ 16 8) "a", .Variable (Int_ 16 8) "b"])) ∧
    lane_value (env2 0 1) (.Cast (Int_ 8 8)
        (narrowing_sub (.Variable (Int_ 16 8) "a") (.Variable (Int_ 16 8) "b") 256))
      = some 0 ∧
    vsubhn 8 0 1 = 255 := by
  refine ⟨fun _ => rfl, by decide, ?_, by decide, by decide, fun _ => rfl, ?_, by decide⟩
  · rfl
  · rfl

/-! ## The comparison handlers -/

theorem visit_compare_generic_iff (q d : String) (w : Nat) (a b : Expr) :
    visit_compare q d w a b = .generic ↔ ¬ compare_magnitude_condition a b := by
  unfold visit_compare
  split
  · next ta na xs tb nb ys =>
    constructor
    · intro h ⟨ta', tb', xs', ys', h1, h2, h3⟩
      injection h1 with e1 e2 e3
      injection h2 with e4 e5 e6
      subst e1 e2 e3 e4 e5 e6
      rcases h3 with h3 | h3
      · subst h3
        rw [if_pos ⟨rfl, rfl, rfl⟩] at h
        split at h <;> exact absurd h (by simp)
      · subst h3
        rw [if_neg (fun hc => absurd hc.1 (by decide)), if_pos ⟨rfl, rfl, rfl⟩] at h
        split at h <;> exact absurd h (by simp)
    · intro h
      split_ifs with h4 h2
      · exact absurd ⟨ta, tb, xs, ys, by rw [h4.2.1], by rw [h4.2.2], Or.inl h4.1⟩ h
      · exact absurd ⟨ta, tb, xs, ys, by rw [h2.2.1], by rw [h2.2.2], Or.inr h2.1⟩ h
      · rfl
  · next hne =>
    constructor
    · intro _ ⟨ta', tb', xs', ys', h1, h2, _⟩
      exact hne _ _ _ _ _ _ h1 h2
    · intro _
      rfl

/-- C19: when both operands are calls named `abs_f32` and the left call has
the type `Float(32, 4)` or `Float(32, 2)`, the `LT` handler calls `vacgtq` or
`vacgtd` and the `LE` handler `vacgeq` or `vacged`, with result type `Int(32, 4)`
or `Int(32, 2)`, first on the argument of the right call and then on the
argument of the left call, and compares the result not-equal to a zero vector;
the handlers delegate to the generic lowering exactly on the nodes that are not
of this shape. -/
theorem compare_magnitude_selection (ta tb : HalideType) (x y : Expr) (xs ys : List Expr)
    (hta : ta = Float_ 32 4 ∨ ta = Float_ 32 2) :
    visit_LT (.Call ta "abs_f32" (x :: xs)) (.Call tb "abs_f32" (y :: ys))
      = .vacg_ne_zero (Int_ 32 ta.width) (if ta.width = 4 then "vacgtq" else "vacgtd") y x
          ta.width ∧
    visit_LE (.Call ta "abs_f32" (x :: xs)) (.Call tb "abs_f32" (y :: ys))
      = .vacg_ne_zero (Int_ 32 ta.width) (if ta.width = 4 then "vacgeq" else "vacged") y x
          ta.width ∧
    (∀ a b : Expr, (visit_LT a b = .generic ↔ ¬ compare_magnitude_condition a b) ∧
      (visit_LE a b = .generic ↔ ¬ compare_magnitude_condition a b)) := by
  refine ⟨?_, ?_, fun a b => ⟨visit_compare_generic_iff _ _ _ a b,
    visit_compare_generic_iff _ _ _ a b⟩⟩
  · rcases hta with rfl | rfl <;> rfl
  · rcases hta with rfl | rfl <;> rfl

theorem compare_magnitude_selection_witness :
    visit_LT (.Call (Float_ 32 4) "abs_f32" [.Variable (Float_ 32 4) "p"])
        (.Call (Float_ 32 4) "abs_f32" [.Variable (Float_ 32 4) "q"])
      = .vacg_ne_zero (Int_ 32 4) "vacgtq" (.Variable (Float_ 32 4) "q")
          (.Variable (Float_ 32 4) "p") 4 ∧
    visit_LE (.Call (Float_ 32 2) "abs_f32" [.Variable (Float_ 32 2) "p"])
        (.Call (Float_ 32 2) "abs_f32" [.Variable (Float_ 32 2) "q"])
      = .vacg_ne_zero (Int_ 32 2) "vacged" (.Variable (Float_ 32 2) "q")
          (.Variable (Float_ 32 2) "p") 2 :=
  ⟨(compare_magnitude_selection (Float_ 32 4) (Float_ 32 4) (.Variable (Float_ 32 4) "p")
      (.Variable (Float_ 32 4) "q") [] [] (Or.inl rfl)).1,
   (compare_magnitude_selection (Float_ 32 2) (Float_ 32 2) (.Variable (Float_ 32 2) "p")
      (.Variable (Float_ 32 2) "q") [] [] (Or.inr rfl)).2.1⟩

/-! ## The `Mul` handler -/

/-- C20: for a multiplication whose right operand strips to the constant
`2 ^ k` (an `int`, so `k ≤ 30`) and whose left operand is a cast of `v` along one
of the six widening rows, the `Mul` handler calls the widening shift of that
row, `vshiftls` for a signed and `vshiftlu` for an unsigned type, on the operand
`v` of the cast with the shift amount `k` at the type of `v`; the chain of the
same-width shifts, which would shift the cast at the wide type, is not
reached. -/
theorem widening_shift_selection (n k : Nat) (N W : HalideType) (R : LLVMType) (name : String)
    (v b : Expr) (hrow : (N, W, R, name) ∈ widening_shift_rows) (hv : v.type = N)
    (hb : innermost b = .IntImm (2 ^ k)) (hk : k ≤ 30) :
    visit_Mul (n + 32) (.Cast W v) b
      = some (.call_intrin R name v (llvm_type_of N) (k : Int)) ∧
    some (visit_Mul_same_width true (.Cast W v) (llvm_type_of N) (k : Int))
      ≠ visit_Mul (n + 32) (.Cast W v) b := by
  have hp : is_const_power_of_two (n + 32) b = some (some (k : Int)) := by
    rw [is_const_power_of_two_innermost, hb]
    exact is_const_power_of_two_imm_pow n k hk
  have hsel : visit_Mul (n + 32) (.Cast W v) b
      = some (.call_intrin R name v (llvm_type_of N) (k : Int)) := by
    unfold visit_Mul
    rw [hp]
    simp only [widening_shift_rows, List.mem_cons, Prod.mk.injEq, List.mem_singleton,
      List.not_mem_nil, or_false] at hrow
    rcases hrow with ⟨rfl, rfl, rfl, rfl⟩ | ⟨rfl, rfl, rfl, rfl⟩ | ⟨rfl, rfl, rfl, rfl⟩ |
      ⟨rfl, rfl, rfl, rfl⟩ | ⟨rfl, rfl, rfl, rfl⟩ | ⟨rfl, rfl, rfl, rfl⟩ <;>
    simp [Expr.as_Cast, hv, Int_, UInt_]
  refine ⟨hsel, ?_⟩
  rw [hsel]
  intro h
  have h' := Option.some.inj h
  unfold visit_Mul_same_width at h'
  simp only [widening_shift_rows, List.mem_cons, Prod.mk.injEq, List.mem_singleton,
    List.not_mem_nil, or_false] at hrow
  rcases hrow with ⟨rfl, rfl, rfl, rfl⟩ | ⟨rfl, rfl, rfl, rfl⟩ | ⟨rfl, rfl, rfl, rfl⟩ |
    ⟨rfl, rfl, rfl, rfl⟩ | ⟨rfl, rfl, rfl, rfl⟩ | ⟨rfl, rfl, rfl, rfl⟩ <;>
  simp [Expr.type, Int_, UInt_] at h'

theorem widening_shift_selection_witness :
    visit_Mul 32 (.Cast (Int_ 16 8) (.Variable (Int_ 8 8) "x"))
        (.Broadcast (.Cast (Int_ 16 1) (.IntImm 4)) 8)
      = some (.call_intrin i16x8 "vshiftls.v8i16" (.Variable (Int_ 8 8) "x") i8x8 2) :=
  (widening_shift_selection 0 2 (Int_ 8 8) (Int_ 16 8) i16x8 "vshiftls.v8i16"
    (.Variable (Int_ 8 8) "x") (.Broadcast (.Cast (Int_ 16 1) (.IntImm 4)) 8)
    (by simp [widening_shift_rows]) rfl rfl (by norm_num)).1

/-! ## The answers of `is_const_power_of_two`, characterised -/

theorem is_const_power_of_two_not_imm (fuel : Nat) (e : Expr)
    (h : ∀ v, innermost e ≠ .IntImm v) : is_const_power_of_two fuel e = some none := by
  obtain ⟨hb, hc⟩ := innermost_not_wrapped e
  rw [is_const_power_of_two_innermost]
  cases hi : innermost e with
  | IntImm v => exact absurd hi (h v)
  | Broadcast v w => exact absurd hi (hb v w)
  | Cast t v => exact absurd hi (hc t v)
  | _ => rfl

/-- C29: with enough fuel for the loop, `is_const_power_of_two(e)` returns
`true` with `*bits = r` exactly when `e`, stripped of its broadcasts and casts,
is the immediate `2 ^ k` for some `k ≤ 30` and `r = k`; and it returns `false`,
writing nothing to `*bits`, exactly when the stripped expression is no
immediate or an immediate of at most `2 ^ 30` that is no power of two. -/
theorem is_const_power_of_two_characterised (n : Nat) (e : Expr) :
    (∀ r : Int, is_const_power_of_two (n + 32) e = some (some r) ↔
      ∃ k : Nat, k ≤ 30 ∧ innermost e = .IntImm (2 ^ k) ∧ r = (k : Int)) ∧
    (is_const_power_of_two (n + 32) e = some none ↔
      ∀ v, innermost e = .IntImm v → v ≤ 2 ^ 30 ∧ ∀ k : Nat, v ≠ 2 ^ k) := by
  refine ⟨fun r => ⟨fun h => ?_, fun h => ?_⟩, ⟨fun h v hv => ?_, fun h => ?_⟩⟩
  · obtain ⟨k, hk, hr, hi⟩ := (is_const_power_of_two_answer _ e _ h).1 r rfl
    exact ⟨k, hk, hi, hr⟩
  · obtain ⟨k, hk, hi, hr⟩ := h
    rw [is_const_power_of_two_innermost, hi, hr]
    exact is_const_power_of_two_imm_pow n k hk
  · refine ⟨?_, fun k hk => ?_⟩
    · by_contra hc
      rw [is_const_power_of_two_innermost, hv,
        is_const_power_of_two_imm_diverges _ v (lt_of_not_le hc)] at h
      exact absurd h (by simp)
    · rw [hk] at hv
      exact (is_const_power_of_two_answer _ e _ h).2 rfl k hv
  · by_cases hi : ∃ v, innermost e = .IntImm v
    · obtain ⟨v, hv⟩ := hi
      obtain ⟨h1, h2⟩ := h v hv
      rw [is_const_power_of_two_innermost, hv]
      exact is_const_power_of_two_imm_not_pow n v h1 h2
    · exact is_const_power_of_two_not_imm _ e (fun v hv => hi ⟨v, hv⟩)

theorem is_const_power_of_two_characterised_witness :
    is_const_power_of_two 32 (.Broadcast (.Cast (Int_ 16 1) (.IntImm 8)) 4) = some (some 3) ∧
    is_const_power_of_two 32 (.Broadcast (.Cast (Int_ 16 1) (.IntImm (-6))) 4) = some none :=
  ⟨((is_const_power_of_two_characterised 0
      (.Broadcast (.Cast (Int_ 16 1) (.IntImm 8)) 4)).1 3).2 ⟨3, by norm_num, rfl, rfl⟩,
   (is_const_power_of_two_characterised 0
      (.Broadcast (.Cast (Int_ 16 1) (.IntImm (-6))) 4)).2.2 (fun v hv => by
        have hv' : v = -6 := by
          simp only [innermost, Expr.IntImm.injEq] at hv
          exact hv.symm
        subst hv'
        refine ⟨by norm_num, fun k hk => ?_⟩
        have := two_pow_pos k
        omega)⟩

/-! ## The `Mul` handler when no shift rule applies -/

theorem visit_Mul_same_width_false (a : Expr) (st : LLVMType) (s : Int) :
    visit_Mul_same_width false a st s = .generic := by
  simp [visit_Mul_same_width]

/-- When `is_const_power_of_two` answers `false`, the handler delegates. -/
theorem visit_Mul_not_power_of_two (fuel : Nat) (a b : Expr)
    (h : is_const_power_of_two fuel b = some none) : visit_Mul fuel a b = some .generic := by
  unfold visit_Mul
  rw [h]
  simp only [Option.isSome_none, Option.getD_none]
  split
  · simp [visit_Mul_same_width_false]
  · rw [visit_Mul_same_width_false]

/-- When `is_const_power_of_two` returns and the left operand has a
floating-point type, the handler delegates. -/
theorem visit_Mul_float (fuel : Nat) (a b : Expr) (r : Option Int)
    (h : is_const_power_of_two fuel b = some r) (hf : a.type.is_float = true) :
    visit_Mul fuel a b = some .generic := by
  have hne : ∀ bits w, a.type ≠ Int_ bits w ∧ a.type ≠ UInt_ bits w := by
    intro bits w
    constructor <;> intro hc <;> rw [hc] at hf <;> simp [HalideType.is_float, Int_, UInt_] at hf
  have hsame : ∀ p st s, visit_Mul_same_width p a st s = .generic := by
    intro p st s
    simp [visit_Mul_same_width, hne]
  unfold visit_Mul
  rw [h]
  simp only []
  cases a with
  | Cast t v =>
    have ht : ∀ bits w, t ≠ Int_ bits w ∧ t ≠ UInt_ bits w := hne
    simp [Expr.as_Cast, ht, hsame]
  | _ => simp [Expr.as_Cast, hsame]

/-- C22 (fails on the code): the call of `is_const_power_of_two` that precedes
the delegation does not return when the right operand strips to an immediate
above `2 ^ 30`.  The `Int(32, 4)` multiplication `x * 1073741825` and the
floating-point multiplication of `x` by the cast of that constant match no
shift rule, the constant being no power of two, and the handler reaches no
result on them whatever bound is put on the loop. -/
theorem mul_fallback_defect :
    (∀ fuel, visit_Mul fuel (.Variable (Int_ 32 4) "x")
      (.Broadcast (.IntImm 1073741825) 4) = none) ∧
    (∀ fuel, visit_Mul fuel (.Variable (Float_ 32 4) "x")
      (.Broadcast (.Cast (Float_ 32 1) (.IntImm 1073741825)) 4) = none) ∧
    (∀ k : Nat, (1073741825 : Int) ≠ 2 ^ k) := by
  have hd : ∀ fuel, is_const_power_of_two fuel (.IntImm 1073741825) = none :=
    fun fuel => is_const_power_of_two_imm_diverges fuel _ (by norm_num)
  refine ⟨fun fuel => ?_, fun fuel => ?_, not_pow_of_between _ 30 (by norm_num) (by norm_num)⟩
  · unfold visit_Mul
    rw [is_const_power_of_two_innermost]
    simp only [innermost]
    rw [hd]
  · unfold visit_Mul
    rw [is_const_power_of_two_innermost]
    simp only [innermost]
    rw [hd]

/-! ## A shift is a multiplication by a power of two -/

theorem visit_Store_intrin_isSome (t : HalideType) :
    (visit_Store_intrin t).isSome = true ↔ t ∈ interleaved_types := by
  unfold interleaved_types
  simp only [List.mem_cons, List.mem_singleton, List.not_mem_nil, or_false]
  constructor
  · intro h
    by_contra hn
    simp only [not_or] at hn
    obtain ⟨n1, n2, n3, n4, n5, n6, n7, n8, n9, n10, n11, n12, n13, n14⟩ := hn
    simp [visit_Store_intrin, n1, n2, n3, n4, n5, n6, n7, n8, n9, n10, n11, n12, n13, n14] at h
  · intro h
    rcases h with rfl | rfl | rfl | rfl | rfl | rfl | rfl | rfl | rfl | rfl | rfl | rfl | rfl | rfl <;>
      rfl

/-- C27: a store at a ramp of stride one of a call named `interleave vectors`
whose number of arguments is not two fails the assertion of line 768: neither an
interleaving store nor the generic store is emitted. -/
theorem store_interleave_arity (name : String) (base stride : Expr) (w : Nat) (t : HalideType)
    (args : List Expr) (h1 : is_one stride = true) (h2 : args.length ≠ 2) :
    visit_Store name (.Call t "interleave vectors" args) (.Ramp base stride w)
      = .assertion_failed := by
  unfold visit_Store
  simp only [h1, true_and, if_true]
  match args, h2 with
  | [], _ => rfl
  | [_], _ => rfl
  | [_, _], h => exact absurd rfl h
  | _ :: _ :: _ :: _, _ => rfl

theorem store_interleave_arity_witness :
    visit_Store "buf"
        (.Call (Int_ 8 16) "interleave vectors" [.Variable (Int_ 8 8) "a"])
        (.Ramp (.Variable (Int_ 32 1) "i") (.IntImm 1) 16)
      = .assertion_failed :=
  store_interleave_arity "buf" (.Variable (Int_ 32 1) "i") (.IntImm 1) 16 (Int_ 8 16)
    [.Variable (Int_ 8 8) "a"] rfl (by decide)

/-- C26 (fails on the code): a store at a ramp of stride one of a call named
`interleave vectors` with a single argument is neither turned into an
interleaving store nor delegated: the assertion fails. -/
theorem store_interleave_counterexample :
    visit_Store "buf"
        (.Call (Int_ 8 16) "interleave vectors" [.Variable (Int_ 8 8) "a"])
        (.Ramp (.Variable (Int_ 32 1) "i") (.IntImm 1) 16)
      = .assertion_failed ∧
    StoreLowering.assertion_failed ≠ StoreLowering.generic :=
  ⟨rfl, by simp⟩

/-- C26 (as amended): the handler calls an interleaving store exactly when the
index is a ramp whose stride is the constant one, the value is a call named
`interleave vectors` with two arguments, and the type of the first argument is
one of the supported vector types; the call then receives the pointer to the
base of the ramp in the stored buffer, the two arguments in order, and the
alignment `bits / 8` of the type of the first argument.  Every other store,
apart from those whose value is such a call with another number of arguments
at such a ramp, is delegated to the generic lowering. -/
theorem store_interleave_selection (name : String) (value index : Expr) :
    (∀ intrin nm elem base a0 a1 align,
      visit_Store name value index = .vst2 intrin nm elem base a0 a1 align ↔
        ∃ stride w t, index = .Ramp base stride w ∧ is_one stride = true ∧
          value = .Call t "interleave vectors" [a0, a1] ∧ a0.type ∈ interleaved_types ∧
          visit_Store_intrin a0.type = some intrin ∧ nm = name ∧ elem = t.element_of ∧
          align = a0.type.bits / 8) ∧
    ((¬ ∃ base stride w t a0 a1, index = .Ramp base stride w ∧ is_one stride = true ∧
          value = .Call t "interleave vectors" [a0, a1] ∧ a0.type ∈ interleaved_types) →
      (¬ ∃ base stride w t args, index = .Ramp base stride w ∧ is_one stride = true ∧
          value = .Call t "interleave vectors" args ∧ args.length ≠ 2) →
      visit_Store name value index = .generic) := by
  constructor
  · intro intrin nm elem base a0 a1 align
    constructor
    · intro h
      unfold visit_Store at h
      split at h
      · next rb rs rw ct cn cargs =>
        split at h
        · next hc =>
          obtain ⟨hone, hname⟩ := hc
          split at h
          · next x0 x1 =>
            simp only [] at h
            split at h
            · next i hi =>
              simp only [StoreLowering.vst2.injEq] at h
              obtain ⟨e1, e2, e3, e4, e5, e6, e7⟩ := h
              subst e1 e2 e3 e4 e5 e6 e7 hname
              exact ⟨rs, rw, ct, rfl, hone, rfl,
                (visit_Store_intrin_isSome _).1 (by rw [hi]; rfl), hi, rfl, rfl, rfl⟩
            · exact absurd h (by simp)
          · exact absurd h (by simp)
        · exact absurd h (by simp)
      · exact absurd h (by simp)
    · rintro ⟨stride, w, t, rfl, hone, rfl, _, hi, rfl, rfl, rfl⟩
      unfold visit_Store
      simp only [hone, true_and, if_true, hi]
  · intro h1 h2
    unfold visit_Store
    split
    · next rb rs rw ct cn cargs =>
      split
      · next hc =>
        obtain ⟨hone, hname⟩ := hc
        subst hname
        split
        · next x0 x1 =>
          simp only []
          split
          · next i hi =>
            exact absurd ⟨rb, rs, rw, ct, x0, x1, rfl, hone, rfl,
              (visit_Store_intrin_isSome _).1 (by rw [hi]; rfl)⟩ h1
          · rfl
        · next hargs =>
          refine absurd ⟨rb, rs, rw, ct, cargs, rfl, hone, rfl, ?_⟩ h2
          intro hlen
          match cargs, hlen, hargs with
          | [y0, y1], _, hargs => exact hargs y0 y1 rfl
      · rfl
    · rfl

theorem store_interleave_selection_witness :
    visit_Store "buf"
        (.Call (Int_ 8 16) "interleave vectors"
          [.Variable (Int_ 8 8) "a", .Variable (Int_ 8 8) "b"])
        (.Ramp (.Variable (Int_ 32 1) "i") (.IntImm 1) 16)
      = .vst2 "vst2.v8i8" "buf" (Int_ 8 1) (.Variable (Int_ 32 1) "i")
          (.Variable (Int_ 8 8) "a") (.Variable (Int_ 8 8) "b") 1 :=
  ((store_interleave_selection "buf" _ _).1 _ _ _ _ _ _ _).2
    ⟨.IntImm 1, 16, Int_ 8 16, rfl, rfl, rfl, by decide, rfl, rfl, rfl, rfl⟩

/-! ## The `Load` handler -/

theorem visit_Load_intrin_isSome (t : HalideType) :
    (visit_Load_intrin t).isSome = true ↔ t ∈ interleaved_types := by
  unfold interleaved_types
  simp only [List.mem_cons, List.mem_singleton, List.not_mem_nil, or_false]
  constructor
  · intro h
    by_contra hn
    simp only [not_or] at hn
    obtain ⟨n1, n2, n3, n4, n5, n6, n7, n8, n9, n10, n11, n12, n13, n14⟩ := hn
    simp [visit_Load_intrin, n1, n2, n3, n4, n5, n6, n7, n8, n9, n10, n11, n12, n13, n14] at h
  · intro h
    rcases h with rfl | rfl | rfl | rfl | rfl | rfl | rfl | rfl | rfl | rfl | rfl | rfl | rfl | rfl <;>
      rfl

/-- C28: a load whose index is no ramp of stride two, and a load of stride two
whose type is none of the supported vector types, is delegated to the generic
lowering. -/
theorem load_generic (modulus_remainder : Expr → ModulusRemainder) (simplify : Expr → Expr)
    (type : HalideType) (name : String) (index : Expr)
    (h : (∀ base stride w, index = .Ramp base stride w → is_two stride = false) ∨
      type ∉ interleaved_types) :
    visit_Load modulus_remainder simplify type name index = .generic := by
  unfold visit_Load
  split
  · next base stride w =>
    split
    · next hs =>
      rcases h with h | h
      · rw [h base stride w rfl] at hs
        exact absurd hs (by simp)
      · simp only []
        split
        · next i hi =>
          exact absurd ((visit_Load_intrin_isSome type).1 (by rw [hi]; rfl)) h
        · rfl
    · rfl
  · rfl

theorem load_generic_witness :
    visit_Load (fun _ => ⟨2, 1⟩) id (Int_ 8 8) "buf"
        (.Ramp (.Variable (Int_ 32 1) "i") (.IntImm 3) 8) = .generic ∧
    visit_Load (fun _ => ⟨2, 1⟩) id (Int_ 64 2) "buf"
        (.Ramp (.Variable (Int_ 32 1) "i") (.IntImm 2) 2) = .generic :=
  ⟨load_generic _ _ _ _ _ (Or.inl (fun base stride w h => by
      injection h with _ h2 _
      rw [← h2]
      rfl)),
   load_generic _ _ _ _ _ (Or.inr (by decide))⟩

/-- The state of the handler in the three cases of lines 816-833. -/
theorem visit_Load_state_cases (modulus_remainder : Expr → ModulusRemainder)
    (simplify : Expr → Expr) (base : Expr) :
    (proven_odd (modulus_remainder base) →
      (visit_Load_state modulus_remainder simplify base).odd = true ∧
      (visit_Load_state modulus_remainder simplify base).base = simplify (sub_int base 1) ∧
      (visit_Load_state modulus_remainder simplify base).mod_rem
        = ⟨(modulus_remainder base).modulus, (modulus_remainder base).remainder - 1⟩) ∧
    (¬ proven_odd (modulus_remainder base) → ends_in_one (modulus_remainder base) base →
      (visit_Load_state modulus_remainder simplify base).odd = true ∧
      (∃ a b, base = .Add a b ∧ (visit_Load_state modulus_remainder simplify base).base = a) ∧
      (visit_Load_state modulus_remainder simplify base).mod_rem = modulus_remainder base) ∧
    (¬ proven_odd (modulus_remainder base) → ¬ ends_in_one (modulus_remainder base) base →
      (visit_Load_state modulus_remainder simplify base).odd = false ∧
      (visit_Load_state modulus_remainder simplify base).base = base ∧
      (visit_Load_state modulus_remainder simplify base).mod_rem = modulus_remainder base) := by
  refine ⟨fun hp => ?_, fun hp he => ?_, fun hp he => ?_⟩
  · have hp' : (modulus_remainder base).remainder % 2 = 1 ∧
        ¬ (modulus_remainder base).modulus % 2 = 1 := hp
    unfold visit_Load_state visit_Load_round_down
    simp only [hp', not_false_eq_true, and_self, if_true]
    unfold visit_Load_strip_one
    split
    · simp
    · simp
  · have hp' : ¬ ((modulus_remainder base).remainder % 2 = 1 ∧
        ¬ (modulus_remainder base).modulus % 2 = 1) := hp
    obtain ⟨a, b, rfl, hb, hm⟩ := he
    unfold visit_Load_state visit_Load_round_down
    rw [if_neg hp']
    unfold visit_Load_strip_one
    simp only [hb, hm, and_self, if_true]
    exact ⟨trivial, ⟨a, b, rfl, rfl⟩, trivial⟩
  · have hp' : ¬ ((modulus_remainder base).remainder % 2 = 1 ∧
        ¬ (modulus_remainder base).modulus % 2 = 1) := hp
    unfold visit_Load_state visit_Load_round_down
    rw [if_neg hp']
    unfold visit_Load_strip_one
    split
    · next a b hab =>
      simp only [] at hab
      rw [if_neg]
      · exact ⟨rfl, rfl, rfl⟩
      · rintro ⟨_, hb, hm⟩
        exact he ⟨a, b, hab, hb, hm⟩
    · exact ⟨rfl, rfl, rfl⟩

theorem visit_Load_supported (modulus_remainder : Expr → ModulusRemainder)
    (simplify : Expr → Expr) (type : HalideType) (name : String) (base stride : Expr) (w : Nat)
    (hs : is_two stride = true) (ht : type ∈ interleaved_types) :
    ∃ intrin, visit_Load_intrin type = some intrin ∧
      visit_Load modulus_remainder simplify type name (.Ramp base stride w)
        = .vld2 intrin name type.element_of
            (visit_Load_state modulus_remainder simplify base).base
            (((type.bits / 8 : Nat) : Int) *
              gcd (gcd (visit_Load_state modulus_remainder simplify base).mod_rem.modulus
                (visit_Load_state modulus_remainder simplify base).mod_rem.remainder) 32)
            (if (visit_Load_state modulus_remainder simplify base).odd then 1 else 0) := by
  have hsome := (visit_Load_intrin_isSome type).2 ht
  cases hi : visit_Load_intrin type with
  | none => rw [hi] at hsome; exact absurd hsome (by simp)
  | some intrin =>
    refine ⟨intrin, rfl, ?_⟩
    unfold visit_Load
    simp only [hs, if_true, hi]

/-- C30: on a load of stride two of a supported vector type the handler
extracts lane set 1 from the load at `simplify(base - 1)` when the remainder of
the base is odd and its modulus even; failing that, it extracts lane set 1 from
the load at the left operand of the base when the base is a sum whose right
operand is the constant one and the modulus is odd; and in every other case it
extracts lane set 0 from the load at the base itself. -/
theorem load_odd_flag (modulus_remainder : Expr → ModulusRemainder) (simplify : Expr → Expr)
    (type : HalideType) (name : String) (base stride : Expr) (w : Nat)
    (hs : is_two stride = true) (ht : type ∈ interleaved_types) :
    ∃ intrin base' align idx,
      visit_Load modulus_remainder simplify type name (.Ramp base stride w)
        = .vld2 intrin name type.element_of base' align idx ∧
      (proven_odd (modulus_remainder base) → idx = 1 ∧ base' = simplify (sub_int base 1)) ∧
      (¬ proven_odd (modulus_remainder base) → ends_in_one (modulus_remainder base) base →
        idx = 1 ∧ ∃ a b, base = .Add a b ∧ base' = a) ∧
      (¬ proven_odd (modulus_remainder base) → ¬ ends_in_one (modulus_remainder base) base →
        idx = 0 ∧ base' = base) := by
  obtain ⟨intrin, _, hv⟩ := visit_Load_supported modulus_remainder simplify type name base
    stride w hs ht
  obtain ⟨c1, c2, c3⟩ := visit_Load_state_cases modulus_remainder simplify base
  refine ⟨intrin, _, _, _, hv, fun hp => ?_, fun hp he => ?_, fun hp he => ?_⟩
  · obtain ⟨h1, h2, _⟩ := c1 hp
    rw [h1]
    exact ⟨rfl, h2⟩
  · obtain ⟨h1, h2, _⟩ := c2 hp he
    rw [h1]
    exact ⟨rfl, h2⟩
  · obtain ⟨h1, h2, _⟩ := c3 hp he
    rw [h1]
    exact ⟨rfl, h2⟩

theorem load_odd_flag_witness :
    ∃ intrin base' align idx,
      visit_Load (fun _ => ⟨2, 1⟩) id (Int_ 8 8) "buf"
          (.Ramp (.Variable (Int_ 32 1) "i") (.IntImm 2) 8)
        = .vld2 intrin "buf" (Int_ 8 1) base' align idx ∧ idx = 1 ∧
      base' = sub_int (.Variable (Int_ 32 1) "i") 1 := by
  obtain ⟨intrin, base', align, idx, h, h1, _⟩ :=
    load_odd_flag (fun _ => ⟨2, 1⟩) id (Int_ 8 8) "buf" (.Variable (Int_ 32 1) "i")
      (.IntImm 2) 8 rfl (by decide)
  exact ⟨intrin, base', align, idx, h, h1 ⟨by decide, by decide⟩⟩

/-! ## The alignment operand -/

theorem gcd_odd_32 (m r : Int) (hm : m % 2 = 1) : gcd (gcd m r) 32 = 1 := by
  unfold gcd
  have hdvd : ((Int.gcd m r : Nat) : Int) ∣ m := Int.gcd_dvd_left
  have h32 : Int.gcd ((Int.gcd m r : Nat) : Int) 32 ∣ 32 := by
    have : ((Int.gcd ((Int.gcd m r : Nat) : Int) 32 : Nat) : Int) ∣ 32 := Int.gcd_dvd_right
    exact_mod_cast this
  have hg : ((Int.gcd ((Int.gcd m r : Nat) : Int) 32 : Nat) : Int) ∣ m :=
    Int.dvd_trans Int.gcd_dvd_left hdvd
  generalize Int.gcd ((Int.gcd m r : Nat) : Int) 32 = d at h32 hg
  have hle : d ≤ 32 := Nat.le_of_dvd (by norm_num) h32
  obtain ⟨c, hc⟩ := hg
  interval_cases d <;> first
    | rfl
    | (exfalso; omega)

/-- C25: the alignment operand of the deinterleaving load is
`(bits / 8) * gcd(gcd(modulus, remainder), 32)` for the alignment fact of the
base that is loaded from: the fact of the base of the ramp when lane set 0 is
extracted, and that fact with the remainder lowered by one when lane set 1 is
extracted, the load then being at the base minus one. -/
theorem load_alignment (modulus_remainder : Expr → ModulusRemainder) (simplify : Expr → Expr)
    (type : HalideType) (name : String) (base stride : Expr) (w : Nat)
    (intrin nm : String) (elem : HalideType) (base' : Expr) (align : Int) (idx : Nat)
    (h : visit_Load modulus_remainder simplify type name (.Ramp base stride w)
      = .vld2 intrin nm elem base' align idx) :
    align = ((type.bits / 8 : Nat) : Int) *
      gcd (gcd (modulus_remainder base).modulus
        (if idx = 1 then (modulus_remainder base).remainder - 1
          else (modulus_remainder base).remainder)) 32 := by
  have hs : is_two stride = true := by
    by_contra hc
    rw [load_generic _ _ _ _ _ (Or.inl (fun b s w' hr => by
      injection hr with _ h2 _
      rw [← h2]
      simpa using hc))] at h
    exact absurd h (by simp)
  have ht : type ∈ interleaved_types := by
    by_contra hc
    rw [load_generic _ _ _ _ _ (Or.inr hc)] at h
    exact absurd h (by simp)
  obtain ⟨i, _, hv⟩ := visit_Load_supported modulus_remainder simplify type name base
    stride w hs ht
  rw [hv] at h
  simp only [LoadLowering.vld2.injEq] at h
  obtain ⟨_, _, _, _, ha, hidx⟩ := h
  obtain ⟨c1, c2, c3⟩ := visit_Load_state_cases modulus_remainder simplify base
  rw [← ha, ← hidx]
  by_cases hp : proven_odd (modulus_remainder base)
  · obtain ⟨h1, _, h3⟩ := c1 hp
    rw [h1, h3]
    simp
  · by_cases he : ends_in_one (modulus_remainder base) base
    · obtain ⟨h1, _, h3⟩ := c2 hp he
      obtain ⟨_, _, _, _, hm⟩ := he
      rw [h1, h3]
      simp only [if_true]
      rw [gcd_odd_32 _ _ hm, gcd_odd_32 _ _ hm]
    · obtain ⟨h1, _, h3⟩ := c3 hp he
      rw [h1, h3]
      simp

theorem load_alignment_witness :
    visit_Load (fun _ => ⟨8, 5⟩) id (Int_ 16 4) "buf"
        (.Ramp (.Variable (Int_ 32 1) "i") (.IntImm 2) 4)
      = .vld2 "vld2.v4i16" "buf" (Int_ 16 1) (sub_int (.Variable (Int_ 32 1) "i") 1) 8 1 ∧
    (8 : Int) = ((16 / 8 : Nat) : Int) * gcd (gcd 8 (5 - 1)) 32 :=
  ⟨rfl, load_alignment (fun _ => ⟨8, 5⟩) id (Int_ 16 4) "buf" (.Variable (Int_ 32 1) "i")
    (.IntImm 2) 4 "vld2.v4i16" "buf" (Int_ 16 1) (sub_int (.Variable (Int_ 32 1) "i") 1) 8 1 rfl⟩

/-! ## Memory and the interleaving instructions -/

theorem load_consecutive_succ_succ (mem : Int → Nat) (i : Int) (n : Nat) :
    load_consecutive mem i (n + 2) = mem i :: mem (i + 1) :: load_consecutive mem (i + 2) n := by
  unfold load_consecutive
  rw [List.range_succ_eq_map, List.map_cons, List.range_succ_eq_map, List.map_cons,
    List.map_cons, List.map_map, List.map_map]
  refine congrArg₂ _ (by simp) (congrArg₂ _ (by simp) ?_)
  apply List.map_congr_left
  intro j _
  simp only [Function.comp, Nat.succ_eq_add_one]
  congr 1
  push_cast
  ring

theorem strided_load_succ (mem : Int → Nat) (i : Int) (n : Nat) :
    strided_load mem i (n + 1) = mem i :: strided_load mem (i + 2) n := by
  unfold strided_load
  rw [List.range_succ_eq_map, List.map_cons, List.map_map]
  refine congrArg₂ _ (by simp) ?_
  apply List.map_congr_left
  intro j _
  simp only [Function.comp, Nat.succ_eq_add_one]
  congr 1
  push_cast
  ring

/-- The two lane sets of `vld2` are the two loads of stride two. -/
theorem vld2_lanes (mem : Int → Nat) (i : Int) (n : Nat) :
    vld2 mem i n = (strided_load mem i n, strided_load mem (i + 1) n) := by
  induction n generalizing i with
  | zero => rfl
  | succ n ih =>
    have ih' := ih (i + 2)
    unfold vld2 at ih' ⊢
    have h2 : 2 * (n + 1) = 2 * n + 2 := by ring
    rw [h2, load_consecutive_succ_succ, deinterleave, ih', strided_load_succ,
      strided_load_succ]
    have h3 : i + 1 + 2 = i + 2 + 1 := by ring
    rw [h3]

theorem interleave_length (a b : List Nat) (h : a.length = b.length) :
    (interleave a b).length = 2 * a.length := by
  induction a generalizing b with
  | nil => cases b <;> simp [interleave]
  | cons x xs ih =>
    cases b with
    | nil => simp at h
    | cons y ys =>
      simp only [interleave, List.length_cons] at h ⊢
      rw [ih ys (by omega)]
      ring

theorem interleave_getD_even (a b : List Nat) (h : a.length = b.length) (k : Nat) :
    (interleave a b).getD (2 * k) 0 = a.getD k 0 := by
  induction a generalizing b k with
  | nil => cases b <;> simp [interleave]
  | cons x xs ih =>
    cases b with
    | nil => simp at h
    | cons y ys =>
      cases k with
      | zero => simp [interleave]
      | succ k =>
        have h2 : 2 * (k + 1) = 2 * k + 1 + 1 := by ring
        simp only [interleave, List.length_cons] at h ⊢
        rw [h2, List.getD_cons_succ, List.getD_cons_succ, List.getD_cons_succ]
        exact ih ys (by omega) k

theorem interleave_getD_odd (a b : List Nat) (h : a.length = b.length) (k : Nat) :
    (interleave a b).getD (2 * k + 1) 0 = b.getD k 0 := by
  induction a generalizing b k with
  | nil =>
    cases b with
    | nil => simp [interleave]
    | cons y ys => simp at h
  | cons x xs ih =>
    cases b with
    | nil => simp at h
    | cons y ys =>
      cases k with
      | zero => simp [interleave]
      | succ k =>
        have h2 : 2 * (k + 1) + 1 = 2 * k + 1 + 1 + 1 := by ring
        simp only [interleave, List.length_cons] at h ⊢
        rw [h2, List.getD_cons_succ, List.getD_cons_succ, List.getD_cons_succ]
        exact ih ys (by omega) k

theorem map_getD_range (a : List Nat) :
    (List.range a.length).map (fun k => a.getD k 0) = a := by
  apply List.ext_getElem
  · simp
  · intro k h1 h2
    simp [h2]

/-- Reading with stride two at the place of an interleaved store gives back the
first vector, and one element further the second. -/
theorem strided_load_vst2 (mem : Int → Nat) (i : Int) (a b : List Nat)
    (h : a.length = b.length) :
    strided_load (vst2 mem i a b) i a.length = a ∧
    strided_load (vst2 mem i a b) (i + 1) a.length = b := by
  have hl := interleave_length a b h
  constructor
  · conv_rhs => rw [← map_getD_range a]
    unfold strided_load
    apply List.map_congr_left
    intro k hk
    have hk' : k < a.length := List.mem_range.1 hk
    unfold vst2 store_consecutive
    rw [if_pos (by rw [hl]; constructor <;> omega)]
    have : (i + 2 * (k : Int) - i).toNat = 2 * k := by
      have : i + 2 * (k : Int) - i = ((2 * k : Nat) : Int) := by push_cast; ring
      rw [this, Int.toNat_ofNat]
    rw [this]
    exact interleave_getD_even a b h k
  · conv_rhs => rw [← map_getD_range b]
    rw [h]
    unfold strided_load
    apply List.map_congr_left
    intro k hk
    have hk' : k < b.length := List.mem_range.1 hk
    unfold vst2 store_consecutive
    rw [if_pos (by rw [hl]; constructor <;> omega)]
    have : (i + 1 + 2 * (k : Int) - i).toNat = 2 * k + 1 := by
      have : i + 1 + 2 * (k : Int) - i = ((2 * k + 1 : Nat) : Int) := by push_cast; ring
      rw [this, Int.toNat_ofNat]
    rw [this]
    exact interleave_getD_odd a b h k

/-! ## The value of the rewritten base -/

theorem index_value_sub_one (env : String → Nat) (base : Expr) (b : Int)
    (ht : base.type = Int_ 32 1) (hb : index_value env base = some b)
    (hlo : -(2 : Int) ^ 31 < b) :
    index_value env (sub_int base 1) = some (b - 1) := by
  unfold index_value at hb ⊢
  cases hx : lane_value env base with
  | none => rw [hx] at hb; exact absurd hb (by simp)
  | some x =>
    rw [hx] at hb
    simp only [Option.map_some', Option.some.injEq] at hb
    have hc : sub_int base 1 = .Sub base (.IntImm 1) := by
      unfold sub_int
      rw [ht]
      rfl
    have hf : base.type.is_float = false := by rw [ht]; rfl
    have hbits : base.type.bits = 32 := by rw [ht]; rfl
    rw [hc, lane_value_Sub env base (.IntImm 1) x (ofInt 32 1) hf hx rfl, hbits]
    simp only [Option.map_some', Option.some.injEq]
    have hxlt : x % 2 ^ 32 < 2 ^ 32 := Nat.mod_lt _ (by positivity)
    have hr := toSigned_range 32 (x % 2 ^ 32) (by decide) hxlt
    rw [hb] at hr
    have he := toSigned_emod 32 (x % 2 ^ 32)
    rw [hb] at he
    have h1 : CreateSub 32 x (ofInt 32 1) = ofInt 32 (b - 1) := by
      unfold CreateSub
      apply ofInt_congr
      have h11 : ((ofInt 32 1 : Nat) : Int) = 1 := by rfl
      rw [h11, Int.sub_emod, Int.sub_emod b, he]
      congr 2
      push_cast
      simp
    rw [h1, Nat.mod_eq_of_lt (ofInt_lt 32 _)]
    exact toSigned_ofInt 32 (b - 1) (by decide) (by simp only [Nat.add_one_sub_one] at hr ⊢; omega)
      (by simp only [Nat.add_one_sub_one] at hr ⊢; omega)

theorem index_value_add_one (env : String → Nat) (base : Expr) (b : Int)
    (ht : base.type = Int_ 32 1) (hb : index_value env base = some b)
    (hhi : b + 1 < (2 : Int) ^ 31) :
    index_value env (add_int base 1) = some (b + 1) := by
  unfold index_value at hb ⊢
  cases hx : lane_value env base with
  | none => rw [hx] at hb; exact absurd hb (by simp)
  | some x =>
    rw [hx] at hb
    simp only [Option.map_some', Option.some.injEq] at hb
    have hc : add_int base 1 = .Add base (.IntImm 1) := by
      unfold add_int
      rw [ht]
      rfl
    have hf : base.type.is_float = false := by rw [ht]; rfl
    have hbits : base.type.bits = 32 := by rw [ht]; rfl
    rw [hc, lane_value_Add env base (.IntImm 1) x (ofInt 32 1) hf hx rfl, hbits]
    simp only [Option.map_some', Option.some.injEq]
    have h11 : ofInt 32 1 = 1 := by rfl
    rw [h11]
    unfold CreateAdd
    unfold toSigned at hb ⊢
    simp only [Nat.reducePow, Nat.reduceSub, Int.reducePow, Nat.add_one_sub_one] at hb hhi ⊢
    split_ifs at hb ⊢ <;> omega

theorem index_value_strip_one (env : String → Nat) (a b1 : Expr) (b : Int)
    (ht : (Expr.Add a b1).type = Int_ 32 1) (hb : index_value env (.Add a b1) = some b)
    (hone : lane_value env b1 = some 1) (hlo : -(2 : Int) ^ 31 < b) :
    index_value env a = some (b - 1) := by
  have ht' : a.type = Int_ 32 1 := ht
  have hf : a.type.is_float = false := by rw [ht']; rfl
  have hbits : a.type.bits = 32 := by rw [ht']; rfl
  unfold index_value at hb ⊢
  cases hx : lane_value env a with
  | none =>
    simp [lane_value, hf, hx] at hb
  | some x =>
    rw [lane_value_Add env a b1 x 1 hf hx hone, hbits] at hb
    simp only [Option.map_some', Option.some.injEq] at hb ⊢
    unfold CreateAdd at hb
    unfold toSigned at hb ⊢
    simp only [Nat.reducePow, Nat.reduceSub, Int.reducePow, Nat.add_one_sub_one] at hb hlo ⊢
    split_ifs at hb ⊢ <;> omega

/-- The base the handler loads from has the value of the base of the ramp, or
one less when the odd flag is set. -/
theorem visit_Load_state_value (modulus_remainder : Expr → ModulusRemainder)
    (simplify : Expr → Expr) (env : String → Nat) (base : Expr) (b : Int)
    (ht : base.type = Int_ 32 1) (hb : index_value env base = some b)
    (hlo : -(2 : Int) ^ 31 < b)
    (hsimp : ∀ e v, index_value env e = some v → index_value env (simplify e) = some v)
    (hone : ∀ a b1, base = .Add a b1 → is_one b1 = true → lane_value env b1 = some 1) :
    ((visit_Load_state modulus_remainder simplify base).odd = true ∧
      index_value env (visit_Load_state modulus_remainder simplify base).base = some (b - 1)) ∨
    ((visit_Load_state modulus_remainder simplify base).odd = false ∧
      index_value env (visit_Load_state modulus_remainder simplify base).base = some b) := by
  obtain ⟨c1, c2, c3⟩ := visit_Load_state_cases modulus_remainder simplify base
  by_cases hp : proven_odd (modulus_remainder base)
  · obtain ⟨h1, h2, _⟩ := c1 hp
    left
    rw [h2]
    exact ⟨h1, hsimp _ _ (index_value_sub_one env base b ht hb hlo)⟩
  · by_cases he : ends_in_one (modulus_remainder base) base
    · obtain ⟨h1, ⟨a, b1, hab, h2⟩, _⟩ := c2 hp he
      obtain ⟨a', b1', hab', hb1, _⟩ := he
      left
      rw [h2]
      refine ⟨h1, ?_⟩
      rw [hab] at hab'
      injection hab' with ha hb1'
      subst ha
      subst hb1'
      rw [hab] at ht hb
      exact index_value_strip_one env a b1 b ht hb (hone a b1 hab hb1) hlo
    · obtain ⟨h1, h2, _⟩ := c3 hp he
      right
      rw [h2]
      exact ⟨h1, hb⟩

/-- Whatever deinterleaving load the handler emits, the lane set it extracts is
the load of stride two at the base of the ramp. -/
theorem visit_Load_lanes (modulus_remainder : Expr → ModulusRemainder)
    (simplify : Expr → Expr) (type : HalideType) (name : String) (base stride : Expr) (w : Nat)
    (env : String → Nat) (mem : Int → Nat) (b : Int)
    (hs : is_two stride = true) (hty : type ∈ interleaved_types)
    (ht : base.type = Int_ 32 1) (hb : index_value env base = some b)
    (hlo : -(2 : Int) ^ 31 < b)
    (hsimp : ∀ e v, index_value env e = some v → index_value env (simplify e) = some v)
    (hone : ∀ a b1, base = .Add a b1 → is_one b1 = true → lane_value env b1 = some 1) :
    ∃ intrin base' align idx b',
      visit_Load modulus_remainder simplify type name (.Ramp base stride w)
        = .vld2 intrin name type.element_of base' align idx ∧
      index_value env base' = some b' ∧
      ((idx = 1 ∧ b' = b - 1) ∨ (idx = 0 ∧ b' = b)) ∧
      ∀ n, extract_value (vld2 mem b' n) idx = strided_load mem b n := by
  obtain ⟨intrin, _, hv⟩ := visit_Load_supported modulus_remainder simplify type name base
    stride w hs hty
  rcases visit_Load_state_value modulus_remainder simplify env base b ht hb hlo hsimp hone with
    ⟨h1, h2⟩ | ⟨h1, h2⟩
  · refine ⟨intrin, _, _, _, b - 1, hv, h2, ?_, ?_⟩
    · rw [h1]
      exact Or.inl ⟨rfl, rfl⟩
    · intro n
      rw [h1, vld2_lanes]
      simp only [if_true, extract_value]
      rw [if_neg (by decide)]
      simp
  · refine ⟨intrin, _, _, _, b, hv, h2, ?_, ?_⟩
    · rw [h1]
      exact Or.inr ⟨rfl, rfl⟩
    · intro n
      rw [h1, vld2_lanes]
      rfl

/-- C24: for every memory, a load of a supported vector type at `Ramp(base, 2)`
whose base is a 32-bit index of value `b` above the least `int` is lowered to a
deinterleaving load whose extracted lane set is the load of stride two at `b`,
lane `k` being the element at `b + 2 * k`: lane set 1 of the load at `b - 1`
when the remainder is proven odd and when the base is a sum ending in the
constant one with an odd modulus, lane set 0 of the load at `b` otherwise
(`simplify` keeps the value of an index, the constant one has the value one). -/
theorem strided_load_lanes (modulus_remainder : Expr → ModulusRemainder)
    (simplify : Expr → Expr) (type : HalideType) (name : String) (base stride : Expr) (w : Nat)
    (env : String → Nat) (mem : Int → Nat) (b : Int)
    (hs : is_two stride = true) (hty : type ∈ interleaved_types)
    (ht : base.type = Int_ 32 1) (hb : index_value env base = some b)
    (hlo : -(2 : Int) ^ 31 < b)
    (hsimp : ∀ e v, index_value env e = some v → index_value env (simplify e) = some v)
    (hone : ∀ a b1, base = .Add a b1 → is_one b1 = true → lane_value env b1 = some 1) :
    ∃ intrin base' align idx b',
      visit_Load modulus_remainder simplify type name (.Ramp base stride w)
        = .vld2 intrin name type.element_of base' align idx ∧
      index_value env base' = some b' ∧
      (proven_odd (modulus_remainder base) ∨ ends_in_one (modulus_remainder base) base →
        idx = 1 ∧ b' = b - 1) ∧
      (¬ proven_odd (modulus_remainder base) → ¬ ends_in_one (modulus_remainder base) base →
        idx = 0 ∧ b' = b) ∧
      ∀ n, extract_value (vld2 mem b' n) idx = strided_load mem b n ∧
        strided_load mem b n = (List.range n).map fun (k : Nat) => mem (b + 2 * (k : Int)) := by
  obtain ⟨intrin, _, hv⟩ := visit_Load_supported modulus_remainder simplify type name base
    stride w hs hty
  obtain ⟨c1, c2, c3⟩ := visit_Load_state_cases modulus_remainder simplify base
  have hodd : proven_odd (modulus_remainder base) ∨ ends_in_one (modulus_remainder base) base →
      (visit_Load_state modulus_remainder simplify base).odd = true := by
    intro h
    by_cases hp : proven_odd (modulus_remainder base)
    · exact (c1 hp).1
    · exact (c2 hp (h.resolve_left hp)).1
  rcases visit_Load_state_value modulus_remainder simplify env base b ht hb hlo hsimp hone with
    ⟨h1, h2⟩ | ⟨h1, h2⟩
  · refine ⟨intrin, _, _, _, b - 1, hv, h2, ?_, ?_, ?_⟩
    · intro _
      rw [h1]
      exact ⟨rfl, rfl⟩
    · intro hp he
      rw [(c3 hp he).1] at h1
      exact absurd h1 (by simp)
    · intro n
      refine ⟨?_, rfl⟩
      rw [h1, vld2_lanes]
      simp only [if_true, extract_value]
      rw [if_neg (by decide)]
      simp
  · refine ⟨intrin, _, _, _, b, hv, h2, ?_, ?_, ?_⟩
    · intro h
      rw [hodd h] at h1
      exact absurd h1 (by simp)
    · intro _ _
      rw [h1]
      exact ⟨rfl, rfl⟩
    · intro n
      refine ⟨?_, rfl⟩
      rw [h1, vld2_lanes]
      rfl

theorem strided_load_lanes_witness :
    ∃ intrin base' align idx b',
      visit_Load (fun _ => ⟨1, 0⟩) id (Int_ 8 8) "buf"
          (.Ramp (.Add (.Variable (Int_ 32 1) "x") (.IntImm 1)) (.IntImm 2) 8)
        = .vld2 intrin "buf" (Int_ 8 8).element_of base' align idx ∧
      index_value (fun _ => 10) base' = some b' ∧
      (proven_odd ⟨1, 0⟩ ∨
          ends_in_one ⟨1, 0⟩ (.Add (.Variable (Int_ 32 1) "x") (.IntImm 1)) →
        idx = 1 ∧ b' = 11 - 1) ∧
      (¬ proven_odd ⟨1, 0⟩ →
          ¬ ends_in_one ⟨1, 0⟩ (.Add (.Variable (Int_ 32 1) "x") (.IntImm 1)) →
        idx = 0 ∧ b' = 11) ∧
      ∀ n, extract_value (vld2 (fun j => j.toNat) b' n) idx
          = strided_load (fun j => j.toNat) 11 n ∧
        strided_load (fun j => j.toNat) 11 n
          = (List.range n).map fun (k : Nat) => (11 + 2 * (k : Int)).toNat :=
  strided_load_lanes (fun _ => ⟨1, 0⟩) id (Int_ 8 8) "buf"
    (.Add (.Variable (Int_ 32 1) "x") (.IntImm 1)) (.IntImm 2) 8 (fun _ => 10)
    (fun j => j.toNat) 11 rfl (by decide) rfl (by rfl) (by norm_num) (fun _ _ h => h)
    (fun a b1 hab _ => by
      injection hab with _ h2
      rw [← h2]
      rfl)

/-- C23: the store of the interleaving of two operands of a supported vector
type at a ramp of stride one is lowered to `vst2` at the base of the ramp; when
the operands hold the vectors `A` and `B` of one length `n` and the base is a
32-bit index of value `i`, the loads of `n` lanes of stride two at the base and
at the base plus one are lowered to deinterleaving loads whose extracted lane
sets, read from the memory the `vst2` leaves, are exactly `A` and exactly `B`
(`simplify` keeps the value of an index, the constant one has the value one,
and neither `i - 1` nor `i + 1` leaves the range of `int`). -/
theorem interleave_round_trip (modulus_remainder : Expr → ModulusRemainder)
    (simplify : Expr → Expr) (t : HalideType) (name : String)
    (base one two arg0 arg1 : Expr) (env : String → Nat) (mem : Int → Nat) (i : Int)
    (A B : List Nat)
    (h1 : is_one one = true) (h2 : is_two two = true) (hty : arg0.type ∈ interleaved_types)
    (hAB : A.length = B.length)
    (ht : base.type = Int_ 32 1) (hi : index_value env base = some i)
    (hlo : -(2 : Int) ^ 31 < i) (hhi : i + 1 < (2 : Int) ^ 31)
    (hsimp : ∀ e v, index_value env e = some v → index_value env (simplify e) = some v)
    (hone : ∀ a b1, base = .Add a b1 → is_one b1 = true → lane_value env b1 = some 1) :
    (∃ intrin align,
      visit_Store name (.Call t "interleave vectors" [arg0, arg1]) (.Ramp base one A.length)
        = .vst2 intrin name t.element_of base arg0 arg1 align) ∧
    (∃ intrin base' align idx b',
      visit_Load modulus_remainder simplify arg0.type name (.Ramp base two A.length)
        = .vld2 intrin name arg0.type.element_of base' align idx ∧
      index_value env base' = some b' ∧
      extract_value (vld2 (vst2 mem i A B) b' A.length) idx = A) ∧
    (∃ intrin base' align idx b',
      visit_Load modulus_remainder simplify arg0.type name
          (.Ramp (add_int base 1) two A.length)
        = .vld2 intrin name arg0.type.element_of base' align idx ∧
      index_value env base' = some b' ∧
      extract_value (vld2 (vst2 mem i A B) b' A.length) idx = B) := by
  obtain ⟨hA, hB⟩ := strided_load_vst2 mem i A B hAB
  refine ⟨?_, ?_, ?_⟩
  · have hsome := (visit_Store_intrin_isSome arg0.type).2 hty
    cases hin : visit_Store_intrin arg0.type with
    | none => rw [hin] at hsome; exact absurd hsome (by simp)
    | some intrin =>
      refine ⟨intrin, arg0.type.bits / 8, ?_⟩
      unfold visit_Store
      simp only [h1, true_and, if_true, hin]
  · obtain ⟨intrin, base', align, idx, b', hv, hb', _, hl⟩ :=
      visit_Load_lanes modulus_remainder simplify arg0.type name base two A.length env
        (vst2 mem i A B) i h2 hty ht hi hlo hsimp hone
    exact ⟨intrin, base', align, idx, b', hv, hb', by rw [hl, hA]⟩
  · have hc : add_int base 1 = .Add base (.IntImm 1) := by
      unfold add_int
      rw [ht]
      rfl
    obtain ⟨intrin, base', align, idx, b', hv, hb', _, hl⟩ :=
      visit_Load_lanes modulus_remainder simplify arg0.type name (add_int base 1) two A.length
        env (vst2 mem i A B) (i + 1) h2 hty (by rw [hc]; exact ht)
        (index_value_add_one env base i ht hi hhi) (by omega) hsimp
        (fun a b1 hab _ => by
          rw [hc] at hab
          injection hab with _ hb1
          rw [← hb1]
          rfl)
    exact ⟨intrin, base', align, idx, b', hv, hb', by rw [hl, hB]⟩

theorem interleave_round_trip_witness :
    (∃ intrin align,
      visit_Store "buf"
          (.Call (Int_ 32 8) "interleave vectors"
            [.Variable (Int_ 32 4) "A", .Variable (Int_ 32 4) "B"])
          (.Ramp (.Variable (Int_ 32 1) "x") (.IntImm 1) [1, 2, 3, 4].length)
        = .vst2 intrin "buf" (Int_ 32 8).element_of (.Variable (Int_ 32 1) "x")
            (.Variable (Int_ 32 4) "A") (.Variable (Int_ 32 4) "B") align) ∧
    (∃ intrin base' align idx b',
      visit_Load (fun _ => ⟨1, 0⟩) id (Expr.Variable (Int_ 32 4) "A").type "buf"
          (.Ramp (.Variable (Int_ 32 1) "x") (.IntImm 2) [1, 2, 3, 4].length)
        = .vld2 intrin "buf" (Expr.Variable (Int_ 32 4) "A").type.element_of base' align idx ∧
      index_value (fun _ => 10) base' = some b' ∧
      extract_value (vld2 (vst2 (fun _ => 0) 10 [1, 2, 3, 4] [5, 6, 7, 8]) b'
        [1, 2, 3, 4].length) idx = [1, 2, 3, 4]) ∧
    (∃ intrin base' align idx b',
      visit_Load (fun _ => ⟨1, 0⟩) id (Expr.Variable (Int_ 32 4) "A").type "buf"
          (.Ramp (add_int (.Variable (Int_ 32 1) "x") 1) (.IntImm 2) [1, 2, 3, 4].length)
        = .vld2 intrin "buf" (Expr.Variable (Int_ 32 4) "A").type.element_of base' align idx ∧
      index_value (fun _ => 10) base' = some b' ∧
      extract_value (vld2 (vst2 (fun _ => 0) 10 [1, 2, 3, 4] [5, 6, 7, 8]) b'
        [1, 2, 3, 4].length) idx = [5, 6, 7, 8]) :=
  interleave_round_trip (fun _ => ⟨1, 0⟩) id (Int_ 32 8) "buf" (.Variable (Int_ 32 1) "x")
    (.IntImm 1) (.IntImm 2) (.Variable (Int_ 32 4) "A") (.Variable (Int_ 32 4) "B")
    (fun _ => 10) (fun _ => 0) 10 [1, 2, 3, 4] [5, 6, 7, 8] rfl rfl (by decide) rfl rfl
    (by rfl) (by norm_num) (by norm_num) (fun _ _ h => h)
    (fun a b1 hab _ => by injection hab)

/-! ## Termination of `is_const_power_of_two` -/

/-- Apart from immediates above `2 ^ 30`, the helper returns within 32 tests
of the loop condition. -/
theorem is_const_power_of_two_returns (n : Nat) (e : Expr)
    (h : ∀ v, innermost e = .IntImm v → v ≤ 2 ^ 30) :
    ∃ r, is_const_power_of_two (n + 32) e = some r := by
  cases hi : innermost e with
  | IntImm v =>
    rw [is_const_power_of_two_innermost, hi]
    exact is_const_power_of_two_imm_total n v (h v hi)
  | _ =>
    exact ⟨none, is_const_power_of_two_not_imm _ e (fun v hv => by rw [hi] at hv; cases hv)⟩

/-- C31 (fails on the code): with the doubling of `tmp` read as wrapping modulo
`2 ^ 32`, `is_const_power_of_two` does not terminate on an immediate above
`2 ^ 30`, bare or under casts and broadcasts: `tmp` goes from `2 ^ 30` to
`-2 ^ 31` and then stays `0`, below the value for ever, so no number of tests
of the loop condition brings an answer; `1073741825` and `2147483647` are such
32-bit immediates.  On every other expression it returns within 32 tests. -/
theorem is_const_power_of_two_nontermination :
    (∀ fuel, is_const_power_of_two fuel (.IntImm 1073741825) = none) ∧
    (∀ fuel, is_const_power_of_two fuel (.IntImm 2147483647) = none) ∧
    (∀ fuel e v, innermost e = .IntImm v → 2 ^ 30 < v → is_const_power_of_two fuel e = none) ∧
    (∀ n e, (∀ v, innermost e = .IntImm v → v ≤ 2 ^ 30) →
      ∃ r, is_const_power_of_two (n + 32) e = some r) := by
  refine ⟨fun fuel => is_const_power_of_two_imm_diverges fuel _ (by norm_num),
    fun fuel => is_const_power_of_two_imm_diverges fuel _ (by norm_num),
    fun fuel e v hi hv => ?_, is_const_power_of_two_returns⟩
  rw [is_const_power_of_two_innermost, hi]
  exact is_const_power_of_two_imm_diverges fuel v hv

/-! ## The type of the shift constant in the `Mul` handler -/

theorem visit_Mul_same_width_shape (p : Bool) (a : Expr) (st : LLVMType) (s : Int) :
    visit_Mul_same_width p a st s = .generic ∨
      ∃ rt name, visit_Mul_same_width p a st s = .call_intrin rt name a st s := by
  have key : ∀ (c : Prop) [Decidable c] (x y : MulLowering),
      (x = .generic ∨ ∃ rt name, x = .call_intrin rt name a st s) →
      (y = .generic ∨ ∃ rt name, y = .call_intrin rt name a st s) →
      ((if c then x else y) = .generic ∨
        ∃ rt name, (if c then x else y) = .call_intrin rt name a st s) := by
    intro c _ x y hx hy
    split <;> assumption
  unfold visit_Mul_same_width
  repeat' (first
    | exact Or.inl rfl
    | exact Or.inr ⟨_, _, rfl⟩
    | apply key)

/-- When the left operand is no cast, the shift constant has the type of the
value operand. -/
theorem visit_Mul_no_cast_agrees (fuel : Nat) (a b : Expr) (r : MulLowering)
    (hc : a.as_Cast = none) (h : visit_Mul fuel a b = some r) : r.shift_type_agrees := by
  unfold visit_Mul at h
  cases hp : is_const_power_of_two fuel b with
  | none => rw [hp] at h; simp at h
  | some answer =>
    rw [hp] at h
    simp only [hc, Option.some.injEq] at h
    rcases visit_Mul_same_width_shape answer.isSome a (llvm_type_of (Expr.Mul a b).type)
      (answer.getD 0) with hs | ⟨rt, name, hs⟩
    · rw [hs] at h
      rw [← h]
      trivial
    · rw [hs] at h
      rw [← h]
      rfl

/-- C33 (fails on the code): for a left operand that is a cast, the shift
constant is given the type of the operand of the cast (line 373), also when
the cast is none of the six widening casts and the shift selected is one at the
width of the cast itself.  On `cast(Int(8, 8), x) * 4` with `x` of type
`Int(16, 8)` the handler calls `vshifts.v8i8` on the `i8x8` value with a shift
constant of type `i16x8`.  When the left operand is no cast the two types
agree. -/
theorem mul_shift_type_defect :
    visit_Mul 32 (.Cast (Int_ 8 8) (.Variable (Int_ 16 8) "x"))
        (.Broadcast (.Cast (Int_ 8 1) (.IntImm 4)) 8)
      = some (.call_intrin i8x8 "vshifts.v8i8" (.Cast (Int_ 8 8) (.Variable (Int_ 16 8) "x"))
          i16x8 2) ∧
    ¬ (MulLowering.call_intrin i8x8 "vshifts.v8i8"
        (.Cast (Int_ 8 8) (.Variable (Int_ 16 8) "x")) i16x8 2).shift_type_agrees ∧
    llvm_type_of (Expr.Cast (Int_ 8 8) (.Variable (Int_ 16 8) "x")).type = i8x8 ∧
    (∀ fuel a b r, a.as_Cast = none → visit_Mul fuel a b = some r → r.shift_type_agrees) := by
  refine ⟨?_, ?_, rfl, visit_Mul_no_cast_agrees⟩
  · have hp : is_const_power_of_two 32 (.Broadcast (.Cast (Int_ 8 1) (.IntImm 4)) 8)
        = some (some 2) := by
      rw [is_const_power_of_two_innermost]
      exact is_const_power_of_two_imm_pow 0 2 (by norm_num)
    unfold visit_Mul
    rw [hp]
    rfl
  · intro h
    have h' : i16x8 = llvm_type_of (Int_ 8 8) := h
    exact absurd h' (by decide)

/-! ## Lane counts in the magic-number paths -/

theorem magic_s16_calls_lanes (multiplier : Int) :
    ∀ c ∈ magic_s16_calls (Int_ 16 4) multiplier, c.lanes_consistent 4 := by
  intro c hc
  unfold magic_s16_calls at hc
  split_ifs at hc
  · simp only [List.mem_cons, List.mem_singleton, List.not_mem_nil, or_false] at hc
    rcases hc with rfl | rfl
    · exact ⟨rfl, by intro t ht; simp at ht; rcases ht with rfl; rfl⟩
    · exact ⟨rfl, by intro t ht; simp at ht; rcases ht with rfl | rfl <;> rfl⟩
  · simp at hc

theorem magic_u16_calls_lanes (method : Int) :
    ∀ c ∈ magic_u16_calls (UInt_ 16 8) method, ¬ c.lanes_consistent 8 := by
  intro c hc
  unfold magic_u16_calls at hc
  split_ifs at hc
  · simp only [List.mem_cons, List.mem_singleton, List.not_mem_nil, or_false] at hc
    rcases hc with rfl | rfl
    · intro h
      exact absurd h.1 (by decide)
    · intro h
      exact absurd h.1 (by decide)
  · simp at hc

/-- C34 (fails on the code): the `UInt(16, 8)` path emits the four-lane
intrinsics of the `Int(16, 4)` path, `vmullu.v4i32` with result type `i32x4`
and `vshiftn.v4i16` with result type `i16x4`, on operands of eight lanes: on
`x / 3` with `x` of type `UInt(16, 8)` both calls have a result of four lanes,
and so has every call of that path.  In the `Int(16, 4)` path every operand and
result has four lanes. -/
theorem magic_lane_count_defect :
    visit_Div 32 (.Variable (UInt_ 16 8) "x") (.Broadcast (.Cast (UInt_ 16 1) (.IntImm 3)) 8)
      = some (.magic_u16 1 (some (1, 43691, 1)) (.Variable (UInt_ 16 8) "x")) ∧
    (DivLowering.magic_u16 1 (some (1, 43691, 1)) (.Variable (UInt_ 16 8) "x")).magic_calls
        (UInt_ 16 8)
      = [⟨i32x4, "vmullu.v4i32", [⟨16, 8⟩, ⟨16, 8⟩]⟩, ⟨i16x4, "vshiftn.v4i16", [i32x4, ⟨32, 4⟩]⟩] ∧
    (∀ fuel a b i row val, visit_Div fuel a b = some (.magic_u16 i row val) →
      (Expr.Div a b).type = UInt_ 16 8 ∧
      ∀ c ∈ (DivLowering.magic_u16 i row val).magic_calls (Expr.Div a b).type,
        ¬ c.lanes_consistent 8) ∧
    (∀ fuel a b i row val, visit_Div fuel a b = some (.magic_s16 i row val) →
      (Expr.Div a b).type = Int_ 16 4 ∧
      ∀ c ∈ (DivLowering.magic_s16 i row val).magic_calls (Expr.Div a b).type,
        c.lanes_consistent 4) := by
  refine ⟨?_, rfl, ?_, ?_⟩
  · have hp : is_const_power_of_two 32 (.Broadcast (.Cast (UInt_ 16 1) (.IntImm 3)) 8)
        = some none := by
      rw [is_const_power_of_two_innermost]
      exact is_const_power_of_two_imm_not_pow 0 3 (by norm_num)
        (not_pow_of_between 3 1 (by norm_num) (by norm_num))
    unfold visit_Div
    simp only [hp]
    rfl
  · intro fuel a b i row val h
    obtain ⟨ht, _⟩ := visit_Div_magic_u16 fuel a b i row val h
    have ht' : (Expr.Div a b).type = UInt_ 16 8 := ht
    refine ⟨ht', ?_⟩
    rw [ht']
    intro c hc
    cases row with
    | none => simp [DivLowering.magic_calls] at hc
    | some r =>
      obtain ⟨method, multiplier, shift⟩ := r
      exact magic_u16_calls_lanes method c hc
  · intro fuel a b i row val h
    obtain ⟨ht, _⟩ := visit_Div_magic_s16 fuel a b i row val h
    have ht' : (Expr.Div a b).type = Int_ 16 4 := ht
    refine ⟨ht', ?_⟩
    rw [ht']
    intro c hc
    cases row with
    | none => simp [DivLowering.magic_calls] at hc
    | some r =>
      obtain ⟨method, multiplier, shift⟩ := r
      exact magic_s16_calls_lanes multiplier c hc

/-! ## The method-2 correction of the unsigned path -/

/-- C35: for every 16-bit lane `v` and multiplier `m < 2 ^ 16` the high half
`hi` of the widening product, which the narrowing shift by 16 extracts, is
`floor(v * m / 2 ^ 16)` and at most `v`; the subtraction `v - hi` does not
wrap, the logical shift by one halves it, and the final addition does not
leave 16 bits: the correction of lines 578-582 is `floor((v + hi) / 2)`, and
the lane the path computes for a row of method 2 is that value shifted right
by the shift of the row. -/
theorem method2_correction_exact (v m : Nat) (hv : v < 2 ^ 16) (hm : m < 2 ^ 16) :
    vshiftn 16 (vmullu 16 v m) 16 = v * m / 2 ^ 16 ∧
    v * m / 2 ^ 16 ≤ v ∧
    CreateSub 16 v (v * m / 2 ^ 16) = v - v * m / 2 ^ 16 ∧
    CreateLShr 16 (v - v * m / 2 ^ 16) 1 = some ((v - v * m / 2 ^ 16) / 2) ∧
    CreateAdd 16 (v * m / 2 ^ 16) ((v - v * m / 2 ^ 16) / 2) = (v + v * m / 2 ^ 16) / 2 ∧
    v * m / 2 ^ 16 + (v - v * m / 2 ^ 16) / 2 < 2 ^ 16 ∧
    ∀ shift : Int, magic_u16_lane 2 m shift v
      = CreateLShr 16 ((v + v * m / 2 ^ 16) / 2) (ofInt 16 shift) := by
  obtain ⟨hhigh, hle⟩ := mulhi_u16 v m (by simpa using hv) (by simpa using hm)
  simp only [Nat.reducePow] at hv hm ⊢
  generalize hhi : v * m / 65536 = hi at hhigh hle
  have hsub : CreateSub 16 v hi = v - hi := by
    unfold CreateSub
    have h1 : ((v : Int) - (hi : Int)) = ((v - hi : Nat) : Int) := by omega
    rw [h1]
    exact ofInt_natCast 16 (v - hi) (by simp only [Nat.reducePow]; omega)
  have hshr : CreateLShr 16 (v - hi) 1 = some ((v - hi) / 2) := by
    unfold CreateLShr
    rw [if_pos (by norm_num), Nat.shiftRight_eq_div_pow]
  have hadd : CreateAdd 16 hi ((v - hi) / 2) = (v + hi) / 2 := by
    unfold CreateAdd
    simp only [Nat.reducePow]
    omega
  refine ⟨hhigh, hle, hsub, hshr, hadd, by omega, fun shift => ?_⟩
  have hmu : ofInt 16 (m : Int) = m := ofInt_natCast 16 m (by simpa using hm)
  unfold magic_u16_lane
  simp only [hmu, hhigh, hsub, hshr, hadd]
  simp

theorem method2_correction_exact_witness :
    vshiftn 16 (vmullu 16 65535 9363) 16 = 65535 * 9363 / 2 ^ 16 ∧
    CreateAdd 16 (65535 * 9363 / 2 ^ 16) ((65535 - 65535 * 9363 / 2 ^ 16) / 2)
      = (65535 + 65535 * 9363 / 2 ^ 16) / 2 :=
  ⟨(method2_correction_exact 65535 9363 (by norm_num) (by norm_num)).1,
   (method2_correction_exact 65535 9363 (by norm_num) (by norm_num)).2.2.2.2.1⟩

/-! ## The averaging rows of the `Div` handler -/

/-- The value of the unsigned node `(a + b) / 2` at 8 bits: the sum wraps
before it is halved. -/
theorem averaging_u8_lane (x y : Nat) (hx : x < 256) (hy : y < 256) :
    lane_value (env2 x y)
        (div_int (.Add (.Variable (UInt_ 8 8) "a") (.Variable (UInt_ 8 8) "b")) 2)
      = some ((x + y) % 256 / 2) := by
  have ha : lane_value (env2 x y) (.Variable (UInt_ 8 8) "a") = some x := by
    simp [lane_value, env2, UInt_, HalideType.is_float, Nat.mod_eq_of_lt hx]
  have hb : lane_value (env2 x y) (.Variable (UInt_ 8 8) "b") = some y := by
    simp [lane_value, env2, UInt_, HalideType.is_float, Nat.mod_eq_of_lt hy]
  have hs := lane_value_Add (env2 x y) (.Variable (UInt_ 8 8) "a") (.Variable (UInt_ 8 8) "b")
    x y rfl ha hb
  have h2 : lane_value (env2 x y) (cast (UInt_ 8 8) (.IntImm 2)) = some 2 := by rfl
  have hd := lane_value_Div (env2 x y)
    (.Add (.Variable (UInt_ 8 8) "a") (.Variable (UInt_ 8 8) "b"))
    (cast (UInt_ 8 8) (.IntImm 2)) _ 2 rfl hs h2
  unfold div_int
  rw [show (Expr.Add (.Variable (UInt_ 8 8) "a") (.Variable (UInt_ 8 8) "b")).type
    = UInt_ 8 8 from rfl]
  rw [hd]
  simp [Expr.type, UInt_, HalideType.is_int, CreateUDiv, CreateAdd]

/-- C32 (fails on the code): the rows of the averaging table of the `Div`
handler match the node `(a + b) / 2` whose sum is taken at the lane width, and
the halving instruction they select halves the sum taken without wrapping.
For `UInt(8, 8)` operands the handler selects `vhaddu.v8i8`, the value of the
node on lanes `x`, `y` is `((x + y) mod 256) / 2`, and the instruction gives
`(x + y) / 2`, which differs whenever the sum reaches 256: 22 against 150 on
the lanes 200 and 100.  Likewise `vhadds.v8i8` on the signed lanes 100 and 100
(the node has the value -28, the instruction 100) and `vhsubu.v8i8` on the
lanes 0 and 1 (the node has the value 127, the instruction 255). -/
theorem averaging_div_defect :
    (∀ fuel, visit_Div fuel (.Add (.Variable (UInt_ 8 8) "a") (.Variable (UInt_ 8 8) "b"))
        (cast (UInt_ 8 8) (.IntImm 2))
      = some (.averaging 1 (UInt_ 8 8) "vhaddu.v8i8"
          [.Variable (UInt_ 8 8) "a", .Variable (UInt_ 8 8) "b"])) ∧
    (∀ x y, x < 256 → y < 256 →
      lane_value (env2 x y)
          (div_int (.Add (.Variable (UInt_ 8 8) "a") (.Variable (UInt_ 8 8) "b")) 2)
        = some ((x + y) % 256 / 2) ∧
      (256 ≤ x + y → (x + y) % 256 / 2 ≠ vhaddu x y)) ∧
    (lane_value (env2 200 100)
        (div_int (.Add (.Variable (UInt_ 8 8) "a") (.Variable (UInt_ 8 8) "b")) 2) = some 22 ∧
      vhaddu 200 100 = 150) ∧
    (∀ fuel, visit_Div fuel (.Add (.Variable (Int_ 8 8) "a") (.Variable (Int_ 8 8) "b"))
        (cast (Int_ 8 8) (.IntImm 2))
      = some (.averaging 0 (Int_ 8 8) "vhadds.v8i8"
          [.Variable (Int_ 8 8) "a", .Variable (Int_ 8 8) "b"])) ∧
    (lane_value (env2 100 100)
        (div_int (.Add (.Variable (Int_ 8 8) "a") (.Variable (Int_ 8 8) "b")) 2)
        = some (ofInt 8 (-28)) ∧
      vhadds 8 100 100 = 100) ∧
    (∀ fuel, visit_Div fuel (.Sub (.Variable (UInt_ 8 8) "a") (.Variable (UInt_ 8 8) "b"))
        (cast (UInt_ 8 8) (.IntImm 2))
      = some (.averaging 13 (UInt_ 8 8) "vhsubu.v8i8"
          [.Variable (UInt_ 8 8) "a", .Variable (UInt_ 8 8) "b"])) ∧
    (lane_value (env2 0 1)
        (div_int (.Sub (.Variable (UInt_ 8 8) "a") (.Variable (UInt_ 8 8) "b")) 2) = some 127 ∧
      vhsubu 8 0 1 = 255) := by
  refine ⟨fun _ => rfl, fun x y hx hy => ⟨averaging_u8_lane x y hx hy, fun h => ?_⟩,
    ⟨rfl, rfl⟩, fun _ => rfl, ⟨rfl, rfl⟩, fun _ => rfl, ⟨rfl, rfl⟩⟩
  unfold vhaddu
  omega

/-! ## Soundness of the alignment of the deinterleaving load -/

theorem gcd_dvd_of_fact (m r x : Int) (h : m ∣ x - r) : gcd (gcd m r) 32 ∣ x := by
  unfold gcd
  have h1 : ((Int.gcd ((Int.gcd m r : Nat) : Int) 32 : Nat) : Int) ∣ ((Int.gcd m r : Nat) : Int) :=
    Int.gcd_dvd_left
  have h2 : ((Int.gcd m r : Nat) : Int) ∣ m := Int.gcd_dvd_left
  have h3 : ((Int.gcd m r : Nat) : Int) ∣ r := Int.gcd_dvd_right
  have h4 : ((Int.gcd m r : Nat) : Int) ∣ x - r := Int.dvd_trans h2 h
  have h5 : ((Int.gcd m r : Nat) : Int) ∣ x := by
    have := Int.dvd_add h4 h3
    simpa using this
  exact Int.dvd_trans h1 h5

/-- C36: the alignment of the deinterleaving load is sound.  When the base of
the ramp is a 32-bit index whose value `x` satisfies the alignment fact
`x = remainder (mod modulus)`, the alignment operand is `bits / 8` times a
factor `g` that divides the index `b'` loaded from (`x - 1` when lane set 1 is
extracted, `x` otherwise); when the rewrite is speculative, `g` is one and the
alignment is the size of an element. -/
theorem load_alignment_sound (modulus_remainder : Expr → ModulusRemainder)
    (simplify : Expr → Expr) (type : HalideType) (name : String) (base stride : Expr) (w : Nat)
    (env : String → Nat) (x : Int)
    (hs : is_two stride = true) (hty : type ∈ interleaved_types)
    (ht : base.type = Int_ 32 1) (hb : index_value env base = some x)
    (hlo : -(2 : Int) ^ 31 < x)
    (hsimp : ∀ e v, index_value env e = some v → index_value env (simplify e) = some v)
    (hone : ∀ a b1, base = .Add a b1 → is_one b1 = true → lane_value env b1 = some 1)
    (hfact : (modulus_remainder base).modulus ∣ x - (modulus_remainder base).remainder) :
    ∃ intrin base' align idx b' g,
      visit_Load modulus_remainder simplify type name (.Ramp base stride w)
        = .vld2 intrin name type.element_of base' align idx ∧
      index_value env base' = some b' ∧
      ((idx = 1 ∧ b' = x - 1) ∨ (idx = 0 ∧ b' = x)) ∧
      align = ((type.bits / 8 : Nat) : Int) * g ∧
      g ∣ b' ∧
      (¬ proven_odd (modulus_remainder base) → ends_in_one (modulus_remainder base) base →
        g = 1 ∧ align = ((type.bits / 8 : Nat) : Int)) := by
  obtain ⟨intrin, _, hv⟩ := visit_Load_supported modulus_remainder simplify type name base
    stride w hs hty
  obtain ⟨c1, c2, c3⟩ := visit_Load_state_cases modulus_remainder simplify base
  have hval := visit_Load_state_value modulus_remainder simplify env base x ht hb hlo hsimp hone
  by_cases hp : proven_odd (modulus_remainder base)
  · obtain ⟨h1, _, h3⟩ := c1 hp
    rcases hval with ⟨_, h2⟩ | ⟨h1', _⟩
    · refine ⟨intrin, _, _, _, x - 1, _, hv, h2, ?_, rfl, ?_, fun hn => absurd hp hn⟩
      · rw [h1]
        exact Or.inl ⟨rfl, rfl⟩
      · rw [h3]
        apply gcd_dvd_of_fact
        have : x - 1 - ((modulus_remainder base).remainder - 1)
            = x - (modulus_remainder base).remainder := by ring
        rw [this]
        exact hfact
    · rw [h1] at h1'
      exact absurd h1' (by simp)
  · by_cases he : ends_in_one (modulus_remainder base) base
    · obtain ⟨h1, _, h3⟩ := c2 hp he
      obtain ⟨_, _, _, _, hm⟩ := he
      rcases hval with ⟨_, h2⟩ | ⟨h1', _⟩
      · have hg : gcd (gcd (visit_Load_state modulus_remainder simplify base).mod_rem.modulus
            (visit_Load_state modulus_remainder simplify base).mod_rem.remainder) 32 = 1 := by
          rw [h3]
          exact gcd_odd_32 _ _ hm
        refine ⟨intrin, _, _, _, x - 1, _, hv, h2, ?_, rfl, ?_, fun _ _ => ⟨hg, ?_⟩⟩
        · rw [h1]
          exact Or.inl ⟨rfl, rfl⟩
        · rw [hg]
          exact one_dvd _
        · rw [hg, mul_one]
      · rw [h1] at h1'
        exact absurd h1' (by simp)
    · obtain ⟨h1, _, h3⟩ := c3 hp he
      rcases hval with ⟨h1', _⟩ | ⟨_, h2⟩
      · rw [h1] at h1'
        exact absurd h1' (by simp)
      · refine ⟨intrin, _, _, _, x, _, hv, h2, ?_, rfl, ?_, fun _ hn => absurd hn he⟩
        · rw [h1]
          exact Or.inr ⟨rfl, rfl⟩
        · rw [h3]
          exact gcd_dvd_of_fact _ _ _ hfact

theorem load_alignment_sound_witness :
    ∃ intrin base' align idx b' g,
      visit_Load (fun _ => ⟨8, 5⟩) id (Int_ 16 4) "buf"
          (.Ramp (.Variable (Int_ 32 1) "x") (.IntImm 2) 4)
        = .vld2 intrin "buf" (Int_ 16 4).element_of base' align idx ∧
      index_value (fun _ => 13) base' = some b' ∧
      ((idx = 1 ∧ b' = 13 - 1) ∨ (idx = 0 ∧ b' = 13)) ∧
      align = ((16 / 8 : Nat) : Int) * g ∧
      g ∣ b' ∧
      (¬ proven_odd ⟨8, 5⟩ → ends_in_one ⟨8, 5⟩ (.Variable (Int_ 32 1) "x") →
        g = 1 ∧ align = ((16 / 8 : Nat) : Int)) :=
  load_alignment_sound (fun _ => ⟨8, 5⟩) id (Int_ 16 4) "buf" (.Variable (Int_ 32 1) "x")
    (.IntImm 2) 4 (fun _ => 13) 13 rfl (by decide) rfl (by rfl) (by norm_num)
    (fun _ _ h => h) (fun a b1 hab _ => by injection hab) (by decide)

/-! ## The `Min` and `Max` handlers -/

theorem min_max_type_iff (t : HalideType) : min_max_type t ↔ t ∈ interleaved_types := by
  constructor
  · intro h
    obtain ⟨c, bits, width⟩ := t
    unfold min_max_type at h
    simp only at h
    obtain ⟨h1, h2⟩ := h
    rcases h1 with ⟨hc, hb | hb | hb⟩ | ⟨hc, hb⟩ <;> subst hb <;> rcases h2 with h2 | h2
    all_goals first
      | (have hw : width = 2 := by omega)
      | (have hw : width = 4 := by omega)
      | (have hw : width = 8 := by omega)
      | (have hw : width = 16 := by omega)
    all_goals subst hw
    all_goals cases c
    all_goals first
      | decide
      | exact absurd rfl hc
  · intro h
    unfold interleaved_types at h
    simp only [List.mem_cons, List.mem_singleton, List.not_mem_nil, or_false] at h
    rcases h with rfl | rfl | rfl | rfl | rfl | rfl | rfl | rfl | rfl | rfl | rfl | rfl | rfl | rfl <;>
      simp [min_max_type, Int_, UInt_, Float_]

theorem min_max_loop_generic (t : HalideType) (a b : Expr) :
    ∀ rows : List visit_Min_Pattern, (∀ row ∈ rows, t ≠ row.t) →
      min_max_loop t a b rows = .generic
  | [], _ => rfl
  | row :: rest, h => by
    unfold min_max_loop
    rw [if_neg (h row (List.mem_cons_self _ _))]
    exact min_max_loop_generic t a b rest (fun r hr => h r (List.mem_cons_of_mem _ hr))

theorem min_max_rows_types :
    visit_Min_patterns.map (fun row => row.t) = visit_Max_patterns.map (fun row => row.t) ∧
    ∀ t, t ∈ visit_Min_patterns.map (fun row => row.t) ↔ t ∈ interleaved_types := by
  refine ⟨rfl, fun t => ?_⟩
  simp only [visit_Min_patterns, interleaved_types, List.map_cons, List.map_nil, List.mem_cons,
    List.mem_singleton, List.not_mem_nil, or_false]
  tauto

/-- C37: on a node whose type is one of the fourteen vector types (8-, 16- or
32-bit integers, signed or unsigned, and 32-bit floats, 64 or 128 bits in all)
the `Min` handler calls the intrinsic named `vmin`, `u` for an unsigned and `s`
for a signed or floating-point type, with the suffix of the lane count and lane
width of the node, on the two operands in order, with the type of the node as
result type; the `Max` handler does the same with `vmax`; on a node of any other
type both delegate to the generic lowering. -/
theorem min_max_selection (a b : Expr) :
    (min_max_type (Expr.Min a b).type →
      visit_Min a b
        = .call_intrin (Expr.Min a b).type (min_max_name "vmin" (Expr.Min a b).type) [a, b]) ∧
    (¬ min_max_type (Expr.Min a b).type → visit_Min a b = .generic) ∧
    (min_max_type (Expr.Max a b).type →
      visit_Max a b
        = .call_intrin (Expr.Max a b).type (min_max_name "vmax" (Expr.Max a b).type) [a, b]) ∧
    (¬ min_max_type (Expr.Max a b).type → visit_Max a b = .generic) := by
  have hmin : (Expr.Min a b).type = a.type := rfl
  have hmax : (Expr.Max a b).type = a.type := rfl
  unfold visit_Min visit_Max
  rw [hmin, hmax]
  generalize a.type = t
  refine ⟨fun h => ?_, fun h => ?_, fun h => ?_, fun h => ?_⟩
  · have hm := (min_max_type_iff t).1 h
    unfold interleaved_types at hm
    simp only [List.mem_cons, List.mem_singleton, List.not_mem_nil, or_false] at hm
    rcases hm with rfl | rfl | rfl | rfl | rfl | rfl | rfl | rfl | rfl | rfl | rfl | rfl | rfl | rfl <;>
      rfl
  · apply min_max_loop_generic
    intro row hr heq
    apply h
    rw [min_max_type_iff, ← min_max_rows_types.2]
    exact List.mem_map.2 ⟨row, hr, heq.symm⟩
  · have hm := (min_max_type_iff t).1 h
    unfold interleaved_types at hm
    simp only [List.mem_cons, List.mem_singleton, List.not_mem_nil, or_false] at hm
    rcases hm with rfl | rfl | rfl | rfl | rfl | rfl | rfl | rfl | rfl | rfl | rfl | rfl | rfl | rfl <;>
      rfl
  · apply min_max_loop_generic
    intro row hr heq
    apply h
    rw [min_max_type_iff, ← min_max_rows_types.2, min_max_rows_types.1]
    exact List.mem_map.2 ⟨row, hr, heq.symm⟩

/-! ## The search for the reduction dimensions to tile -/

theorem tile_search_loop_height (tw th : Int) (d : Nat) :
    ∀ (l : List Int) (k : Nat) (dw dh : Int),
      tile_search_loop tw th l (k : Int) ((d : Int), -1) = (dw, dh) →
      dw = d ∧ (dh ≠ -1 → ∃ j e, l.get? j = some e ∧ dh = ((k + j : Nat) : Int) ∧ th ≤ e)
  | [], k, dw, dh, h => by
    simp only [tile_search_loop, Prod.mk.injEq] at h
    exact ⟨h.1.symm, fun hne => absurd h.2.symm hne⟩
  | e :: rest, k, dw, dh, h => by
    have hd : ¬ ((d : Int) = -1 ∧ e ≥ tw) := fun hc => by omega
    unfold tile_search_loop at h
    rw [if_neg hd] at h
    by_cases he : e ≥ th
    · rw [if_pos ⟨by omega, rfl, he⟩] at h
      simp only [Prod.mk.injEq] at h
      exact ⟨h.1.symm, fun _ => ⟨0, e, rfl, by simp [h.2], he⟩⟩
    · rw [if_neg (fun hc => he hc.2.2)] at h
      have h' : tile_search_loop tw th rest ((k + 1 : Nat) : Int) ((d : Int), -1) = (dw, dh) := by
        push_cast
        exact h
      obtain ⟨h1, h2⟩ := tile_search_loop_height tw th d rest (k + 1) dw dh h'
      refine ⟨h1, fun hne => ?_⟩
      obtain ⟨j, e2, hj, hdh, hth⟩ := h2 hne
      exact ⟨j + 1, e2, by simpa using hj, by rw [hdh]; push_cast; ring, hth⟩

theorem tile_search_loop_width (tw th : Int) :
    ∀ (l : List Int) (k : Nat) (dw dh : Int),
      tile_search_loop tw th l (k : Int) (-1, -1) = (dw, dh) →
      (dw = -1 ∧ dh = -1) ∨
      ∃ j e, l.get? j = some e ∧ dw = ((k + j : Nat) : Int) ∧ tw ≤ e ∧
        (∀ j' e', j' < j → l.get? j' = some e' → e' < tw) ∧
        (dh ≠ -1 → ∃ j2 e2, j < j2 ∧ l.get? j2 = some e2 ∧
          dh = ((k + j2 : Nat) : Int) ∧ th ≤ e2)
  | [], k, dw, dh, h => by
    simp only [tile_search_loop, Prod.mk.injEq] at h
    exact Or.inl ⟨h.1.symm, h.2.symm⟩
  | e :: rest, k, dw, dh, h => by
    unfold tile_search_loop at h
    by_cases he : e ≥ tw
    · rw [if_pos ⟨rfl, he⟩] at h
      have h' : tile_search_loop tw th rest ((k + 1 : Nat) : Int) ((k : Int), -1) = (dw, dh) := by
        push_cast
        exact h
      obtain ⟨h1, h2⟩ := tile_search_loop_height tw th k rest (k + 1) dw dh h'
      refine Or.inr ⟨0, e, rfl, by simp [h1], he, fun j' e' hj' => absurd hj' (by omega),
        fun hne => ?_⟩
      obtain ⟨j, e2, hj, hdh, hth⟩ := h2 hne
      exact ⟨j + 1, e2, by omega, by simpa using hj, by rw [hdh]; push_cast; ring, hth⟩
    · rw [if_neg (fun hc => he hc.2), if_neg (fun hc => hc.1 rfl)] at h
      have h' : tile_search_loop tw th rest ((k + 1 : Nat) : Int) (-1, -1) = (dw, dh) := by
        push_cast
        exact h
      rcases tile_search_loop_width tw th rest (k + 1) dw dh h' with hnone | hfound
      · exact Or.inl hnone
      · obtain ⟨j, e1, hj, hdw, htw, hmin, hheight⟩ := hfound
        refine Or.inr ⟨j + 1, e1, by simpa using hj, by rw [hdw]; push_cast; ring, htw, ?_, ?_⟩
        · intro j' e' hj' hget
          cases j' with
          | zero =>
            simp only [List.get?_cons_zero, Option.some.injEq] at hget
            omega
          | succ j'' =>
            exact hmin j'' e' (by omega) (by simpa using hget)
        · intro hne
          obtain ⟨j2, e2, hlt, hj2, hdh, hth⟩ := hheight hne
          exact ⟨j2 + 1, e2, by omega, by simpa using hj2, by rw [hdh]; push_cast; ring, hth⟩

/-- C38: for every list of reduction extents and every `tile_width` and
`tile_height`, when the search leaves both `dim_width` and `dim_height`
different from `-1`, they are indices `i < j` of the list with
`rvar_extents[i] >= tile_width` and `rvar_extents[j] >= tile_height`, `i` is the
least index whose extent is at least `tile_width`, and so
`dim_width != dim_height`. -/
theorem tile_search_dims (rvar_extents : List Int) (tile_width tile_height dim_width
    dim_height : Int)
    (h : tile_search rvar_extents tile_width tile_height = (dim_width, dim_height))
    (hw : dim_width ≠ -1) (hh : dim_height ≠ -1) :
    ∃ (i j : Nat) (ei ej : Int), dim_width = (i : Int) ∧ dim_height = (j : Int) ∧
      rvar_extents.get? i = some ei ∧ rvar_extents.get? j = some ej ∧
      i < j ∧ dim_width < dim_height ∧ tile_width ≤ ei ∧ tile_height ≤ ej ∧
      (∀ i' e', i' < i → rvar_extents.get? i' = some e' → e' < tile_width) ∧
      dim_width ≠ dim_height := by
  unfold tile_search at h
  rcases tile_search_loop_width tile_width tile_height rvar_extents 0 dim_width dim_height
    (by simpa using h) with hnone | hfound
  · exact absurd hnone.1 hw
  · obtain ⟨i, ei, hi, hdw, htw, hmin, hheight⟩ := hfound
    obtain ⟨j, ej, hlt, hj, hdh, hth⟩ := hheight hh
    simp only [Nat.zero_add] at hdw hdh
    exact ⟨i, j, ei, ej, hdw, hdh, hi, hj, hlt, by omega, htw, hth, hmin, by omega⟩

theorem tile_search_dims_witness :
    ∃ (i j : Nat) (ei ej : Int), (1 : Int) = (i : Int) ∧ (3 : Int) = (j : Int) ∧
      ([2, 40, 3, 9, 50] : List Int).get? i = some ei ∧
      ([2, 40, 3, 9, 50] : List Int).get? j = some ej ∧
      i < j ∧ (1 : Int) < 3 ∧ 16 ≤ ei ∧ 8 ≤ ej ∧
      (∀ i' e', i' < i → ([2, 40, 3, 9, 50] : List Int).get? i' = some e' → e' < 16) ∧
      (1 : Int) ≠ 3 :=
  tile_search_dims [2, 40, 3, 9, 50] 16 8 1 3 (by decide) (by decide) (by decide)

/-! ## The inlining filter of `simple_autoschedule` -/

theorem has_rvars_false_iff (rvars : List Nat) :
    has_rvars rvars = false ↔ ∀ n ∈ rvars, n = 0 := by
  unfold has_rvars
  rw [List.any_eq_false]
  constructor
  · intro h n hn
    have := h n hn
    simp only [gt_iff_lt, decide_eq_true_eq, not_lt, Nat.le_zero_eq] at this
    exact this
  · intro h n hn
    simp [h n hn]

theorem inlining_filter_sublist (output_set dont_inline skip_functions : List String)
    (callers : String → List String) (rvars : String → List Nat) :
    ∀ order : List String,
      (inlining_filter output_set dont_inline skip_functions callers rvars order).Sublist order
  | [] => List.Sublist.slnil
  | f :: rest => by
    have ih := inlining_filter_sublist output_set dont_inline skip_functions callers rvars rest
    unfold inlining_filter
    split
    · exact ih.cons₂ f
    · split
      · exact ih.cons f
      · split
        · exact ih.cons f
        · exact ih.cons₂ f

theorem inlining_filter_mem (output_set dont_inline skip_functions : List String)
    (callers : String → List String) (rvars : String → List Nat) (g : String) :
    ∀ order : List String,
      g ∈ inlining_filter output_set dont_inline skip_functions callers rvars order ↔
        g ∈ order ∧ ((g ∈ output_set ∨ g ∈ dont_inline) ∨
          (g ∉ skip_functions ∧ ¬ ((callers g).length = 1 ∧ has_rvars (rvars g) = false)))
  | [] => by simp [inlining_filter]
  | f :: rest => by
    have ih := inlining_filter_mem output_set dont_inline skip_functions callers rvars g rest
    unfold inlining_filter
    by_cases h1 : f ∈ output_set ∨ f ∈ dont_inline
    · rw [if_pos h1, List.mem_cons, List.mem_cons, ih]
      constructor
      · rintro (rfl | ⟨hm, hk⟩)
        · exact ⟨Or.inl rfl, Or.inl h1⟩
        · exact ⟨Or.inr hm, hk⟩
      · rintro ⟨rfl | hm, hk⟩
        · exact Or.inl rfl
        · exact Or.inr ⟨hm, hk⟩
    · rw [if_neg h1]
      by_cases h2 : f ∈ skip_functions
      · rw [if_pos h2, List.mem_cons, ih]
        constructor
        · rintro ⟨hm, hk⟩
          exact ⟨Or.inr hm, hk⟩
        · rintro ⟨rfl | hm, hk⟩
          · rcases hk with hk | ⟨hk, _⟩
            · exact absurd hk h1
            · exact absurd h2 hk
          · exact ⟨hm, hk⟩
      · rw [if_neg h2]
        by_cases h3 : (callers f).length = 1 ∧ has_rvars (rvars f) = false
        · rw [if_pos h3, List.mem_cons, ih]
          constructor
          · rintro ⟨hm, hk⟩
            exact ⟨Or.inr hm, hk⟩
          · rintro ⟨rfl | hm, hk⟩
            · rcases hk with hk | ⟨_, hk⟩
              · exact absurd hk h1
              · exact absurd h3 hk
            · exact ⟨hm, hk⟩
        · rw [if_neg h3, List.mem_cons, List.mem_cons, ih]
          constructor
          · rintro (rfl | ⟨hm, hk⟩)
            · exact ⟨Or.inl rfl, Or.inr ⟨h2, h3⟩⟩
            · exact ⟨Or.inr hm, hk⟩
          · rintro ⟨rfl | hm, hk⟩
            · exact Or.inl rfl
            · exact Or.inr ⟨hm, hk⟩

/-! ## Wildcard consistency of the matcher contract -/

/-- The constant `2 ^ k` built at a vector type holds `2 ^ k` modulo the lane
width in every lane. -/
theorem lane_value_const_pow_two (env : String → Nat) (t : HalideType) (k : Nat)
    (hv : t.is_vector = true) (hf : t.is_float = false) (hk : k ≤ 30) :
    lane_value env (cast t (.IntImm (2 ^ k))) = some (2 ^ k % 2 ^ t.bits) := by
  have h30 : (2 : Nat) ^ k ≤ 2 ^ 30 := Nat.pow_le_pow_right (by norm_num) hk
  have himm : ofInt 32 ((2 : Int) ^ k) = 2 ^ k := by
    have hc : ((2 : Int) ^ k) = ((2 ^ k : Nat) : Int) := by push_cast; rfl
    rw [hc]
    exact ofInt_natCast 32 _ (by norm_num at h30 ⊢; omega)
  have hne : (Expr.IntImm (2 ^ k)).type ≠ t := by
    intro h
    rw [← h] at hv
    have hv' : (Int_ 32 1).is_vector = true := hv
    exact absurd hv' (by decide)
  unfold cast
  rw [if_neg hne, if_pos hv, if_pos (by rfl)]
  unfold cast_scalar
  by_cases he : (Expr.IntImm (2 ^ k)).type = t.element_of
  · rw [if_pos he]
    have hbits : t.bits = 32 := by
      have := congrArg HalideType.bits he
      exact this.symm
    simp only [lane_value, himm, hbits]
    rw [Nat.mod_eq_of_lt (by norm_num at h30 ⊢; omega)]
  · rw [if_neg he]
    have hf' : t.element_of.is_float = false := hf
    have h1 := lane_value_Cast env t.element_of (.IntImm (2 ^ k)) (ofInt 32 (2 ^ k)) hf' rfl rfl
    simp only [lane_value]
    simp only [lane_value] at h1
    rw [h1, himm]
    have hb : t.element_of.bits = t.bits := rfl
    have hb2 : (Expr.IntImm (2 ^ k)).type.bits = 32 := rfl
    have hi : (Expr.IntImm (2 ^ k)).type.is_int = true := rfl
    rw [hb, hb2, hi]
    unfold CreateIntCast
    by_cases hle : t.bits ≤ 32
    · rw [if_pos hle]
    · rw [if_neg hle]
      simp only [if_true]
      have hlt : (2 : Nat) ^ k < 2 ^ t.bits :=
        lt_of_le_of_lt h30 (Nat.pow_lt_pow_right (by norm_num) (by omega))
      rw [Nat.mod_eq_of_lt hlt]
      have hs : toSigned 32 (2 ^ k) = ((2 ^ k : Nat) : Int) := by
        unfold toSigned
        rw [if_pos (by norm_num at h30 ⊢; omega)]
      rw [hs]
      exact congrArg some (ofInt_natCast _ _ hlt)

/-- The set `dependencies[f]` holds exactly the functions of the order that
call `f`. -/
theorem mem_dependencies (order : List String) (find_dependency : String → List String)
    (f g : String) :
    g ∈ dependencies order find_dependency f ↔ g ∈ order ∧ f ∈ find_dependency g := by
  unfold dependencies
  rw [List.mem_dedup, List.mem_filter]
  simp

/-- The set `dependencies[f]` has one element exactly when one function of the
order, and no other, calls `f`. -/
theorem dependencies_length_one (order : List String) (find_dependency : String → List String)
    (f : String) :
    (dependencies order find_dependency f).length = 1 ↔
      ∃ g, (g ∈ order ∧ f ∈ find_dependency g) ∧
        ∀ g', g' ∈ order → f ∈ find_dependency g' → g' = g := by
  have hnd : (dependencies order find_dependency f).Nodup := by
    unfold dependencies
    exact List.nodup_dedup _
  constructor
  · intro h
    obtain ⟨g, hg⟩ := List.length_eq_one.1 h
    have hmem : g ∈ dependencies order find_dependency f := by rw [hg]; simp
    refine ⟨g, (mem_dependencies order find_dependency f g).1 hmem, fun g' h1 h2 => ?_⟩
    have hmem' := (mem_dependencies order find_dependency f g').2 ⟨h1, h2⟩
    rw [hg] at hmem'
    simpa using hmem'
  · rintro ⟨g, hg, huniq⟩
    have hmem := (mem_dependencies order find_dependency f g).2 hg
    have hall : ∀ x ∈ dependencies order find_dependency f, x = g := by
      intro x hx
      obtain ⟨h1, h2⟩ := (mem_dependencies order find_dependency f x).1 hx
      exact huniq x h1 h2
    generalize dependencies order find_dependency f = d at hnd hmem hall
    cases d with
    | nil => simp at hmem
    | cons a rest =>
      cases rest with
      | nil => rfl
      | cons b rest' =>
        have ha : a = g := hall a (by simp)
        have hb : b = g := hall b (by simp)
        rw [ha, hb] at hnd
        simp at hnd

/-- C39: the order kept after the inlining filter is a subsequence of the
realization order; it contains every function of that order that is an output
or is named in `dont_inline`, whether or not `skip_functions` names it; its
other members are not named in `skip_functions`; and a function of the order
that is none of these is left out exactly when exactly one function of the
order calls it and none of its update definitions has a reduction variable. -/
theorem new_order_characterised (output_set dont_inline skip_functions : List String)
    (find_dependency : String → List String) (rvars : String → List Nat)
    (order : List String) :
    (new_order output_set dont_inline skip_functions find_dependency rvars order).Sublist order ∧
    (∀ f ∈ order, f ∈ output_set ∨ f ∈ dont_inline →
      f ∈ new_order output_set dont_inline skip_functions find_dependency rvars order) ∧
    (∀ f ∈ new_order output_set dont_inline skip_functions find_dependency rvars order,
      f ∈ skip_functions → f ∈ output_set ∨ f ∈ dont_inline) ∧
    (∀ f ∈ order, f ∉ output_set → f ∉ dont_inline → f ∉ skip_functions →
      (f ∉ new_order output_set dont_inline skip_functions find_dependency rvars order ↔
        (∃ g, (g ∈ order ∧ f ∈ find_dependency g) ∧
          ∀ g', g' ∈ order → f ∈ find_dependency g' → g' = g) ∧
        ∀ n ∈ rvars f, n = 0)) := by
  unfold new_order
  refine ⟨inlining_filter_sublist _ _ _ _ _ _, fun f hf hk => ?_, fun f hf hs => ?_,
    fun f hf ho hd hs => ?_⟩
  · exact (inlining_filter_mem _ _ _ _ _ f order).2 ⟨hf, Or.inl hk⟩
  · rcases ((inlining_filter_mem _ _ _ _ _ f order).1 hf).2 with hk | ⟨hk, _⟩
    · exact hk
    · exact absurd hs hk
  · rw [inlining_filter_mem, ← has_rvars_false_iff, ← dependencies_length_one]
    constructor
    · intro hn
      by_contra hc
      exact hn ⟨hf, Or.inr ⟨hs, hc⟩⟩
    · rintro hc ⟨_, hk | ⟨_, hk⟩⟩
      · rcases hk with hk | hk
        · exact ho hk
        · exact hd hk
      · exact hk hc

/-- The filter on a chain of four functions: `blur` has the single caller
`out` and no reduction, so it is inlined; `hist` has a reduction and `tmp` two
callers, so both are kept. -/
theorem new_order_example :
    new_order ["out"] [] []
        (fun g => if g = "out" then ["blur", "hist", "tmp"]
          else if g = "hist" then ["tmp"] else [])
        (fun f => if f = "hist" then [1] else [])
        ["tmp", "hist", "blur", "out"]
      = ["tmp", "hist", "out"] := by
  decide

end Halide
